import Mathlib

/-!
A verification development for the `hub` package: an in-process
publish/subscribe coordinator.  The routing manager (`manager.go`) is
embedded shallowly: Go maps become association lists with a fixed
iteration order (a deterministic refinement of Go's unspecified map
iteration order; every map in the program is only ever mutated at the
key currently being processed, so snapshot iteration is faithful),
Go `int` counters become `Int` (the counters are only ever moved by
single increments and guarded decrements, so machine overflow is not
reachable for any feasible command sequence), channel sends and closes
become an explicit event trace, and the two places where the Go code
dereferences an unchecked map lookup (`m.conns[c]` in
`removeConnFromTopicRefCountOnly` and in `message`) become `Option`:
a `none` result models the nil-pointer panic Go would raise.
-/

namespace Hub

/-- Topics are opaque identities (`Topic interface{}` in Go); the
distinguished default topic (`nil` in Go) is modelled as `0`. -/
abbrev Topic := Nat

/-- The default topic, used whenever a command lists no topics. -/
def defaultTopic : Topic := 0

/-- A connection is identified by its channel's identity. -/
abbrev Conn := Nat

/-- Message payloads (`interface{}` values sent on channels). -/
abbrev Msg := String

/-- Observable channel activity of the manager: a delivery of a payload
to a connection's channel, or the closing of a connection's channel. -/
inductive Event where
  | deliver : Conn → Msg → Event
  | closed : Conn → Event
deriving Repr, DecidableEq

/-- `func (c *counter) inc()` — `*c++`.  The Go named type
`counter` (`type counter Number`, i.e. int) is modelled directly as
`Int`; its methods live in the `counter` namespace. -/
def counter.inc (c : Int) : Int := c + 1

/-- `func (c *counter) dec() bool` — returns `false` if the counter is
already 0; otherwise decrements and returns whether the counter reached
0.  The pair holds the new value and the returned Bool. -/
def counter.dec (c : Int) : Int × Bool :=
  if c = 0 then (c, false) else (c - 1, c - 1 = 0)

/-- `func (c *counter) reset(init Number)` — sets the value unless
`init` is negative, in which case it is a no-op. -/
def counter.reset (c : Int) (init : Int) : Int :=
  if init < 0 then c else init

/-- `connRefCount` of `manager.go`: per-connection reference counts. -/
structure ConnRefCount where
  topics : Int
  messages : Int
  keep : Bool
deriving Repr, DecidableEq

/-- Association-list lookup; models Go map indexing `l[k]`. -/
def lookupA {α β : Type} [DecidableEq α] : List (α × β) → α → Option β
  | [], _ => none
  | (k, v) :: rest, k' => if k' = k then some v else lookupA rest k'

/-- Association-list insertion/update; models Go map assignment
`l[k] = v` (replaces the binding in place, appends if absent). -/
def insertA {α β : Type} [DecidableEq α] : List (α × β) → α → β → List (α × β)
  | [], k, v => [(k, v)]
  | (k0, v0) :: rest, k, v =>
    if k = k0 then (k, v) :: rest else (k0, v0) :: insertA rest k v

/-- Association-list deletion; models Go `delete(l, k)`. -/
def eraseA {α β : Type} [DecidableEq α] : List (α × β) → α → List (α × β)
  | [], _ => []
  | (k0, v0) :: rest, k => if k = k0 then rest else (k0, v0) :: eraseA rest k

/-- The `manager` struct: `topics map[Topic]map[Conn]*counter` and
`conns map[Conn]*connRefCount`. -/
structure Manager where
  topics : List (Topic × List (Conn × Int))
  conns : List (Conn × ConnRefCount)
deriving Repr, DecidableEq

/-- `newManager()`. -/
def newManager : Manager := ⟨[], []⟩

/-- `getTopics(initial, defaultIfNone)`: substitutes the single default
topic when the list is empty and substitution is requested. -/
def getTopics (initial : List Topic) (defaultIfNone : Bool) : List Topic :=
  if defaultIfNone ∧ initial = [] then [defaultTopic] else initial

/-- The connections of a topic, as read through `getTopicConns`: a
missing topic reads as the freshly created empty map (the Go function
lazily inserts an empty map which the caller immediately fills; the
insertion of the filled map by the caller's write-back makes the two
equivalent). -/
def getTopicConns (topics : List (Topic × List (Conn × Int))) (t : Topic) :
    List (Conn × Int) :=
  (lookupA topics t).getD []

/-- The `Connect` command of `hub.go`. -/
structure Connect where
  conn : Conn
  topics : List Topic
  messageCount : Int
  keepAlive : Bool
deriving Repr, DecidableEq

/-- `TopicConn` of `hub.go`, as the pair (Topic, MessageCount). -/
abbrev TopicConn := Topic × Int

/-- The `ConnectEach` command of `hub.go`. -/
structure ConnectEach where
  conn : Conn
  topics : List TopicConn
  messageCount : Int
  keepAlive : Bool
deriving Repr, DecidableEq

/-- The `Disconnect` command of `hub.go`. -/
structure Disconnect where
  conn : Conn
  topics : List Topic
deriving Repr, DecidableEq

/-- The `Message` command of `hub.go`. -/
structure Message where
  message : Msg
  topics : List Topic
deriving Repr, DecidableEq

/-- `func (c *Connect) toConnectEach() *ConnectEach` — each listed topic
becomes a `TopicConn` with zero (unset) per-topic message count. -/
def Connect.toConnectEach (c : Connect) : ConnectEach :=
  ⟨c.conn, c.topics.map (fun t => (t, 0)), c.messageCount, c.keepAlive⟩

/-- The known-subscriber loop of `connectEach`: for each listed topic,
reset the per-topic counter if the edge exists, otherwise create the
edge with the listed count and increment the subscriber's topic
refcount (threaded as an accumulator, mirroring the in-place pointer
increments on `ref.topics`). -/
def connectEachKnownLoop (conn : Conn) :
    List TopicConn → List (Topic × List (Conn × Int)) → Int →
    List (Topic × List (Conn × Int)) × Int
  | [], topics, refTopics => (topics, refTopics)
  | t :: rest, topics, refTopics =>
    let cs := getTopicConns topics t.1
    match lookupA cs conn with
    | some cnt =>
      connectEachKnownLoop conn rest
        (insertA topics t.1 (insertA cs conn (counter.reset cnt t.2))) refTopics
    | none =>
      connectEachKnownLoop conn rest
        (insertA topics t.1 (insertA cs conn t.2)) (counter.inc refTopics)

/-- The fresh-subscriber loop of `connectEach`: insert every listed edge
with its per-topic count (`m.getTopicConns(t.Topic)[c.Conn] = newCounter(t.MessageCount)`). -/
def connectEachFreshLoop (conn : Conn) :
    List TopicConn → List (Topic × List (Conn × Int)) →
    List (Topic × List (Conn × Int))
  | [], topics => topics
  | t :: rest, topics =>
    connectEachFreshLoop conn rest
      (insertA topics t.1 (insertA (getTopicConns topics t.1) conn t.2))

/-- `func (m *manager) connectEach(c *ConnectEach)`. -/
def Manager.connectEach (m : Manager) (c : ConnectEach) : Manager :=
  match lookupA m.conns c.conn with
  | some ref =>
    let r := connectEachKnownLoop c.conn c.topics m.topics ref.topics
    { topics := r.1,
      conns := insertA m.conns c.conn
        ⟨r.2, counter.reset ref.messages c.messageCount, c.keepAlive⟩ }
  | none =>
    let topics := if c.topics = [] then [((defaultTopic : Topic), (0 : Int))] else c.topics
    { topics := connectEachFreshLoop c.conn topics m.topics,
      conns := insertA m.conns c.conn
        ⟨(topics.length : Int), c.messageCount, c.keepAlive⟩ }

/-- `func (m *manager) connect(c *Connect)`. -/
def Manager.connect (m : Manager) (c : Connect) : Manager :=
  m.connectEach c.toConnectEach

/-- `func (m *manager) removeConnFromTopicNoRefCounter(t Topic, c Conn) bool` —
deletes the connection from the topic, garbage-collects an emptied
topic, and reports whether anything was deleted. -/
def Manager.removeConnFromTopicNoRefCounter (m : Manager) (t : Topic) (c : Conn) :
    Manager × Bool :=
  match lookupA m.topics t with
  | none => (m, false)
  | some cs =>
    match lookupA cs c with
    | none => (m, false)
    | some _ =>
      let cs' := eraseA cs c
      if cs' = [] then ({ m with topics := eraseA m.topics t }, true)
      else ({ m with topics := insertA m.topics t cs' }, true)

/-- `func (m *manager) removeConnFromTopicRefCountOnly(c Conn) bool` —
decrements the connection's topic refcount; on reaching zero deletes
the connection and closes its channel unless `keep`, returning `true`.
`none` models the nil-pointer panic when the connection is unknown
(`ref := m.conns[c]` is unguarded in Go). -/
def Manager.removeConnFromTopicRefCountOnly (m : Manager) (c : Conn) :
    Option (Manager × List Event × Bool) :=
  match lookupA m.conns c with
  | none => none
  | some ref =>
    let d := counter.dec ref.topics
    if d.2 then
      some ({ m with conns := eraseA m.conns c },
        if ref.keep then [] else [Event.closed c], true)
    else
      some ({ m with conns := insertA m.conns c { ref with topics := d.1 } }, [], false)

/-- `func (m *manager) removeConnFromTopic(t Topic, c Conn) bool` —
the composition: remove the edge, and only if an edge was actually
removed, decrement the refcount (possibly evicting the connection). -/
def Manager.removeConnFromTopic (m : Manager) (t : Topic) (c : Conn) :
    Option (Manager × List Event × Bool) :=
  let r := m.removeConnFromTopicNoRefCounter t c
  if r.2 then r.1.removeConnFromTopicRefCountOnly c
  else some (r.1, [], false)

/-- The `for t := range m.topics` sweep of `disconnectAll`: unlink the
connection from every topic without touching refcounts, iterating over
a snapshot of the topic keys. -/
def removeConnAllTopicsNoRef (m : Manager) (c : Conn) : List Topic → Manager
  | [] => m
  | t :: ts => removeConnAllTopicsNoRef (m.removeConnFromTopicNoRefCounter t c).1 c ts

/-- `func (m *manager) disconnectAll(d DisconnectAll)` — unknown
connection is a no-op; otherwise close the channel (unless `keep`),
delete the entry, and unlink the connection from every topic. -/
def Manager.disconnectAll (m : Manager) (c : Conn) : Manager × List Event :=
  match lookupA m.conns c with
  | none => (m, [])
  | some ref =>
    let m' : Manager := { m with conns := eraseA m.conns c }
    (removeConnAllTopicsNoRef m' c (m'.topics.map Prod.fst),
      if ref.keep then [] else [Event.closed c])

/-- The topic loop of `disconnect`: skip topics absent from the routing
table; otherwise `removeConnFromTopic`, and stop as soon as a removal
reports that the connection was removed (evicted). -/
def disconnectLoop (m : Manager) (c : Conn) : List Topic → Option (Manager × List Event)
  | [] => some (m, [])
  | t :: ts =>
    match lookupA m.topics t with
    | none => disconnectLoop m c ts
    | some _ =>
      match m.removeConnFromTopic t c with
      | none => none
      | some (m', evs, removed) =>
        if removed then some (m', evs)
        else
          match disconnectLoop m' c ts with
          | none => none
          | some (m'', evs') => some (m'', evs ++ evs')

/-- `func (m *manager) disconnect(d *Disconnect)` — unknown connection
is a no-op; otherwise run the topic loop over the listed topics (the
default topic when none are listed). -/
def Manager.disconnect (m : Manager) (d : Disconnect) : Option (Manager × List Event) :=
  match lookupA m.conns d.conn with
  | none => some (m, [])
  | some _ => disconnectLoop m d.conn (getTopics d.topics true)

/-- The inner loop of `closeTopics` / `closeAllTopics`: decrement the
topic refcount of every connection that was on a dropped topic. -/
def closeTopicConnsLoop (m : Manager) : List Conn → List Event → Option (Manager × List Event)
  | [], evs => some (m, evs)
  | c :: cs, evs =>
    match m.removeConnFromTopicRefCountOnly c with
    | none => none
    | some (m', evs', _) => closeTopicConnsLoop m' cs (evs ++ evs')

/-- The topic loop of `closeTopics`: skip absent topics; otherwise drop
the topic map and decrement the refcount of each of its connections. -/
def closeTopicsLoop (m : Manager) : List Topic → List Event → Option (Manager × List Event)
  | [], evs => some (m, evs)
  | t :: ts, evs =>
    match lookupA m.topics t with
    | none => closeTopicsLoop m ts evs
    | some cs =>
      match closeTopicConnsLoop { m with topics := eraseA m.topics t } (cs.map Prod.fst) evs with
      | none => none
      | some (m', evs') => closeTopicsLoop m' ts evs'

/-- `func (m *manager) closeTopics(c Close)`. -/
def Manager.closeTopics (m : Manager) (c : List Topic) : Option (Manager × List Event) :=
  closeTopicsLoop m (getTopics c true) []

/-- The loop of `closeAllTopics`, over a snapshot of the topic entries
(`for t, conns := range m.topics`, deleting each visited entry). -/
def closeAllTopicsLoop (m : Manager) :
    List (Topic × List (Conn × Int)) → List Event → Option (Manager × List Event)
  | [], evs => some (m, evs)
  | (t, cs) :: rest, evs =>
    match closeTopicConnsLoop { m with topics := eraseA m.topics t } (cs.map Prod.fst) evs with
    | none => none
    | some (m', evs') => closeAllTopicsLoop m' rest evs'

/-- `func (m *manager) closeAllTopics()`. -/
def Manager.closeAllTopics (m : Manager) : Option (Manager × List Event) :=
  closeAllTopicsLoop m m.topics []

/-- Write-back of a per-edge counter through its pointer: the pointer
stored at edge `(t, c)` is written with `v`; if the edge is gone the
write lands on an unreachable counter object and the table is
unchanged. -/
def updateEdgeCnt (topics : List (Topic × List (Conn × Int))) (t : Topic) (c : Conn)
    (v : Int) : List (Topic × List (Conn × Int)) :=
  match lookupA topics t with
  | none => topics
  | some cs =>
    match lookupA cs c with
    | none => topics
    | some _ => insertA topics t (insertA cs c v)

/-- The `for t := range m.topics` removal sweep in `message`, run when a
connection's total message budget depletes: `removeConnFromTopic` on a
snapshot of all topic keys. -/
def removeConnEverywhere (m : Manager) (c : Conn) : List Topic → Option (Manager × List Event)
  | [] => some (m, [])
  | t :: ts =>
    match m.removeConnFromTopic t c with
    | none => none
    | some (m', evs, _) =>
      match removeConnEverywhere m' c ts with
      | none => none
      | some (m'', evs') => some (m'', evs ++ evs')

/-- The body of the inner loop of `message`, for one connection `c` of
topic `t`: send the payload, decrement the connection's total message
budget (`m.conns[c].messages.dec()` — `none` models the nil-pointer
panic when `c` is unknown); on depletion remove the connection from
every topic; otherwise decrement the per-edge counter and on depletion
remove the edge. -/
def processConn (m : Manager) (t : Topic) (payload : Msg) (c : Conn) :
    Option (Manager × List Event) :=
  match lookupA m.conns c with
  | none => none
  | some ref =>
    let d := counter.dec ref.messages
    let m₁ : Manager := { m with conns := insertA m.conns c { ref with messages := d.1 } }
    if d.2 then
      match removeConnEverywhere m₁ c (m₁.topics.map Prod.fst) with
      | none => none
      | some (m₂, evs) => some (m₂, Event.deliver c payload :: evs)
    else
      let cnt := (lookupA (getTopicConns m₁.topics t) c).getD 0
      let d₂ := counter.dec cnt
      let m₂ : Manager := { m₁ with topics := updateEdgeCnt m₁.topics t c d₂.1 }
      if d₂.2 then
        match m₂.removeConnFromTopic t c with
        | none => none
        | some (m₃, evs, _) => some (m₃, Event.deliver c payload :: evs)
      else some (m₂, [Event.deliver c payload])

/-- The inner loop of `message` over the snapshot of a topic's
connections. -/
def messageConnsLoop (m : Manager) (t : Topic) (payload : Msg) :
    List Conn → List Event → Option (Manager × List Event)
  | [], evs => some (m, evs)
  | c :: cs, evs =>
    match processConn m t payload c with
    | none => none
    | some (m', evs') => messageConnsLoop m' t payload cs (evs ++ evs')

/-- The outer loop of `message` over the target topics
(`for c, cnt := range m.topics[t]` — a missing topic reads as the nil
map and contributes no iterations). -/
def messageTopicsLoop (m : Manager) (payload : Msg) :
    List Topic → List Event → Option (Manager × List Event)
  | [], evs => some (m, evs)
  | t :: ts, evs =>
    match messageConnsLoop m t payload (((lookupA m.topics t).getD []).map Prod.fst) evs with
    | none => none
    | some (m', evs') => messageTopicsLoop m' payload ts evs'

/-- `func (m *manager) message(msg *Message)`. -/
def Manager.message (m : Manager) (msg : Message) : Option (Manager × List Event) :=
  messageTopicsLoop m msg.message (getTopics msg.topics true) []

/-- `func (m *manager) close()` — on hub shutdown, close every
remaining connection whose `keep` flag is unset. -/
def Manager.closeRemaining (m : Manager) : List Event :=
  (m.conns.filter (fun p => !p.2.keep)).map (fun p => Event.closed p.1)

/-- The tagged command variants dispatched by `Hub.Start`. -/
inductive Cmd where
  | message : Message → Cmd
  | connect : Connect → Cmd
  | connectEach : ConnectEach → Cmd
  | disconnect : Disconnect → Cmd
  | disconnectAll : Conn → Cmd
  | closeTopics : List Topic → Cmd
  | closeAll : Cmd
  | bareConn : Conn → Cmd
  | other : Msg → Cmd
deriving Repr, DecidableEq

/-- One iteration of the `Hub.Start` dispatch switch: a bare `Conn` is
dispatched as `ConnectEach{Conn: v}`, any unrecognised value as
`Message{Message: v}`. -/
def stepCmd (m : Manager) : Cmd → Option (Manager × List Event)
  | .message msg => m.message msg
  | .connect c => some (m.connect c, [])
  | .connectEach c => some (m.connectEach c, [])
  | .disconnect d => m.disconnect d
  | .disconnectAll c => some (m.disconnectAll c)
  | .closeTopics ts => m.closeTopics ts
  | .closeAll => m.closeAllTopics
  | .bareConn c => some (m.connectEach ⟨c, [], 0, false⟩, [])
  | .other p => m.message ⟨p, []⟩

/-- The command loop of `Hub.Start`, from a given state. -/
def runCmds (m : Manager) : List Cmd → Option (Manager × List Event)
  | [] => some (m, [])
  | c :: cs =>
    match stepCmd m c with
    | none => none
    | some (m', evs) =>
      match runCmds m' cs with
      | none => none
      | some (m'', evs') => some (m'', evs ++ evs')

/-- A full `Hub.Start` run: the command loop from the fresh manager,
followed by the deferred `m.close()` teardown on input-channel close. -/
def hubRun (cmds : List Cmd) : Option (Manager × List Event) :=
  match runCmds newManager cmds with
  | none => none
  | some (m, evs) => some (m, evs ++ m.closeRemaining)

/-! ## Derived observations on the routing table -/

/-- The per-topic counter stored at edge `(t, c)` of a topics table. -/
def edgeOf (topics : List (Topic × List (Conn × Int))) (t : Topic) (c : Conn) :
    Option Int :=
  lookupA (getTopicConns topics t) c

/-- The per-topic counter stored at edge `(t, c)` of the manager. -/
def Manager.lookupEdge (m : Manager) (t : Topic) (c : Conn) : Option Int :=
  edgeOf m.topics t c

/-- The number of entries of the topics table that carry an edge for
connection `c` — "the number of topics t such that c ∈ routing[t]". -/
def edgeCount (m : Manager) (c : Conn) : Nat :=
  m.topics.countP (fun p => (lookupA p.2 c).isSome)

/-- The keys of an association list are pairwise distinct.  Every list
standing for a Go map satisfies this. -/
def keysND {α β : Type} [DecidableEq α] (l : List (α × β)) : Prop :=
  (l.map Prod.fst).Nodup

/-- Well-formedness: all three association lists have distinct keys. -/
def WF (m : Manager) : Prop :=
  keysND m.topics ∧ keysND m.conns ∧ ∀ p ∈ m.topics, keysND p.2

/-- Invariant 1 of the spec: every `(topic, subscriber)` edge points to
a known subscriber. -/
def I1 (m : Manager) : Prop :=
  ∀ p ∈ m.topics, ∀ q ∈ p.2, (lookupA m.conns q.1).isSome

/-- Each subscriber's `topicRefs` counter bounds from above the number
of topics containing it. -/
def IGe (m : Manager) : Prop :=
  ∀ p ∈ m.conns, (edgeCount m p.1 : Int) ≤ p.2.topics

/-- Invariant 2 of the spec: each subscriber's `topicRefs` counter
equals the number of topics containing it. -/
def IEq (m : Manager) : Prop :=
  ∀ p ∈ m.conns, p.2.topics = (edgeCount m p.1 : Int)

/-- The safety invariant: well-formed, double-indexed, refcounts bound
the edge counts from above. -/
def Inv (m : Manager) : Prop := WF m ∧ I1 m ∧ IGe m

/-- The exact-count invariant: well-formed, double-indexed, refcounts
equal the edge counts. -/
def Inv2 (m : Manager) : Prop := WF m ∧ I1 m ∧ IEq m

/-- All counters stored in the table are nonnegative. -/
def NonnegM (m : Manager) : Prop :=
  (∀ p ∈ m.conns, 0 ≤ p.2.topics ∧ 0 ≤ p.2.messages) ∧
  ∀ p ∈ m.topics, ∀ q ∈ p.2, 0 ≤ q.2

instance keysNDDec {α β : Type} [DecidableEq α] (l : List (α × β)) :
    Decidable (keysND l) :=
  inferInstanceAs (Decidable (l.map Prod.fst).Nodup)

instance WFDec (m : Manager) : Decidable (WF m) :=
  inferInstanceAs (Decidable (keysND m.topics ∧ keysND m.conns ∧ ∀ p ∈ m.topics, keysND p.2))

instance I1Dec (m : Manager) : Decidable (I1 m) :=
  inferInstanceAs (Decidable (∀ p ∈ m.topics, ∀ q ∈ p.2, (lookupA m.conns q.1).isSome))

instance IGeDec (m : Manager) : Decidable (IGe m) :=
  inferInstanceAs (Decidable (∀ p ∈ m.conns, (edgeCount m p.1 : Int) ≤ p.2.topics))

instance IEqDec (m : Manager) : Decidable (IEq m) :=
  inferInstanceAs (Decidable (∀ p ∈ m.conns, p.2.topics = (edgeCount m p.1 : Int)))

instance InvDec (m : Manager) : Decidable (Inv m) :=
  inferInstanceAs (Decidable (WF m ∧ I1 m ∧ IGe m))

instance Inv2Dec (m : Manager) : Decidable (Inv2 m) :=
  inferInstanceAs (Decidable (WF m ∧ I1 m ∧ IEq m))

instance NonnegMDec (m : Manager) : Decidable (NonnegM m) :=
  inferInstanceAs (Decidable ((∀ p ∈ m.conns, 0 ≤ p.2.topics ∧ 0 ≤ p.2.messages) ∧
    ∀ p ∈ m.topics, ∀ q ∈ p.2, 0 ≤ q.2))

/-- A command whose Connect/ConnectEach topic list has pairwise
distinct topics (all other commands qualify trivially). -/
def Cmd.nodupTopics : Cmd → Prop
  | .connect c => c.topics.Nodup
  | .connectEach c => (c.topics.map Prod.fst).Nodup
  | _ => True

/-- A command whose Connect/ConnectEach message counts are all
nonnegative (all other commands qualify trivially). -/
def Cmd.nonnegCounts : Cmd → Prop
  | .connect c => 0 ≤ c.messageCount
  | .connectEach c => 0 ≤ c.messageCount ∧ ∀ p ∈ c.topics, 0 ≤ p.2
  | _ => True

/-! ## Association-list lemmas -/

theorem lookupA_insertA_self {α β : Type} [DecidableEq α] (l : List (α × β)) (k : α) (v : β) :
    lookupA (insertA l k v) k = some v := by
  induction l with
  | nil => simp [insertA, lookupA]
  | cons p rest ih =>
    by_cases h : k = p.1
    · simp [insertA, h, lookupA]
    · simp [insertA, h, lookupA, ih]

theorem lookupA_insertA_ne {α β : Type} [DecidableEq α] (l : List (α × β)) {k k' : α} (v : β)
    (h : k' ≠ k) : lookupA (insertA l k v) k' = lookupA l k' := by
  induction l with
  | nil => simp [insertA, lookupA, h]
  | cons p rest ih =>
    by_cases hk : k = p.1
    · subst hk
      simp [insertA, lookupA, h]
    · by_cases hk' : k' = p.1
      · simp [insertA, hk, lookupA, hk']
      · simp [insertA, hk, lookupA, hk', ih]

theorem lookupA_eraseA_ne {α β : Type} [DecidableEq α] (l : List (α × β)) {k k' : α}
    (h : k' ≠ k) : lookupA (eraseA l k) k' = lookupA l k' := by
  induction l with
  | nil => simp [eraseA]
  | cons p rest ih =>
    by_cases hk : k = p.1
    · subst hk
      simp [eraseA, lookupA, h]
    · by_cases hk' : k' = p.1
      · simp [eraseA, hk, lookupA, hk']
      · simp [eraseA, hk, lookupA, hk', ih]

theorem mem_map_fst_eraseA {α β : Type} [DecidableEq α] (l : List (α × β)) (k k' : α)
    (h : k' ∈ (eraseA l k).map Prod.fst) : k' ∈ l.map Prod.fst := by
  induction l with
  | nil => simp [eraseA] at h
  | cons p rest ih =>
    by_cases hk : k = p.1
    · simp only [eraseA, if_pos hk] at h
      simp [h]
    · simp only [eraseA, if_neg hk, List.map_cons, List.mem_cons] at h ⊢
      rcases h with h | h
      · exact Or.inl h
      · exact Or.inr (ih h)

theorem lookupA_eraseA_self {α β : Type} [DecidableEq α] (l : List (α × β)) (k : α)
    (hnd : keysND l) : lookupA (eraseA l k) k = none := by
  induction l with
  | nil => simp [eraseA, lookupA]
  | cons p rest ih =>
    simp only [keysND, List.map_cons, List.nodup_cons] at hnd
    by_cases hk : k = p.1
    · subst hk
      simp only [eraseA, if_pos rfl]
      cases hl : lookupA rest p.1 with
      | none => exact hl
      | some v =>
        exfalso
        have : p.1 ∈ rest.map Prod.fst := by
          clear ih hnd
          induction rest with
          | nil => simp [lookupA] at hl
          | cons q qs ihq =>
            simp only [lookupA] at hl
            by_cases hq : p.1 = q.1
            · simp [hq]
            · simp only [if_neg hq] at hl
              simp [ihq hl]
        exact hnd.1 this
    · simp only [eraseA, if_neg hk, lookupA, if_neg hk]
      exact ih hnd.2

theorem keysND_insertA {α β : Type} [DecidableEq α] (l : List (α × β)) (k : α) (v : β)
    (hnd : keysND l) : keysND (insertA l k v) := by
  induction l with
  | nil => simp [insertA, keysND]
  | cons p rest ih =>
    simp only [keysND, List.map_cons, List.nodup_cons] at hnd
    by_cases hk : k = p.1
    · subst hk
      simpa [insertA, keysND] using hnd
    · have h2 := ih hnd.2
      simp only [insertA, if_neg hk, keysND, List.map_cons, List.nodup_cons]
      refine ⟨fun hmem => ?_, h2⟩
      have : ∀ l' : List (α × β), keysND l' → p.1 ∈ (insertA l' k v).map Prod.fst →
          p.1 ∈ l'.map Prod.fst ∨ p.1 = k := by
        intro l'
        induction l' with
        | nil => simp [insertA]
        | cons q qs ihq =>
          intro hnd' hm
          simp only [keysND, List.map_cons, List.nodup_cons] at hnd'
          by_cases hq : k = q.1
          · simp only [insertA, if_pos hq, List.map_cons, List.mem_cons] at hm
            rcases hm with hm | hm
            · exact Or.inr hm
            · exact Or.inl (by simp [hm])
          · simp only [insertA, if_neg hq, List.map_cons, List.mem_cons] at hm
            rcases hm with hm | hm
            · exact Or.inl (by simp [hm])
            · rcases ihq hnd'.2 hm with h | h
              · exact Or.inl (by simp [h])
              · exact Or.inr h
      rcases this rest hnd.2 hmem with h | h
      · exact hnd.1 h
      · exact hk h.symm

theorem keysND_eraseA {α β : Type} [DecidableEq α] (l : List (α × β)) (k : α)
    (hnd : keysND l) : keysND (eraseA l k) := by
  induction l with
  | nil => simp [eraseA, keysND]
  | cons p rest ih =>
    simp only [keysND, List.map_cons, List.nodup_cons] at hnd
    by_cases hk : k = p.1
    · simpa [eraseA, if_pos hk, keysND] using hnd.2
    · simp only [eraseA, if_neg hk, keysND, List.map_cons, List.nodup_cons]
      exact ⟨fun hmem => hnd.1 (mem_map_fst_eraseA rest k p.1 hmem), ih hnd.2⟩

theorem mem_of_lookupA {α β : Type} [DecidableEq α] {l : List (α × β)} {k : α} {v : β}
    (h : lookupA l k = some v) : (k, v) ∈ l := by
  induction l with
  | nil => simp [lookupA] at h
  | cons p rest ih =>
    simp only [lookupA] at h
    by_cases hk : k = p.1
    · simp only [if_pos hk] at h
      obtain ⟨p1, p2⟩ := p
      simp only [Option.some.injEq] at h
      subst h
      simp only at hk
      subst hk
      exact List.mem_cons_self _ _
    · simp only [if_neg hk] at h
      exact List.mem_cons_of_mem _ (ih h)

theorem lookupA_of_mem {α β : Type} [DecidableEq α] {l : List (α × β)} {k : α} {v : β}
    (hnd : keysND l) (h : (k, v) ∈ l) : lookupA l k = some v := by
  induction l with
  | nil => simp at h
  | cons p rest ih =>
    simp only [keysND, List.map_cons, List.nodup_cons] at hnd
    rcases List.mem_cons.mp h with h | h
    · simp [lookupA, ← h]
    · have hk : k ≠ p.1 := by
        intro hk
        exact hnd.1 (hk ▸ (List.mem_map.mpr ⟨(k, v), h, rfl⟩))
      simp [lookupA, hk, ih hnd.2 h]

theorem lookupA_isSome_iff {α β : Type} [DecidableEq α] (l : List (α × β)) (k : α) :
    (lookupA l k).isSome ↔ k ∈ l.map Prod.fst := by
  induction l with
  | nil => simp [lookupA]
  | cons p rest ih =>
    by_cases hk : k = p.1
    · simp [lookupA, hk]
    · simp [lookupA, hk, ih]

theorem lookupA_eq_none_iff {α β : Type} [DecidableEq α] (l : List (α × β)) (k : α) :
    lookupA l k = none ↔ k ∉ l.map Prod.fst := by
  rw [← lookupA_isSome_iff]
  cases lookupA l k <;> simp

theorem mem_insertA_elim {α β : Type} [DecidableEq α] {l : List (α × β)} {k : α} {v : β}
    {x : α × β} (h : x ∈ insertA l k v) : x = (k, v) ∨ x ∈ l := by
  induction l with
  | nil => simpa [insertA] using h
  | cons p rest ih =>
    by_cases hk : k = p.1
    · simp only [insertA, if_pos hk, List.mem_cons] at h
      rcases h with h | h
      · exact Or.inl h
      · exact Or.inr (List.mem_cons_of_mem _ h)
    · simp only [insertA, if_neg hk, List.mem_cons] at h
      rcases h with h | h
      · exact Or.inr (List.mem_cons.mpr (Or.inl h))
      · rcases ih h with h' | h'
        · exact Or.inl h'
        · exact Or.inr (List.mem_cons_of_mem _ h')

theorem mem_eraseA_elim {α β : Type} [DecidableEq α] {l : List (α × β)} {k : α}
    {x : α × β} (h : x ∈ eraseA l k) : x ∈ l := by
  induction l with
  | nil => simp [eraseA] at h
  | cons p rest ih =>
    by_cases hk : k = p.1
    · simp only [eraseA, if_pos hk] at h
      exact List.mem_cons_of_mem _ h
    · simp only [eraseA, if_neg hk, List.mem_cons] at h
      rcases h with h | h
      · exact List.mem_cons.mpr (Or.inl h)
      · exact List.mem_cons_of_mem _ (ih h)

theorem eraseA_of_absent {α β : Type} [DecidableEq α] {l : List (α × β)} {k : α}
    (hl : lookupA l k = none) : eraseA l k = l := by
  induction l with
  | nil => simp [eraseA]
  | cons p rest ih =>
    simp only [lookupA] at hl
    by_cases hk : k = p.1
    · simp [if_pos hk] at hl
    · simp only [if_neg hk] at hl
      simp [eraseA, hk, ih hl]

/-! ## Counting lemmas -/

theorem countP_insertA_present {α β : Type} [DecidableEq α] {l : List (α × β)} {k : α}
    {v₀ : β} (v : β) (p : α × β → Bool) (hl : lookupA l k = some v₀) :
    (insertA l k v).countP p + (if p (k, v₀) then 1 else 0)
      = l.countP p + (if p (k, v) then 1 else 0) := by
  induction l with
  | nil => simp [lookupA] at hl
  | cons q rest ih =>
    obtain ⟨q1, q2⟩ := q
    simp only [lookupA] at hl
    by_cases hk : k = q1
    · subst hk
      simp at hl
      obtain rfl : q2 = v₀ := hl
      simp [insertA, List.countP_cons]
      omega
    · simp only [if_neg hk] at hl
      simp only [insertA, if_neg hk, List.countP_cons]
      have := ih hl
      omega

theorem countP_insertA_absent {α β : Type} [DecidableEq α] {l : List (α × β)} {k : α}
    (v : β) (p : α × β → Bool) (hl : lookupA l k = none) :
    (insertA l k v).countP p = l.countP p + (if p (k, v) then 1 else 0) := by
  induction l with
  | nil => simp [insertA, List.countP_cons]
  | cons q rest ih =>
    obtain ⟨q1, q2⟩ := q
    simp only [lookupA] at hl
    by_cases hk : k = q1
    · simp [if_pos hk] at hl
    · simp only [if_neg hk] at hl
      simp only [insertA, if_neg hk, List.countP_cons]
      have := ih hl
      omega

theorem countP_eraseA_present {α β : Type} [DecidableEq α] {l : List (α × β)} {k : α}
    {v₀ : β} (p : α × β → Bool) (hl : lookupA l k = some v₀) :
    (eraseA l k).countP p + (if p (k, v₀) then 1 else 0) = l.countP p := by
  induction l with
  | nil => simp [lookupA] at hl
  | cons q rest ih =>
    obtain ⟨q1, q2⟩ := q
    simp only [lookupA] at hl
    by_cases hk : k = q1
    · subst hk
      simp at hl
      obtain rfl : q2 = v₀ := hl
      simp [eraseA, List.countP_cons]
    · simp only [if_neg hk] at hl
      simp only [eraseA, if_neg hk, List.countP_cons]
      have := ih hl
      omega

/-! ## Bridges between the invariants and lookups -/

theorem edgeOf_isSome_elim {topics : List (Topic × List (Conn × Int))} {t : Topic}
    {c : Conn} (h : (edgeOf topics t c).isSome) :
    ∃ cs v, lookupA topics t = some cs ∧ lookupA cs c = some v := by
  unfold edgeOf getTopicConns at h
  cases hl : lookupA topics t with
  | none => rw [hl] at h; simp [lookupA] at h
  | some cs =>
    rw [hl] at h
    simp only [Option.getD_some] at h
    cases hc : lookupA cs c with
    | none => rw [hc] at h; simp at h
    | some v => exact ⟨cs, v, rfl, hc⟩

theorem I1_lookup {m : Manager} (h : I1 m) {t : Topic} {c : Conn}
    (he : (m.lookupEdge t c).isSome) : (lookupA m.conns c).isSome := by
  obtain ⟨cs, v, hcs, hv⟩ := edgeOf_isSome_elim he
  exact h (t, cs) (mem_of_lookupA hcs) (c, v) (mem_of_lookupA hv)

theorem IGe_lookup {m : Manager} (h : IGe m) {c : Conn} {ref : ConnRefCount}
    (hc : lookupA m.conns c = some ref) : (edgeCount m c : Int) ≤ ref.topics :=
  h (c, ref) (mem_of_lookupA hc)

theorem IEq_lookup {m : Manager} (h : IEq m) {c : Conn} {ref : ConnRefCount}
    (hc : lookupA m.conns c = some ref) : ref.topics = (edgeCount m c : Int) :=
  h (c, ref) (mem_of_lookupA hc)

theorem edgeCount_eq_zero_of_absent {m : Manager} (h1 : I1 m) {c : Conn}
    (hc : lookupA m.conns c = none) : edgeCount m c = 0 := by
  rw [edgeCount, List.countP_eq_zero]
  intro p hp
  cases hv : lookupA p.2 c with
  | none => simp [hv]
  | some v =>
    exfalso
    have := h1 p hp (c, v) (mem_of_lookupA hv)
    rw [hc] at this
    simp at this

theorem edgeCount_pos_of_edge {m : Manager} {t : Topic} {c : Conn}
    (he : (m.lookupEdge t c).isSome) : 1 ≤ edgeCount m c := by
  obtain ⟨cs, v, hcs, hv⟩ := edgeOf_isSome_elim he
  have hmem : (t, cs) ∈ m.topics := mem_of_lookupA hcs
  have : 0 < edgeCount m c := by
    rw [edgeCount, List.countP_pos_iff]
    exact ⟨(t, cs), hmem, by simp [hv]⟩
  omega

/-- The pointwise form of the edge count: if the count is zero, every
topic's edge for `c` is absent. -/
theorem lookupEdge_eq_none_of_count_zero {m : Manager} {c : Conn}
    (h : edgeCount m c = 0) (t : Topic) : m.lookupEdge t c = none := by
  rw [edgeCount, List.countP_eq_zero] at h
  show edgeOf m.topics t c = none
  unfold edgeOf getTopicConns
  cases hl : lookupA m.topics t with
  | none => simp [lookupA]
  | some cs =>
    simp only [Option.getD_some]
    have := h (t, cs) (mem_of_lookupA hl)
    cases hc : lookupA cs c with
    | none => rfl
    | some v =>
      exfalso
      apply this
      simp [hc]

/-! ## Claim C7: unknown-subscriber Disconnect / DisconnectAll -/

/-- C7: for every routing-table state and every Disconnect or
DisconnectAll command whose subscriber is not in the subscribers map,
the command leaves the table exactly unchanged and emits no event (in
particular it closes no channel). -/
theorem c7_unknown_disconnect_is_noop (m : Manager) (c : Conn) (ts : List Topic)
    (h : lookupA m.conns c = none) :
    m.disconnect ⟨c, ts⟩ = some (m, []) ∧ m.disconnectAll c = (m, []) := by
  constructor
  · simp [Manager.disconnect, h]
  · simp [Manager.disconnectAll, h]

theorem c7_witness :
    lookupA (⟨[(1, [(4, 5)])], [(4, ⟨1, 7, true⟩)]⟩ : Manager).conns 9 = none ∧
    ((⟨[(1, [(4, 5)])], [(4, ⟨1, 7, true⟩)]⟩ : Manager).disconnect ⟨9, [1]⟩
        = some (⟨[(1, [(4, 5)])], [(4, ⟨1, 7, true⟩)]⟩, []) ∧
      (⟨[(1, [(4, 5)])], [(4, ⟨1, 7, true⟩)]⟩ : Manager).disconnectAll 9
        = (⟨[(1, [(4, 5)])], [(4, ⟨1, 7, true⟩)]⟩, [])) :=
  ⟨by decide,
    c7_unknown_disconnect_is_noop ⟨[(1, [(4, 5)])], [(4, ⟨1, 7, true⟩)]⟩ 9 [1] (by decide)⟩

/-! ## Claim C8: per-topic quota end-to-end scenario -/

/-- C8: from the empty table, ConnectEach of subscriber 7 with
per-topic quotas 1 on topic 1, 2 on topic 2, 3 on topic 3 (no total
quota, no keepAlive), then three Messages "First", "Second", "Third"
each to topics [1,2,3], then closing the input, yields exactly the
transcript First, First, First, Second, Second, Third followed by the
close of the subscriber's channel, and an emptied table. -/
theorem c8_per_topic_quota_scenario :
    hubRun [Cmd.connectEach ⟨7, [(1, 1), (2, 2), (3, 3)], 0, false⟩,
        Cmd.message ⟨"First", [1, 2, 3]⟩, Cmd.message ⟨"Second", [1, 2, 3]⟩,
        Cmd.message ⟨"Third", [1, 2, 3]⟩]
      = some (⟨[], []⟩,
        [Event.deliver 7 "First", Event.deliver 7 "First", Event.deliver 7 "First",
          Event.deliver 7 "Second", Event.deliver 7 "Second", Event.deliver 7 "Third",
          Event.closed 7]) := by
  rfl

/-! ## Claim C9: zero total quota on re-Connect resets to unlimited -/

/-- C9: re-connecting a known subscriber with total MessageCount 0 —
in particular the bare-subscriber command, dispatched as ConnectEach
with no topics, zero counts and keepAlive false — resets the
subscriber's messageRefs to 0 ("unlimited"), discarding any previous
finite budget, leaves the topics table unchanged (bare form), and
overwrites keepAlive with the command's value (false for the bare
form). -/
theorem c9_zero_total_reconnect_resets (m : Manager) (s : Conn) (ref : ConnRefCount)
    (h : lookupA m.conns s = some ref) :
    stepCmd m (Cmd.bareConn s) = some (m.connectEach ⟨s, [], 0, false⟩, []) ∧
    (m.connectEach ⟨s, [], 0, false⟩).topics = m.topics ∧
    lookupA (m.connectEach ⟨s, [], 0, false⟩).conns s = some ⟨ref.topics, 0, false⟩ ∧
    ∀ (T : List TopicConn) (k : Bool), ∃ tv,
      lookupA (m.connectEach ⟨s, T, 0, k⟩).conns s = some ⟨tv, 0, k⟩ := by
  refine ⟨rfl, ?_, ?_, ?_⟩
  · simp [Manager.connectEach, h, connectEachKnownLoop]
  · simp [Manager.connectEach, h, connectEachKnownLoop, counter.reset,
      lookupA_insertA_self]
  · intro T k
    refine ⟨(connectEachKnownLoop s T m.topics ref.topics).2, ?_⟩
    simp [Manager.connectEach, h, counter.reset, lookupA_insertA_self]

theorem c9_witness :
    lookupA (⟨[(1, [(4, 5)])], [(4, ⟨1, 7, true⟩)]⟩ : Manager).conns 4 = some ⟨1, 7, true⟩ ∧
    (stepCmd (⟨[(1, [(4, 5)])], [(4, ⟨1, 7, true⟩)]⟩ : Manager) (Cmd.bareConn 4)
        = some ((⟨[(1, [(4, 5)])], [(4, ⟨1, 7, true⟩)]⟩ : Manager).connectEach
          ⟨4, [], 0, false⟩, []) ∧
      ((⟨[(1, [(4, 5)])], [(4, ⟨1, 7, true⟩)]⟩ : Manager).connectEach
          ⟨4, [], 0, false⟩).topics = (⟨[(1, [(4, 5)])], [(4, ⟨1, 7, true⟩)]⟩ : Manager).topics ∧
      lookupA ((⟨[(1, [(4, 5)])], [(4, ⟨1, 7, true⟩)]⟩ : Manager).connectEach
          ⟨4, [], 0, false⟩).conns 4
        = some ⟨(⟨1, 7, true⟩ : ConnRefCount).topics, 0, false⟩ ∧
      ∀ (T : List TopicConn) (k : Bool), ∃ tv,
        lookupA ((⟨[(1, [(4, 5)])], [(4, ⟨1, 7, true⟩)]⟩ : Manager).connectEach
          ⟨4, T, 0, k⟩).conns 4 = some ⟨tv, 0, k⟩) :=
  ⟨by decide,
    c9_zero_total_reconnect_resets ⟨[(1, [(4, 5)])], [(4, ⟨1, 7, true⟩)]⟩ 4 ⟨1, 7, true⟩
      (by decide)⟩

/-! ## Counterexamples for claims C2, C3, C4 -/

/-- C2 fails as stated: from the empty table, a single ConnectEach of
subscriber 5 listing topic 1 twice produces a reachable state in which
the subscriber's topicRefs counter is 2 while only one topic contains
it. -/
theorem c2_counterexample :
    runCmds newManager [Cmd.connectEach ⟨5, [(1, 0), (1, 0)], 0, false⟩]
      = some (⟨[(1, [(5, 0)])], [(5, ⟨2, 0, false⟩)]⟩, []) ∧
    ¬((⟨2, 0, false⟩ : ConnRefCount).topics
        = (edgeCount ⟨[(1, [(5, 0)])], [(5, ⟨2, 0, false⟩)]⟩ 5 : Int)) := by
  constructor
  · rfl
  · decide

/-- C3 fails as stated: from the empty table, a single ConnectEach of
subscriber 5 with total MessageCount -1 produces a reachable state in
which the subscriber's messageRefs counter holds -1 < 0. -/
theorem c3_counterexample :
    runCmds newManager [Cmd.connectEach ⟨5, [], -1, false⟩]
      = some (⟨[(0, [(5, 0)])], [(5, ⟨1, -1, false⟩)]⟩, []) ∧
    ¬(0 ≤ (⟨1, -1, false⟩ : ConnRefCount).messages) := by
  constructor
  · rfl
  · decide

/-- C4 fails as stated: for the fresh subscriber 5, T1 = [] and
T2 = [(1, 0)], the sequence Connect(s, T1); Connect(s, T2) creates an
edge on the default topic (implicit substitution on the first
command), while the single command Connect(s, T1 ∪ T2) = Connect(s, T2)
does not: the resulting edge sets differ at (defaultTopic, 5). -/
theorem c4_counterexample :
    (((newManager.connectEach ⟨5, [], 0, false⟩).connectEach
        ⟨5, [(1, 0)], 0, false⟩).lookupEdge defaultTopic 5).isSome ∧
    ¬((newManager.connectEach ⟨5, [(1, 0)], 0, false⟩).lookupEdge defaultTopic 5).isSome := by
  decide

/-! ## Characterization of connectEach on edges -/

/-- Reset an existing edge's counter or create it with the given count. -/
def resetOrCreate : Option Int → Int → Int
  | some v, q => counter.reset v q
  | none, q => q

/-- The per-topic effect, at topic `t`, of processing one listed entry
in the known-subscriber branch: a listed entry for `t` resets an
existing per-topic counter or creates the edge with the listed count. -/
def applyTopicConn (t : Topic) (o : Option Int) (p : TopicConn) : Option Int :=
  if p.1 = t then some (resetOrCreate o p.2) else o

/-- The per-topic effect, at topic `t`, of processing one listed entry
in the fresh-subscriber branch: a listed entry for `t` overwrites the
edge with the listed count. -/
def overwriteTopicConn (t : Topic) (o : Option Int) (p : TopicConn) : Option Int :=
  if p.1 = t then some p.2 else o

theorem edgeOf_insert_write (topics : List (Topic × List (Conn × Int))) (t' t : Topic)
    (conn : Conn) (v : Int) :
    edgeOf (insertA topics t' (insertA (getTopicConns topics t') conn v)) t conn
      = if t' = t then some v else edgeOf topics t conn := by
  unfold edgeOf getTopicConns
  by_cases h : t' = t
  · subst h
    rw [if_pos rfl, lookupA_insertA_self, Option.getD_some, lookupA_insertA_self]
  · rw [if_neg h, lookupA_insertA_ne _ _ (Ne.symm h)]

theorem edgeOf_insert_write_other (topics : List (Topic × List (Conn × Int)))
    (t' t : Topic) (conn c : Conn) (hc : c ≠ conn) (v : Int) :
    edgeOf (insertA topics t' (insertA (getTopicConns topics t') conn v)) t c
      = edgeOf topics t c := by
  unfold edgeOf getTopicConns
  by_cases h : t' = t
  · subst h
    rw [lookupA_insertA_self, Option.getD_some, lookupA_insertA_ne _ _ hc]
  · rw [lookupA_insertA_ne _ _ (Ne.symm h)]

theorem knownLoop_edge (conn : Conn) (T : List TopicConn) (t : Topic) :
    ∀ (topics : List (Topic × List (Conn × Int))) (refT : Int),
      edgeOf (connectEachKnownLoop conn T topics refT).1 t conn
        = T.foldl (applyTopicConn t) (edgeOf topics t conn) := by
  induction T with
  | nil => intro topics refT; rfl
  | cons p rest ih =>
    intro topics refT
    simp only [connectEachKnownLoop]
    cases hc : lookupA (getTopicConns topics p.1) conn with
    | some cnt =>
      rw [ih, edgeOf_insert_write, List.foldl_cons]
      congr 1
      by_cases hpt : p.1 = t
      · subst hpt
        have hg : edgeOf topics p.1 conn = some cnt := hc
        simp only [applyTopicConn, if_pos rfl, hg, resetOrCreate]
      · simp only [applyTopicConn, if_neg hpt]
    | none =>
      rw [ih, edgeOf_insert_write, List.foldl_cons]
      congr 1
      by_cases hpt : p.1 = t
      · subst hpt
        have hg : edgeOf topics p.1 conn = none := hc
        simp only [applyTopicConn, if_pos rfl, hg, resetOrCreate]
      · simp only [applyTopicConn, if_neg hpt]

theorem knownLoop_edge_other (conn c : Conn) (hc : c ≠ conn) (T : List TopicConn) (t : Topic) :
    ∀ (topics : List (Topic × List (Conn × Int))) (refT : Int),
      edgeOf (connectEachKnownLoop conn T topics refT).1 t c = edgeOf topics t c := by
  induction T with
  | nil => intro topics refT; rfl
  | cons p rest ih =>
    intro topics refT
    simp only [connectEachKnownLoop]
    cases hl : lookupA (getTopicConns topics p.1) conn with
    | some cnt => rw [ih, edgeOf_insert_write_other _ _ _ _ _ hc]
    | none => rw [ih, edgeOf_insert_write_other _ _ _ _ _ hc]

theorem freshLoop_edge (conn : Conn) (T : List TopicConn) (t : Topic) :
    ∀ topics : List (Topic × List (Conn × Int)),
      edgeOf (connectEachFreshLoop conn T topics) t conn
        = T.foldl (overwriteTopicConn t) (edgeOf topics t conn) := by
  induction T with
  | nil => intro topics; rfl
  | cons p rest ih =>
    intro topics
    simp only [connectEachFreshLoop]
    rw [ih, edgeOf_insert_write, List.foldl_cons]
    congr 1

theorem freshLoop_edge_other (conn c : Conn) (hc : c ≠ conn) (T : List TopicConn) (t : Topic) :
    ∀ topics : List (Topic × List (Conn × Int)),
      edgeOf (connectEachFreshLoop conn T topics) t c = edgeOf topics t c := by
  induction T with
  | nil => intro topics; rfl
  | cons p rest ih =>
    intro topics
    simp only [connectEachFreshLoop]
    rw [ih, edgeOf_insert_write_other _ _ _ _ _ hc]

theorem connectEach_edge_known {m : Manager} {s : Conn} {ref : ConnRefCount}
    (h : lookupA m.conns s = some ref) (T : List TopicConn) (q : Int) (k : Bool) (t : Topic) :
    (m.connectEach ⟨s, T, q, k⟩).lookupEdge t s
      = T.foldl (applyTopicConn t) (m.lookupEdge t s) := by
  show edgeOf (m.connectEach ⟨s, T, q, k⟩).topics t s = _
  simp only [Manager.connectEach, h]
  exact knownLoop_edge s T t m.topics ref.topics

theorem connectEach_edge_fresh {m : Manager} {s : Conn}
    (h : lookupA m.conns s = none) (T : List TopicConn) (q : Int) (k : Bool) (t : Topic) :
    (m.connectEach ⟨s, T, q, k⟩).lookupEdge t s
      = (if T = [] then [((defaultTopic : Topic), (0 : Int))] else T).foldl
          (overwriteTopicConn t) (m.lookupEdge t s) := by
  show edgeOf (m.connectEach ⟨s, T, q, k⟩).topics t s = _
  simp only [Manager.connectEach, h]
  exact freshLoop_edge s _ t m.topics

theorem connectEach_edge_other (m : Manager) (cmd : ConnectEach) (c : Conn)
    (hc : c ≠ cmd.conn) (t : Topic) :
    (m.connectEach cmd).lookupEdge t c = m.lookupEdge t c := by
  show edgeOf (m.connectEach cmd).topics t c = _
  unfold Manager.connectEach
  cases h : lookupA m.conns cmd.conn with
  | some ref => exact knownLoop_edge_other cmd.conn c hc cmd.topics t m.topics ref.topics
  | none => exact freshLoop_edge_other cmd.conn c hc _ t m.topics

theorem connectEach_conns_other (m : Manager) (cmd : ConnectEach) (c : Conn)
    (hc : c ≠ cmd.conn) :
    lookupA (m.connectEach cmd).conns c = lookupA m.conns c := by
  unfold Manager.connectEach
  cases h : lookupA m.conns cmd.conn with
  | some ref => exact lookupA_insertA_ne _ _ hc
  | none => exact lookupA_insertA_ne _ _ hc

theorem connectEach_conn_present (m : Manager) (cmd : ConnectEach) :
    (lookupA (m.connectEach cmd).conns cmd.conn).isSome := by
  unfold Manager.connectEach
  cases h : lookupA m.conns cmd.conn with
  | some ref => simp [lookupA_insertA_self]
  | none => simp [lookupA_insertA_self]

/-! ## Fold evaluation lemmas -/

theorem foldl_topic_filter (t : Topic) {f : Option Int → TopicConn → Option Int}
    (hf : ∀ (o : Option Int) (p : TopicConn), p.1 ≠ t → f o p = o) :
    ∀ (T : List TopicConn) (o : Option Int),
      T.foldl f o = (T.filter (fun p => decide (p.1 = t))).foldl f o := by
  intro T
  induction T with
  | nil => intro o; rfl
  | cons p rest ih =>
    intro o
    by_cases hp : p.1 = t
    · rw [List.foldl_cons, List.filter_cons, if_pos (by simpa using hp), List.foldl_cons]
      exact ih (f o p)
    · rw [List.foldl_cons, List.filter_cons, if_neg (by simpa using hp), hf o p hp]
      exact ih o

theorem filter_topic_nil {T : List TopicConn} {t : Topic} (h : ∀ p ∈ T, p.1 ≠ t) :
    T.filter (fun p => decide (p.1 = t)) = [] := by
  induction T with
  | nil => rfl
  | cons p rest ih =>
    have hp := h p (List.mem_cons_self _ _)
    simp only [List.filter_cons]
    rw [if_neg (by simpa using hp)]
    exact ih (fun p' hp' => h p' (List.mem_cons_of_mem _ hp'))

theorem filter_topic_singleton {T : List TopicConn} (hnd : (T.map Prod.fst).Nodup)
    {t : Topic} {q : Int} (hmem : (t, q) ∈ T) :
    T.filter (fun p => decide (p.1 = t)) = [(t, q)] := by
  induction T with
  | nil => simp at hmem
  | cons p rest ih =>
    simp only [List.map_cons, List.nodup_cons] at hnd
    rcases List.mem_cons.mp hmem with h | h
    · obtain rfl : p = (t, q) := h.symm
      rw [List.filter_cons, if_pos (by simp)]
      rw [filter_topic_nil (fun p' hp' hpt => hnd.1 (by
        have hm : p'.1 ∈ List.map Prod.fst rest := List.mem_map.mpr ⟨p', hp', rfl⟩
        rw [hpt] at hm
        exact hm))]
    · have htr : t ∈ rest.map Prod.fst := List.mem_map.mpr ⟨(t, q), h, rfl⟩
      have hp : p.1 ≠ t := fun hpt => hnd.1 (by rw [hpt]; exact htr)
      rw [List.filter_cons, if_neg (by simpa using hp)]
      exact ih hnd.2 h

theorem foldl_apply_not_mem {T : List TopicConn} {t : Topic}
    (h : t ∉ T.map Prod.fst) (o : Option Int) :
    T.foldl (applyTopicConn t) o = o := by
  rw [foldl_topic_filter t (fun o p hp => by simp only [applyTopicConn, if_neg hp]),
    filter_topic_nil (fun p hp hpt => h (by rw [← hpt]; exact List.mem_map.mpr ⟨p, hp, rfl⟩))]
  rfl

theorem foldl_apply_mem {T : List TopicConn} (hnd : (T.map Prod.fst).Nodup)
    {t : Topic} {q : Int} (hmem : (t, q) ∈ T) (o : Option Int) :
    T.foldl (applyTopicConn t) o = some (resetOrCreate o q) := by
  rw [foldl_topic_filter t (fun o p hp => by simp only [applyTopicConn, if_neg hp]),
    filter_topic_singleton hnd hmem]
  simp [applyTopicConn]

theorem foldl_over_not_mem {T : List TopicConn} {t : Topic}
    (h : t ∉ T.map Prod.fst) (o : Option Int) :
    T.foldl (overwriteTopicConn t) o = o := by
  rw [foldl_topic_filter t (fun o p hp => by simp only [overwriteTopicConn, if_neg hp]),
    filter_topic_nil (fun p hp hpt => h (by rw [← hpt]; exact List.mem_map.mpr ⟨p, hp, rfl⟩))]
  rfl

theorem foldl_over_mem {T : List TopicConn} (hnd : (T.map Prod.fst).Nodup)
    {t : Topic} {q : Int} (hmem : (t, q) ∈ T) (o : Option Int) :
    T.foldl (overwriteTopicConn t) o = some q := by
  rw [foldl_topic_filter t (fun o p hp => by simp only [overwriteTopicConn, if_neg hp]),
    filter_topic_singleton hnd hmem]
  simp [overwriteTopicConn]

/-! ## Claim C6: negative total quota on re-Connect -/

/-- C6: a Connect/ConnectEach addressed to an already-known subscriber
with a negative total MessageCount leaves the subscriber's messageRefs
counter unchanged, while the listed per-topic edges are still added or
refreshed (reset-or-create per listed topic, everything else
untouched) and the keepAlive flag is overwritten with the command's
value. -/
theorem c6_negative_total_preserves_budget (m : Manager) (s : Conn) (ref : ConnRefCount)
    (T : List TopicConn) (q : Int) (k : Bool)
    (h : lookupA m.conns s = some ref) (hq : q < 0) (hnd : (T.map Prod.fst).Nodup) :
    (∃ tv, lookupA (m.connectEach ⟨s, T, q, k⟩).conns s = some ⟨tv, ref.messages, k⟩) ∧
    (∀ p ∈ T, (m.connectEach ⟨s, T, q, k⟩).lookupEdge p.1 s
        = some (resetOrCreate (m.lookupEdge p.1 s) p.2)) ∧
    (∀ t : Topic, t ∉ T.map Prod.fst →
      (m.connectEach ⟨s, T, q, k⟩).lookupEdge t s = m.lookupEdge t s) := by
  refine ⟨⟨(connectEachKnownLoop s T m.topics ref.topics).2, ?_⟩, ?_, ?_⟩
  · simp only [Manager.connectEach, h]
    rw [lookupA_insertA_self]
    congr 2
    simp [counter.reset, hq]
  · intro p hp
    obtain ⟨p1, p2⟩ := p
    rw [connectEach_edge_known h]
    exact foldl_apply_mem hnd hp _
  · intro t ht
    rw [connectEach_edge_known h]
    exact foldl_apply_not_mem ht _

theorem c6_witness :
    lookupA (⟨[(1, [(4, 5)])], [(4, ⟨1, 7, true⟩)]⟩ : Manager).conns 4 = some ⟨1, 7, true⟩ ∧
    (-2 : Int) < 0 ∧ (([(1, 9), (2, 3)] : List TopicConn).map Prod.fst).Nodup ∧
    ((∃ tv, lookupA ((⟨[(1, [(4, 5)])], [(4, ⟨1, 7, true⟩)]⟩ : Manager).connectEach
          ⟨4, [(1, 9), (2, 3)], -2, false⟩).conns 4
        = some ⟨tv, (⟨1, 7, true⟩ : ConnRefCount).messages, false⟩) ∧
      (∀ p ∈ ([(1, 9), (2, 3)] : List TopicConn),
        ((⟨[(1, [(4, 5)])], [(4, ⟨1, 7, true⟩)]⟩ : Manager).connectEach
            ⟨4, [(1, 9), (2, 3)], -2, false⟩).lookupEdge p.1 4
          = some (resetOrCreate ((⟨[(1, [(4, 5)])], [(4, ⟨1, 7, true⟩)]⟩ : Manager).lookupEdge
              p.1 4) p.2)) ∧
      (∀ t : Topic, t ∉ ([(1, 9), (2, 3)] : List TopicConn).map Prod.fst →
        ((⟨[(1, [(4, 5)])], [(4, ⟨1, 7, true⟩)]⟩ : Manager).connectEach
            ⟨4, [(1, 9), (2, 3)], -2, false⟩).lookupEdge t 4
          = (⟨[(1, [(4, 5)])], [(4, ⟨1, 7, true⟩)]⟩ : Manager).lookupEdge t 4)) :=
  ⟨by decide, by decide, by decide,
    c6_negative_total_preserves_budget ⟨[(1, [(4, 5)])], [(4, ⟨1, 7, true⟩)]⟩ 4 ⟨1, 7, true⟩
      [(1, 9), (2, 3)] (-2) false (by decide) (by decide) (by decide)⟩

/-! ## Claim C4: reconnect merging -/

theorem union_keys_nodup {T1 T2 : List TopicConn} (hnd1 : (T1.map Prod.fst).Nodup)
    (hnd2 : (T2.map Prod.fst).Nodup) :
    ((T1.filter (fun p => decide (p.1 ∉ T2.map Prod.fst)) ++ T2).map Prod.fst).Nodup := by
  rw [List.map_append]
  refine List.Nodup.append ?_ hnd2 ?_
  · exact List.Nodup.sublist (List.Sublist.map Prod.fst (List.filter_sublist _)) hnd1
  · intro a ha1 ha2
    obtain ⟨p, hp, rfl⟩ := List.mem_map.mp ha1
    have hmf := List.mem_filter.mp hp
    simp only [decide_eq_true_eq] at hmf
    exact hmf.2 ha2

theorem filter_inter_eq {T1 : List TopicConn} {tk : List Topic} {t : Topic}
    (ht : t ∉ tk) :
    (T1.filter (fun p => decide (p.1 ∉ tk))).filter (fun p => decide (p.1 = t))
      = T1.filter (fun p => decide (p.1 = t)) := by
  rw [List.filter_filter]
  apply List.filter_congr
  intro p hp
  by_cases hpt : p.1 = t
  · rw [hpt]
    simp [ht]
  · simp [hpt]

/-- C4 (amended): Connect(s, T1) then Connect(s, T2) leaves the same
edges (with the same per-topic counters) as the single command
Connect(s, T1 ∪ T2), where T1 ∪ T2 keeps T2's entries and the T1
entries whose topics are not in T2 — provided the topic lists are
duplicate-free, shared topics carry a nonnegative per-topic count in
T2, and T1 is only empty when T2 is empty or s is already known (an
empty list on a fresh subscriber is replaced by the default topic). -/
theorem c4_reconnect_merging (m : Manager) (s : Conn) (T1 T2 : List TopicConn)
    (q1 q2 : Int) (k1 k2 : Bool) (t : Topic) (c : Conn)
    (hnd1 : (T1.map Prod.fst).Nodup) (hnd2 : (T2.map Prod.fst).Nodup)
    (hdang : lookupA m.conns s = none → ∀ t', m.lookupEdge t' s = none)
    (hT1 : T1 = [] → T2 = [] ∨ (lookupA m.conns s).isSome)
    (hq : ∀ p ∈ T2, p.1 ∈ T1.map Prod.fst → 0 ≤ p.2) :
    ((m.connectEach ⟨s, T1, q1, k1⟩).connectEach ⟨s, T2, q2, k2⟩).lookupEdge t c
      = (m.connectEach ⟨s, T1.filter (fun p => decide (p.1 ∉ T2.map Prod.fst)) ++ T2,
          q2, k2⟩).lookupEdge t c := by
  have hfa : ∀ (o : Option Int) (p : TopicConn), p.1 ≠ t → applyTopicConn t o p = o :=
    fun o p hp => by simp only [applyTopicConn, if_neg hp]
  have hfo : ∀ (o : Option Int) (p : TopicConn), p.1 ≠ t → overwriteTopicConn t o p = o :=
    fun o p hp => by simp only [overwriteTopicConn, if_neg hp]
  by_cases hcs : c = s
  case neg =>
    rw [connectEach_edge_other _ _ _ hcs, connectEach_edge_other _ _ _ hcs,
      connectEach_edge_other _ _ _ hcs]
  subst hcs
  obtain ⟨ref1, h1⟩ := Option.isSome_iff_exists.mp (connectEach_conn_present m ⟨c, T1, q1, k1⟩)
  rw [connectEach_edge_known h1]
  cases hks : lookupA m.conns c with
  | some ref =>
    rw [connectEach_edge_known hks, connectEach_edge_known hks]
    by_cases ht2 : t ∈ T2.map Prod.fst
    · obtain ⟨p, hp, hpt⟩ := List.mem_map.mp ht2
      have hp2 : (t, p.2) ∈ T2 := by
        rw [← hpt]
        simpa using hp
      have hfil : t ∉ (T1.filter (fun p => decide (p.1 ∉ T2.map Prod.fst))).map Prod.fst := by
        intro hmem
        obtain ⟨p', hp', hpt'⟩ := List.mem_map.mp hmem
        have hmf := List.mem_filter.mp hp'
        simp only [decide_eq_true_eq] at hmf
        exact hmf.2 (hpt' ▸ ht2)
      rw [foldl_apply_mem hnd2 hp2, List.foldl_append, foldl_apply_not_mem hfil,
        foldl_apply_mem hnd2 hp2]
      by_cases ht1 : t ∈ T1.map Prod.fst
      · obtain ⟨p', hp', hpt'⟩ := List.mem_map.mp ht1
        have hp1 : (t, p'.2) ∈ T1 := by
          rw [← hpt']
          simpa using hp'
        rw [foldl_apply_mem hnd1 hp1]
        have hq' : 0 ≤ p.2 := hq p hp (hpt ▸ ht1)
        cases ho : m.lookupEdge t c with
        | none => simp [resetOrCreate, counter.reset, not_lt.mpr hq']
        | some v => simp [resetOrCreate, counter.reset, not_lt.mpr hq']
      · rw [foldl_apply_not_mem ht1]
    · rw [foldl_apply_not_mem ht2, List.foldl_append, foldl_apply_not_mem ht2,
        foldl_topic_filter t hfa T1,
        foldl_topic_filter t hfa (T1.filter (fun p => decide (p.1 ∉ T2.map Prod.fst))),
        filter_inter_eq ht2]
  | none =>
    have hinit : ∀ t', m.lookupEdge t' c = none := hdang hks
    by_cases hT1e : T1 = []
    · rcases hT1 hT1e with hT2e | habs
      · subst hT1e
        subst hT2e
        rw [connectEach_edge_fresh hks, connectEach_edge_fresh hks]
        rfl
      · rw [hks] at habs
        simp at habs
    · have hUe : ¬(T1.filter (fun p => decide (p.1 ∉ T2.map Prod.fst)) ++ T2 = []) := by
        intro hU
        rcases List.append_eq_nil.mp hU with ⟨hf, hT2e⟩
        subst hT2e
        rw [List.filter_eq_nil_iff] at hf
        cases hT1x : T1 with
        | nil => exact hT1e hT1x
        | cons p rest =>
          have := hf p (by rw [hT1x]; exact List.mem_cons_self p rest)
          simp at this
      rw [connectEach_edge_fresh hks, connectEach_edge_fresh hks, if_neg hT1e, if_neg hUe]
      by_cases ht2 : t ∈ T2.map Prod.fst
      · obtain ⟨p, hp, hpt⟩ := List.mem_map.mp ht2
        have hp2 : (t, p.2) ∈ T2 := by
          rw [← hpt]
          simpa using hp
        have hfil : t ∉ (T1.filter (fun p => decide (p.1 ∉ T2.map Prod.fst))).map Prod.fst := by
          intro hmem
          obtain ⟨p', hp', hpt'⟩ := List.mem_map.mp hmem
          have hmf := List.mem_filter.mp hp'
          simp only [decide_eq_true_eq] at hmf
          exact hmf.2 (hpt' ▸ ht2)
        rw [foldl_apply_mem hnd2 hp2, List.foldl_append, foldl_over_not_mem hfil,
          foldl_over_mem hnd2 hp2]
        by_cases ht1 : t ∈ T1.map Prod.fst
        · obtain ⟨p', hp', hpt'⟩ := List.mem_map.mp ht1
          have hp1 : (t, p'.2) ∈ T1 := by
            rw [← hpt']
            simpa using hp'
          rw [foldl_over_mem hnd1 hp1]
          have hq' : 0 ≤ p.2 := hq p hp (hpt ▸ ht1)
          simp [resetOrCreate, counter.reset, not_lt.mpr hq']
        · rw [foldl_over_not_mem ht1, hinit t]
          rfl
      · rw [foldl_apply_not_mem ht2, List.foldl_append, foldl_over_not_mem ht2,
          foldl_topic_filter t hfo T1,
          foldl_topic_filter t hfo (T1.filter (fun p => decide (p.1 ∉ T2.map Prod.fst))),
          filter_inter_eq ht2]

theorem c4_witness :
    (([( (1 : Topic), (3 : Int))] : List TopicConn).map Prod.fst).Nodup ∧
    (([( (1 : Topic), (2 : Int)), ((2 : Topic), (7 : Int))] : List TopicConn).map
      Prod.fst).Nodup ∧
    (lookupA newManager.conns 5 = none → ∀ t', newManager.lookupEdge t' 5 = none) ∧
    (([( (1 : Topic), (3 : Int))] : List TopicConn) = [] →
      ([( (1 : Topic), (2 : Int)), ((2 : Topic), (7 : Int))] : List TopicConn) = [] ∨
        (lookupA newManager.conns 5).isSome) ∧
    (∀ p ∈ ([( (1 : Topic), (2 : Int)), ((2 : Topic), (7 : Int))] : List TopicConn),
      p.1 ∈ ([( (1 : Topic), (3 : Int))] : List TopicConn).map Prod.fst → 0 ≤ p.2) ∧
    ((newManager.connectEach ⟨5, [(1, 3)], 0, false⟩).connectEach
        ⟨5, [(1, 2), (2, 7)], 0, false⟩).lookupEdge 1 5
      = (newManager.connectEach ⟨5, ([( (1 : Topic), (3 : Int))].filter
          (fun p => decide (p.1 ∉ ([( (1 : Topic), (2 : Int)), ((2 : Topic), (7 : Int))] :
            List TopicConn).map Prod.fst)) ++ [(1, 2), (2, 7)]), 0, false⟩).lookupEdge 1 5 :=
  ⟨by decide, by decide, fun _ t' => rfl, by decide, by decide,
    c4_reconnect_merging newManager 5 [(1, 3)] [(1, 2), (2, 7)] 0 0 false false 1 5
      (by decide) (by decide) (fun _ t' => rfl) (by decide) (by decide)⟩

/-! ## Claim C5: Disconnect follows the spec description -/

/-- `noRefCounter` removal never touches the `conns` map. -/
theorem noRef_conns_eq (m : Manager) (t : Topic) (c : Conn) :
    (m.removeConnFromTopicNoRefCounter t c).1.conns = m.conns := by
  unfold Manager.removeConnFromTopicNoRefCounter
  cases hl : lookupA m.topics t with
  | none => rfl
  | some cs =>
    dsimp only
    cases hc : lookupA cs c with
    | none => rfl
    | some v =>
      dsimp only
      by_cases he : eraseA cs c = []
      · rw [if_pos he]
      · rw [if_neg he]

/-- For a present connection, `removeConnFromTopic` succeeds and its
returned removal flag tells exactly whether the connection is gone
from the `conns` map afterwards. -/
theorem removeConnFromTopic_removed_iff {m : Manager} (t : Topic) {c : Conn}
    (hnd : keysND m.conns) (hpre : (lookupA m.conns c).isSome) :
    ∃ m' evs rem, m.removeConnFromTopic t c = some (m', evs, rem) ∧
      (rem = true → lookupA m'.conns c = none) ∧
      (rem = false → (lookupA m'.conns c).isSome) ∧ keysND m'.conns := by
  unfold Manager.removeConnFromTopic
  rcases hr : m.removeConnFromTopicNoRefCounter t c with ⟨m₁, b⟩
  have hc1 : m₁.conns = m.conns := by
    have := noRef_conns_eq m t c
    rw [hr] at this
    exact this
  cases b with
  | false =>
    refine ⟨m₁, [], false, by simp, by simp, fun _ => ?_, by rw [hc1]; exact hnd⟩
    rw [hc1]
    exact hpre
  | true =>
    simp only [if_pos rfl]
    obtain ⟨ref, href⟩ := Option.isSome_iff_exists.mp hpre
    unfold Manager.removeConnFromTopicRefCountOnly
    rw [hc1, href]
    dsimp only
    by_cases hd : (counter.dec ref.topics).2
    · rw [if_pos hd]
      refine ⟨_, _, true, rfl, fun _ => ?_, by simp, ?_⟩
      · exact lookupA_eraseA_self _ _ hnd
      · exact keysND_eraseA _ _ hnd
    · rw [if_neg hd]
      refine ⟨_, _, false, rfl, by simp, fun _ => ?_, ?_⟩
      · simp [lookupA_insertA_self]
      · exact keysND_insertA _ _ _ hnd

/-- Modelled word for word from §4.4 of the spec: unknown subscriber
is a no-op; an empty topic list is replaced by the default topic; a
listed topic not in the routing table is skipped; a present topic gets
`removeEdge`; as soon as a removal leaves the subscriber evicted (it
no longer exists in the subscribers map), the remaining topics are not
processed. -/
def disconnectSpecLoop (m : Manager) (c : Conn) : List Topic → Option (Manager × List Event)
  | [] => some (m, [])
  | t :: ts =>
    match lookupA m.topics t with
    | none => disconnectSpecLoop m c ts
    | some _ =>
      match m.removeConnFromTopic t c with
      | none => none
      | some (m', evs, _) =>
        if (lookupA m'.conns c).isSome then
          match disconnectSpecLoop m' c ts with
          | none => none
          | some (m'', evs') => some (m'', evs ++ evs')
        else some (m', evs)

/-- The spec-side description of the Disconnect command (§4.4). -/
def disconnectSpec (m : Manager) (d : Disconnect) : Option (Manager × List Event) :=
  match lookupA m.conns d.conn with
  | none => some (m, [])
  | some _ =>
    disconnectSpecLoop m d.conn (if d.topics = [] then [defaultTopic] else d.topics)

theorem disconnectLoop_eq_spec {c : Conn} :
    ∀ (ts : List Topic) (m : Manager), keysND m.conns → (lookupA m.conns c).isSome →
      disconnectLoop m c ts = disconnectSpecLoop m c ts := by
  intro ts
  induction ts with
  | nil => intro m _ _; rfl
  | cons t rest ih =>
    intro m hnd hpre
    simp only [disconnectLoop, disconnectSpecLoop]
    cases hl : lookupA m.topics t with
    | none => exact ih m hnd hpre
    | some cs =>
      dsimp only
      obtain ⟨m', evs, rem, hrct, hrem1, hrem0, hnd'⟩ :=
        removeConnFromTopic_removed_iff t hnd hpre
      rw [hrct]
      dsimp only
      cases rem with
      | true =>
        rw [if_pos rfl, hrem1 rfl]
        simp
      | false =>
        have hps := hrem0 rfl
        rw [if_neg (by simp), if_pos hps, ih m' hnd' hps]

/-- C5: for a known subscriber, the Disconnect command behaves exactly
as the spec describes: empty topic list replaced by the default topic,
absent topics skipped, `removeEdge` on present topics, and processing
stops as soon as a removal evicts the subscriber.  (The unknown-
subscriber no-op is the first case of `disconnectSpec`.) -/
theorem c5_disconnect_follows_spec (m : Manager) (d : Disconnect)
    (hnd : keysND m.conns) :
    m.disconnect d = disconnectSpec m d := by
  unfold Manager.disconnect disconnectSpec
  cases h : lookupA m.conns d.conn with
  | none => rfl
  | some ref =>
    have hg : getTopics d.topics true = (if d.topics = [] then [defaultTopic] else d.topics) := by
      unfold getTopics
      by_cases he : d.topics = [] <;> simp [he]
    rw [hg]
    exact disconnectLoop_eq_spec _ _ hnd (by simp [h])

theorem c5_witness :
    keysND (⟨[(1, [(4, 5)]), (2, [(4, 0), (6, 1)])],
      [(4, ⟨2, 0, false⟩), (6, ⟨1, 0, true⟩)]⟩ : Manager).conns ∧
    (⟨[(1, [(4, 5)]), (2, [(4, 0), (6, 1)])],
      [(4, ⟨2, 0, false⟩), (6, ⟨1, 0, true⟩)]⟩ : Manager).disconnect ⟨4, [3, 1, 2]⟩
      = disconnectSpec ⟨[(1, [(4, 5)]), (2, [(4, 0), (6, 1)])],
          [(4, ⟨2, 0, false⟩), (6, ⟨1, 0, true⟩)]⟩ ⟨4, [3, 1, 2]⟩ :=
  ⟨by decide,
    c5_disconnect_follows_spec ⟨[(1, [(4, 5)]), (2, [(4, 0), (6, 1)])],
      [(4, ⟨2, 0, false⟩), (6, ⟨1, 0, true⟩)]⟩ ⟨4, [3, 1, 2]⟩ (by decide)⟩

/-! ## Structural lemmas for the removal primitives -/

/-- The edge count over a raw topics table. -/
def edgeCountT (topics : List (Topic × List (Conn × Int))) (c : Conn) : Nat :=
  topics.countP (fun p => (lookupA p.2 c).isSome)

theorem edgeCount_eq_T (m : Manager) (c : Conn) : edgeCount m c = edgeCountT m.topics c := rfl

/-- Rebuild `I1` from its lookup-level form. -/
theorem I1_of_lookup {m : Manager} (hW : WF m)
    (h : ∀ t c, (m.lookupEdge t c).isSome → (lookupA m.conns c).isSome) : I1 m := by
  intro p hp q hq
  apply h p.1 q.1
  have h1 : lookupA m.topics p.1 = some p.2 := lookupA_of_mem hW.1 (by simpa using hp)
  have h2 : lookupA p.2 q.1 = some q.2 := lookupA_of_mem (hW.2.2 p hp) (by simpa using hq)
  show (edgeOf m.topics p.1 q.1).isSome
  unfold edgeOf getTopicConns
  rw [h1]
  simp [h2]

/-- Rebuild `IGe` from its lookup-level form. -/
theorem IGe_of_lookup {m : Manager} (hW : WF m)
    (h : ∀ c ref, lookupA m.conns c = some ref → (edgeCount m c : Int) ≤ ref.topics) :
    IGe m := by
  intro p hp
  exact h p.1 p.2 (lookupA_of_mem hW.2.1 (by simpa using hp))

/-- Rebuild `IEq` from its lookup-level form. -/
theorem IEq_of_lookup {m : Manager} (hW : WF m)
    (h : ∀ c ref, lookupA m.conns c = some ref → ref.topics = (edgeCount m c : Int)) :
    IEq m := by
  intro p hp
  exact h p.1 p.2 (lookupA_of_mem hW.2.1 (by simpa using hp))

/-- Full description of `removeConnFromTopicNoRefCounter`: the flag is
exactly edge presence, the `conns` map is untouched, the edge `(t, c)`
is gone and everything else is unchanged, and the edge counts move
accordingly. -/
theorem noRef_spec {m : Manager} (hW : WF m) (t : Topic) (c : Conn) :
    ∃ m', m.removeConnFromTopicNoRefCounter t c = (m', (m.lookupEdge t c).isSome) ∧
      WF m' ∧ m'.conns = m.conns ∧
      (∀ t' c', m'.lookupEdge t' c' = if t' = t ∧ c' = c then none else m.lookupEdge t' c') ∧
      edgeCount m' c + (if (m.lookupEdge t c).isSome then 1 else 0) = edgeCount m c ∧
      (∀ c', c' ≠ c → edgeCount m' c' = edgeCount m c') ∧
      ((m.lookupEdge t c).isSome = false → m' = m) := by
  unfold Manager.removeConnFromTopicNoRefCounter
  cases hl : lookupA m.topics t with
  | none =>
    have he : m.lookupEdge t c = none := by
      show edgeOf m.topics t c = none
      unfold edgeOf getTopicConns
      rw [hl]
      rfl
    refine ⟨m, by rw [he]; rfl, hW, rfl, ?_, by rw [he]; simp, fun _ _ => rfl, fun _ => rfl⟩
    intro t' c'
    by_cases h : t' = t ∧ c' = c
    · rw [if_pos h, h.1, h.2, he]
    · rw [if_neg h]
  | some cs =>
    dsimp only
    cases hc : lookupA cs c with
    | none =>
      have he : m.lookupEdge t c = none := by
        show edgeOf m.topics t c = none
        unfold edgeOf getTopicConns
        rw [hl]
        simp only [Option.getD_some]
        exact hc
      refine ⟨m, by rw [he]; rfl, hW, rfl, ?_, by rw [he]; simp, fun _ _ => rfl, fun _ => rfl⟩
      intro t' c'
      by_cases h : t' = t ∧ c' = c
      · rw [if_pos h, h.1, h.2, he]
      · rw [if_neg h]
    | some v =>
      dsimp only
      have he : m.lookupEdge t c = some v := by
        show edgeOf m.topics t c = some v
        unfold edgeOf getTopicConns
        rw [hl]
        simp only [Option.getD_some]
        exact hc
      have hkcs : keysND cs := hW.2.2 (t, cs) (mem_of_lookupA hl)
      have hpt : (fun p : Topic × List (Conn × Int) => (lookupA p.2 c).isSome) (t, cs)
          = true := by simp [hc]
      by_cases hnil : eraseA cs c = []
      · rw [if_pos hnil]
        refine ⟨⟨eraseA m.topics t, m.conns⟩, by rw [he]; rfl,
          ⟨keysND_eraseA _ _ hW.1, hW.2.1, fun p hp => hW.2.2 p (mem_eraseA_elim hp)⟩,
          rfl, ?_, ?_, ?_, fun hh => by rw [he] at hh; simp at hh⟩
        · intro t' c'
          by_cases ht' : t' = t
          · subst ht'
            have hnone : Manager.lookupEdge ⟨eraseA m.topics t', m.conns⟩ t' c' = none := by
              show edgeOf (eraseA m.topics t') t' c' = none
              unfold edgeOf getTopicConns
              rw [lookupA_eraseA_self _ _ hW.1]
              rfl
            rw [hnone]
            by_cases hc' : c' = c
            · rw [if_pos ⟨rfl, hc'⟩]
            · rw [if_neg (fun hh => hc' hh.2)]
              show (none : Option Int) = m.lookupEdge t' c'
              have : lookupA cs c' = none := by
                rw [← lookupA_eraseA_ne cs (Ne.symm (fun hh => hc' hh.symm)), hnil]
                rfl
              show (none : Option Int) = edgeOf m.topics t' c'
              unfold edgeOf getTopicConns
              rw [hl]
              simp only [Option.getD_some]
              rw [this]
          · rw [if_neg (fun hh => ht' hh.1)]
            show edgeOf (eraseA m.topics t) t' c' = edgeOf m.topics t' c'
            unfold edgeOf getTopicConns
            rw [lookupA_eraseA_ne _ ht']
        · rw [he]
          simp only [Option.isSome_some, if_pos rfl]
          have := countP_eraseA_present
            (fun p => (lookupA p.2 c).isSome) hl
          rw [hpt] at this
          simpa [edgeCount] using this
        · intro c' hc'
          have hval : (fun p : Topic × List (Conn × Int) => (lookupA p.2 c').isSome) (t, cs)
              = false := by
            have : lookupA cs c' = none := by
              rw [← lookupA_eraseA_ne cs (Ne.symm (Ne.symm hc')), hnil]
              rfl
            simp [this]
          have := countP_eraseA_present
            (fun p => (lookupA p.2 c').isSome) hl
          rw [hval] at this
          simpa [edgeCount] using this
      · rw [if_neg hnil]
        refine ⟨⟨insertA m.topics t (eraseA cs c), m.conns⟩, by rw [he]; rfl,
          ⟨keysND_insertA _ _ _ hW.1, hW.2.1, fun p hp => ?_⟩, rfl, ?_, ?_, ?_,
          fun hh => by rw [he] at hh; simp at hh⟩
        · rcases mem_insertA_elim hp with hp | hp
          · rw [hp]
            exact keysND_eraseA _ _ hkcs
          · exact hW.2.2 p hp
        · intro t' c'
          by_cases ht' : t' = t
          · subst ht'
            have hsome : Manager.lookupEdge ⟨insertA m.topics t' (eraseA cs c), m.conns⟩ t' c'
                = lookupA (eraseA cs c) c' := by
              show edgeOf _ t' c' = _
              unfold edgeOf getTopicConns
              rw [lookupA_insertA_self]
              rfl
            rw [hsome]
            by_cases hc' : c' = c
            · subst hc'
              rw [if_pos ⟨rfl, rfl⟩, lookupA_eraseA_self _ _ hkcs]
            · rw [if_neg (fun hh => hc' hh.2), lookupA_eraseA_ne _ hc']
              show lookupA cs c' = edgeOf m.topics t' c'
              unfold edgeOf getTopicConns
              rw [hl]
              rfl
          · rw [if_neg (fun hh => ht' hh.1)]
            show edgeOf (insertA m.topics t (eraseA cs c)) t' c' = edgeOf m.topics t' c'
            unfold edgeOf getTopicConns
            rw [lookupA_insertA_ne _ _ ht']
        · rw [he]
          simp only [Option.isSome_some, if_pos rfl]
          have heq := countP_insertA_present
            (eraseA cs c) (fun p => (lookupA p.2 c).isSome) hl
          rw [hpt] at heq
          have hnew : (fun p : Topic × List (Conn × Int) => (lookupA p.2 c).isSome)
              (t, eraseA cs c) = false := by
            simp [lookupA_eraseA_self _ _ hkcs]
          rw [hnew] at heq
          simp only [if_pos rfl, if_neg Bool.false_ne_true] at heq
          simp only [edgeCount]
          omega
        · intro c' hc'
          have heq := countP_insertA_present
            (eraseA cs c) (fun p => (lookupA p.2 c').isSome) hl
          have hsame : (fun p : Topic × List (Conn × Int) => (lookupA p.2 c').isSome)
              (t, eraseA cs c) = (fun p : Topic × List (Conn × Int) =>
                (lookupA p.2 c').isSome) (t, cs) := by
            simp only
            rw [lookupA_eraseA_ne _ hc']
          rw [hsame] at heq
          simp only [edgeCount]
          omega

/-- Full description of `removeConnFromTopicRefCountOnly` for a
present connection: the topics table is untouched, other connections
are untouched, and the connection is evicted (with the close event
unless `keep`) exactly when its topic refcount decrement reaches 0. -/
theorem refCountOnly_spec {m : Manager} {c : Conn} {ref : ConnRefCount}
    (hnd : keysND m.conns) (href : lookupA m.conns c = some ref) :
    ∃ m' evs rem, m.removeConnFromTopicRefCountOnly c = some (m', evs, rem) ∧
      m'.topics = m.topics ∧ keysND m'.conns ∧
      (∀ c', c' ≠ c → lookupA m'.conns c' = lookupA m.conns c') ∧
      (if (counter.dec ref.topics).2
        then rem = true ∧ lookupA m'.conns c = none ∧
          evs = (if ref.keep then [] else [Event.closed c])
        else rem = false ∧
          lookupA m'.conns c = some { ref with topics := (counter.dec ref.topics).1 } ∧
          evs = []) := by
  unfold Manager.removeConnFromTopicRefCountOnly
  rw [href]
  dsimp only
  by_cases hd : (counter.dec ref.topics).2
  · rw [if_pos hd]
    refine ⟨_, _, _, rfl, rfl, keysND_eraseA _ _ hnd,
      fun c' hc' => lookupA_eraseA_ne _ hc', ?_⟩
    rw [if_pos hd]
    exact ⟨rfl, lookupA_eraseA_self _ _ hnd, rfl⟩
  · rw [if_neg hd]
    refine ⟨_, _, _, rfl, rfl, keysND_insertA _ _ _ hnd,
      fun c' hc' => lookupA_insertA_ne _ _ hc', ?_⟩
    rw [if_neg hd]
    exact ⟨rfl, lookupA_insertA_self _ _ _, rfl⟩

/-- Full description of `removeConnFromTopic` under the double-index
invariant: it always succeeds, removes exactly the edge `(t, c)`,
leaves every other connection and edge untouched, and evicts the
connection (with close event unless `keep`) exactly when the edge
existed and the topic refcount decrement reached zero. -/
theorem RCT_spec {m : Manager} (hW : WF m) (h1 : I1 m) (t : Topic) (c : Conn) :
    ∃ m' evs rem, m.removeConnFromTopic t c = some (m', evs, rem) ∧
      WF m' ∧
      (∀ c', c' ≠ c → lookupA m'.conns c' = lookupA m.conns c') ∧
      (∀ t' c', c' ≠ c → m'.lookupEdge t' c' = m.lookupEdge t' c') ∧
      (∀ t', m'.lookupEdge t' c = if t' = t then none else m.lookupEdge t' c) ∧
      (∀ c', c' ≠ c → edgeCount m' c' = edgeCount m c') ∧
      edgeCount m' c + (if (m.lookupEdge t c).isSome then 1 else 0) = edgeCount m c ∧
      (if (m.lookupEdge t c).isSome
        then ∃ ref, lookupA m.conns c = some ref ∧
          (if (counter.dec ref.topics).2
            then rem = true ∧ lookupA m'.conns c = none ∧
              evs = (if ref.keep then [] else [Event.closed c])
            else rem = false ∧
              lookupA m'.conns c = some { ref with topics := (counter.dec ref.topics).1 } ∧
              evs = [])
        else m' = m ∧ rem = false ∧ evs = []) := by
  obtain ⟨m₁, hnr, hW₁, hcs₁, hpt₁, hcnt₁, hcnto₁, hid₁⟩ := noRef_spec hW t c
  unfold Manager.removeConnFromTopic
  rw [hnr]
  dsimp only
  by_cases he : (m.lookupEdge t c).isSome
  · rw [if_pos he]
    have hcp : (lookupA m.conns c).isSome := I1_lookup h1 he
    obtain ⟨ref, href⟩ := Option.isSome_iff_exists.mp hcp
    have href₁ : lookupA m₁.conns c = some ref := by rw [hcs₁]; exact href
    obtain ⟨m', evs, rem, hro, htop', hnd', hoth', hfate⟩ :=
      refCountOnly_spec (by rw [hcs₁]; exact hW.2.1) href₁
    refine ⟨m', evs, rem, hro, ?_, ?_, ?_, ?_, ?_, ?_, ?_⟩
    · exact ⟨by rw [htop']; exact hW₁.1, hnd',
        fun p hp => hW₁.2.2 p (by rw [htop'] at hp; exact hp)⟩
    · intro c' hc'
      rw [hoth' c' hc', hcs₁]
    · intro t' c' hc'
      have h₁ : m'.lookupEdge t' c' = m₁.lookupEdge t' c' := by
        show edgeOf m'.topics t' c' = edgeOf m₁.topics t' c'
        rw [htop']
      rw [h₁, hpt₁ t' c', if_neg (fun hh => hc' hh.2)]
    · intro t'
      have h₁ : m'.lookupEdge t' c = m₁.lookupEdge t' c := by
        show edgeOf m'.topics t' c = edgeOf m₁.topics t' c
        rw [htop']
      rw [h₁, hpt₁ t' c]
      by_cases ht' : t' = t
      · rw [if_pos ⟨ht', rfl⟩, if_pos ht']
      · rw [if_neg (fun hh => ht' hh.1), if_neg ht']
    · intro c' hc'
      have h₁ : edgeCount m' c' = edgeCount m₁ c' := by
        rw [edgeCount_eq_T, edgeCount_eq_T, htop']
      rw [h₁, hcnto₁ c' hc']
    · have h₁ : edgeCount m' c = edgeCount m₁ c := by
        rw [edgeCount_eq_T, edgeCount_eq_T, htop']
      rw [h₁]
      exact hcnt₁
    · rw [if_pos he]
      exact ⟨ref, href, hfate⟩
  · rw [if_neg he]
    have hfl : (m.lookupEdge t c).isSome = false := by
      cases hh : (m.lookupEdge t c).isSome
      · rfl
      · exact absurd hh he
    have hm₁ : m₁ = m := hid₁ hfl
    subst hm₁
    refine ⟨m₁, [], false, rfl, hW₁, fun _ _ => rfl, fun t' c' hc' => ?_, fun t' => ?_,
      fun _ _ => rfl, by rw [hfl]; simp, by rw [if_neg he]; exact ⟨rfl, rfl, rfl⟩⟩
    · rw [hpt₁ t' c', if_neg (fun hh => hc' hh.2)]
    · rw [hpt₁ t' c]
      by_cases ht' : t' = t
      · subst ht'
        rw [if_pos ⟨rfl, rfl⟩, if_pos rfl]
      · rw [if_neg (fun hh => ht' hh.1), if_neg ht']

theorem dec_reached_iff (x : Int) : (counter.dec x).2 = true ↔ x = 1 := by
  unfold counter.dec
  by_cases h : x = 0
  · simp [h]
  · simp only [if_neg h]
    constructor
    · intro hh
      have : x - 1 = 0 := by simpa using hh
      omega
    · intro hh
      subst hh
      simp

theorem dec_val_of_ne (x : Int) (h : x ≠ 0) : (counter.dec x).1 = x - 1 := by
  unfold counter.dec
  rw [if_neg h]

/-- Two distinct topics each carrying an edge for `c` force the edge
count to at least 2. -/
theorem two_edges_count {m : Manager} (hW : WF m) {t₁ t₂ : Topic} {c : Conn}
    (hne : t₁ ≠ t₂) (h₁ : (m.lookupEdge t₁ c).isSome) (h₂ : (m.lookupEdge t₂ c).isSome) :
    2 ≤ edgeCount m c := by
  obtain ⟨cs₁, v₁, hcs₁, hv₁⟩ := edgeOf_isSome_elim h₁
  have heq := countP_eraseA_present
    (fun p => (lookupA p.2 c).isSome) hcs₁
  have hp₁ : (fun p : Topic × List (Conn × Int) => (lookupA p.2 c).isSome) (t₁, cs₁)
      = true := by simp [hv₁]
  rw [hp₁] at heq
  have h₂' : (Manager.lookupEdge ⟨eraseA m.topics t₁, m.conns⟩ t₂ c).isSome := by
    show (edgeOf (eraseA m.topics t₁) t₂ c).isSome
    unfold edgeOf getTopicConns
    rw [lookupA_eraseA_ne _ (Ne.symm hne)]
    exact h₂
  have := edgeCount_pos_of_edge h₂'
  rw [edgeCount_eq_T] at this
  simp only [edgeCount]
  simp only [edgeCountT] at this
  simp at heq
  omega

/-- `removeConnFromTopic` preserves the safety invariant and leaves
other connections untouched. -/
theorem RCT_inv {m : Manager} (hI : Inv m) (t : Topic) (c : Conn) :
    ∃ m' evs rem, m.removeConnFromTopic t c = some (m', evs, rem) ∧ Inv m' ∧
      (∀ c', c' ≠ c → lookupA m'.conns c' = lookupA m.conns c') ∧
      (∀ t' c', c' ≠ c → m'.lookupEdge t' c' = m.lookupEdge t' c') := by
  obtain ⟨hW, h1, hge⟩ := hI
  obtain ⟨m', evs, rem, hr, hW', hoc, hoe, hec, hcn, hcc, hfate⟩ := RCT_spec hW h1 t c
  refine ⟨m', evs, rem, hr, ⟨hW', ?_, ?_⟩, hoc, hoe⟩
  · apply I1_of_lookup hW'
    intro t' c' hsome
    by_cases hc' : c' = c
    · subst hc'
      rw [hec t'] at hsome
      by_cases ht' : t' = t
      · rw [if_pos ht'] at hsome
        simp at hsome
      · rw [if_neg ht'] at hsome
        by_cases he : (m.lookupEdge t c').isSome
        · rw [if_pos he] at hfate
          obtain ⟨ref, href, hfi⟩ := hfate
          have h2 : 2 ≤ edgeCount m c' := two_edges_count hW ht' hsome he
          have hle := IGe_lookup hge href
          have hnr : ¬(counter.dec ref.topics).2 = true := by
            rw [dec_reached_iff]
            omega
          rw [if_neg hnr] at hfi
          rw [hfi.2.1]
          rfl
        · rw [if_neg he] at hfate
          rw [hfate.1]
          exact I1_lookup h1 hsome
    · rw [hoe t' c' hc'] at hsome
      rw [hoc c' hc']
      exact I1_lookup h1 hsome
  · apply IGe_of_lookup hW'
    intro c'' ref'' hlook
    by_cases hc'' : c'' = c
    · subst hc''
      by_cases he : (m.lookupEdge t c'').isSome
      · rw [if_pos he] at hfate
        obtain ⟨ref, href, hfi⟩ := hfate
        by_cases hd : (counter.dec ref.topics).2
        · rw [if_pos hd] at hfi
          rw [hfi.2.1] at hlook
          simp at hlook
        · rw [if_neg hd] at hfi
          rw [hfi.2.1] at hlook
          have hle := IGe_lookup hge href
          have hpos := edgeCount_pos_of_edge he
          have htne : ref.topics ≠ 0 := by
            intro hz
            rw [hz] at hle
            omega
          have hrr : ref'' = { ref with topics := (counter.dec ref.topics).1 } := by
            injection hlook with hh
            exact hh.symm
          subst hrr
          rw [if_pos he] at hcc
          simp only
          rw [dec_val_of_ne _ htne]
          omega
      · rw [if_neg he] at hfate
        obtain ⟨hm', _, _⟩ := hfate
        subst hm'
        rw [if_neg he] at hcc
        have := IGe_lookup hge hlook
        omega
    · rw [hoc c'' hc''] at hlook
      rw [hcn c'' hc'']
      exact IGe_lookup hge hlook

/-- `removeConnFromTopic` preserves the exact-count invariant, with a
precise description of the removed connection's fate. -/
theorem RCT_inv2 {m : Manager} (hI : Inv2 m) (t : Topic) (c : Conn) :
    ∃ m' evs rem, m.removeConnFromTopic t c = some (m', evs, rem) ∧ Inv2 m' ∧
      (∀ c', c' ≠ c → lookupA m'.conns c' = lookupA m.conns c') ∧
      (∀ t' c', c' ≠ c → m'.lookupEdge t' c' = m.lookupEdge t' c') ∧
      (∀ t', m'.lookupEdge t' c = if t' = t then none else m.lookupEdge t' c) ∧
      (if (m.lookupEdge t c).isSome
        then ∃ ref, lookupA m.conns c = some ref ∧
          (if edgeCount m c = 1
            then rem = true ∧ lookupA m'.conns c = none ∧
              evs = (if ref.keep then [] else [Event.closed c]) ∧
              (∀ t', m'.lookupEdge t' c = none)
            else rem = false ∧
              lookupA m'.conns c = some { ref with topics := ref.topics - 1 } ∧ evs = [] ∧
              edgeCount m' c + 1 = edgeCount m c)
        else m' = m ∧ rem = false ∧ evs = []) := by
  obtain ⟨hW, h1, heq⟩ := hI
  obtain ⟨m', evs, rem, hr, hW', hoc, hoe, hec, hcn, hcc, hfate⟩ := RCT_spec hW h1 t c
  have hmain : if (m.lookupEdge t c).isSome
      then ∃ ref, lookupA m.conns c = some ref ∧
        (if edgeCount m c = 1
          then rem = true ∧ lookupA m'.conns c = none ∧
            evs = (if ref.keep then [] else [Event.closed c]) ∧
            (∀ t', m'.lookupEdge t' c = none)
          else rem = false ∧
            lookupA m'.conns c = some { ref with topics := ref.topics - 1 } ∧ evs = [] ∧
            edgeCount m' c + 1 = edgeCount m c)
      else m' = m ∧ rem = false ∧ evs = [] := by
    by_cases he : (m.lookupEdge t c).isSome
    · rw [if_pos he] at hfate hcc ⊢
      obtain ⟨ref, href, hfi⟩ := hfate
      have hteq := IEq_lookup heq href
      have hpos := edgeCount_pos_of_edge he
      refine ⟨ref, href, ?_⟩
      by_cases h1c : edgeCount m c = 1
      · rw [if_pos h1c]
        have hd : (counter.dec ref.topics).2 = true := by
          rw [dec_reached_iff]
          omega
        rw [if_pos hd] at hfi
        refine ⟨hfi.1, hfi.2.1, hfi.2.2, fun t' => ?_⟩
        apply lookupEdge_eq_none_of_count_zero
        omega
      · rw [if_neg h1c]
        have hd : ¬(counter.dec ref.topics).2 = true := by
          rw [dec_reached_iff]
          omega
        rw [if_neg hd] at hfi
        have htne : ref.topics ≠ 0 := by omega
        refine ⟨hfi.1, ?_, hfi.2.2, by omega⟩
        rw [hfi.2.1, dec_val_of_ne _ htne]
    · rw [if_neg he] at hfate ⊢
      exact ⟨hfate.1, hfate.2.1, hfate.2.2⟩
  refine ⟨m', evs, rem, hr, ⟨hW', ?_, ?_⟩, hoc, hoe, hec, hmain⟩
  · apply I1_of_lookup hW'
    intro t' c' hsome
    by_cases hc' : c' = c
    · subst hc'
      by_cases he : (m.lookupEdge t c').isSome
      · rw [if_pos he] at hmain
        obtain ⟨ref, href, hfi⟩ := hmain
        by_cases h1c : edgeCount m c' = 1
        · rw [if_pos h1c] at hfi
          rw [hfi.2.2.2 t'] at hsome
          simp at hsome
        · rw [if_neg h1c] at hfi
          rw [hfi.2.1]
          rfl
      · rw [if_neg he] at hmain
        rw [hmain.1]
        rw [hmain.1] at hsome
        exact I1_lookup h1 hsome
    · rw [hoe t' c' hc'] at hsome
      rw [hoc c' hc']
      exact I1_lookup h1 hsome
  · apply IEq_of_lookup hW'
    intro c'' ref'' hlook
    by_cases hc'' : c'' = c
    · subst hc''
      by_cases he : (m.lookupEdge t c'').isSome
      · rw [if_pos he] at hmain
        obtain ⟨ref, href, hfi⟩ := hmain
        by_cases h1c : edgeCount m c'' = 1
        · rw [if_pos h1c] at hfi
          rw [hfi.2.1] at hlook
          simp at hlook
        · rw [if_neg h1c] at hfi
          rw [hfi.2.1] at hlook
          have hteq := IEq_lookup heq href
          have hrr : ref'' = { ref with topics := ref.topics - 1 } := by
            injection hlook with hh
            exact hh.symm
          subst hrr
          have := hfi.2.2.2
          simp only
          omega
      · rw [if_neg he] at hmain hcc
        obtain ⟨hm', _, _⟩ := hmain
        subst hm'
        have := IEq_lookup heq hlook
        omega
    · rw [hoc c'' hc''] at hlook
      rw [hcn c'' hc'']
      exact IEq_lookup heq hlook

/-! ## The all-topics removal sweep of message fan-out -/

theorem exists_edge_of_count_pos {m : Manager} (hW : WF m) {c : Conn}
    (h : 1 ≤ edgeCount m c) : ∃ t, (m.lookupEdge t c).isSome := by
  have hpos : 0 < m.topics.countP (fun p => (lookupA p.2 c).isSome) := h
  rw [List.countP_pos_iff] at hpos
  obtain ⟨p, hp, hpred⟩ := hpos
  refine ⟨p.1, ?_⟩
  have hl : lookupA m.topics p.1 = some p.2 := lookupA_of_mem hW.1 (by simpa using hp)
  show (edgeOf m.topics p.1 c).isSome
  unfold edgeOf getTopicConns
  rw [hl]
  simpa using hpred

theorem edge_topic_mem_keys {m : Manager} {t : Topic} {c : Conn}
    (h : (m.lookupEdge t c).isSome) : t ∈ m.topics.map Prod.fst := by
  obtain ⟨cs, v, hcs, _⟩ := edgeOf_isSome_elim h
  exact List.mem_map.mpr ⟨(t, cs), mem_of_lookupA hcs, rfl⟩

/-- The sweep is a no-op on a connection with no edges and no entry. -/
theorem sweep_noop {c : Conn} :
    ∀ (ts : List Topic) (m : Manager), WF m → I1 m →
      (∀ t, m.lookupEdge t c = none) →
      removeConnEverywhere m c ts = some (m, []) := by
  intro ts
  induction ts with
  | nil => intro m _ _ _; rfl
  | cons t rest ih =>
    intro m hW h1 hno
    simp only [removeConnEverywhere]
    obtain ⟨m', evs, rem, hr, hW', hoc, hoe, hec, hcn, hcc, hfate⟩ := RCT_spec hW h1 t c
    rw [hr]
    dsimp only
    rw [hno t] at hfate
    simp only [Option.isSome_none, Bool.false_eq_true, if_false] at hfate
    obtain ⟨hm, hrem, hevs⟩ := hfate
    subst hm
    subst hevs
    rw [ih _ hW h1 hno]
    rfl

/-- The sweep preserves the safety invariant and always succeeds. -/
theorem sweep_inv {c : Conn} :
    ∀ (ts : List Topic) (m : Manager), Inv m →
      ∃ m' evs, removeConnEverywhere m c ts = some (m', evs) ∧ Inv m' ∧
        (∀ c', c' ≠ c → lookupA m'.conns c' = lookupA m.conns c') ∧
        (∀ t' c', c' ≠ c → m'.lookupEdge t' c' = m.lookupEdge t' c') := by
  intro ts
  induction ts with
  | nil => intro m hI; exact ⟨m, [], rfl, hI, fun _ _ => rfl, fun _ _ _ => rfl⟩
  | cons t rest ih =>
    intro m hI
    simp only [removeConnEverywhere]
    obtain ⟨m₁, evs₁, rem, hr, hI₁, hoc₁, hoe₁⟩ := RCT_inv hI t c
    rw [hr]
    dsimp only
    obtain ⟨m₂, evs₂, hrun, hI₂, hoc₂, hoe₂⟩ := ih m₁ hI₁
    rw [hrun]
    exact ⟨m₂, evs₁ ++ evs₂, rfl, hI₂,
      fun c' hc' => (hoc₂ c' hc').trans (hoc₁ c' hc'),
      fun t' c' hc' => (hoe₂ t' c' hc').trans (hoe₁ t' c' hc')⟩

/-- Under the exact-count invariant, sweeping a present connection
with at least one edge over a topic list covering all its edges
removes it from every topic, evicts it, and closes its channel unless
`keep`. -/
theorem sweep_evicts {c : Conn} :
    ∀ (ts : List Topic) (m : Manager) (ref : ConnRefCount), Inv2 m →
      lookupA m.conns c = some ref →
      (∀ t, (m.lookupEdge t c).isSome → t ∈ ts) →
      1 ≤ edgeCount m c →
      ∃ m', removeConnEverywhere m c ts
          = some (m', if ref.keep then [] else [Event.closed c]) ∧
        Inv2 m' ∧ lookupA m'.conns c = none ∧ (∀ t, m'.lookupEdge t c = none) ∧
        (∀ c', c' ≠ c → lookupA m'.conns c' = lookupA m.conns c') ∧
        (∀ t' c', c' ≠ c → m'.lookupEdge t' c' = m.lookupEdge t' c') := by
  intro ts
  induction ts with
  | nil =>
    intro m ref hI2 href hsub hcnt
    exfalso
    obtain ⟨t, ht⟩ := exists_edge_of_count_pos hI2.1 hcnt
    exact absurd (hsub t ht) (List.not_mem_nil t)
  | cons t rest ih =>
    intro m ref hI2 href hsub hcnt
    simp only [removeConnEverywhere]
    obtain ⟨m₁, evs₁, rem, hr, hI₁, hoc₁, hoe₁, hec₁, hfate⟩ := RCT_inv2 hI2 t c
    rw [hr]
    dsimp only
    by_cases he : (m.lookupEdge t c).isSome
    · rw [if_pos he] at hfate
      obtain ⟨ref₀, href₀, hfi⟩ := hfate
      have hr0 : ref = ref₀ := by
        rw [href] at href₀
        exact Option.some.inj href₀
      subst hr0
      by_cases h1c : edgeCount m c = 1
      · rw [if_pos h1c] at hfi
        obtain ⟨hrem, hnone, hevs, hall⟩ := hfi
        rw [sweep_noop rest m₁ hI₁.1 hI₁.2.1 hall]
        subst hevs
        refine ⟨m₁, by simp, hI₁, hnone, hall, hoc₁, hoe₁⟩
      · rw [if_neg h1c] at hfi
        obtain ⟨hrem, hsome₁, hevs, hcnt₁⟩ := hfi
        have hsub₁ : ∀ t', (m₁.lookupEdge t' c).isSome → t' ∈ rest := by
          intro t' ht'
          rw [hec₁ t'] at ht'
          by_cases htt : t' = t
          · rw [if_pos htt] at ht'
            simp at ht'
          · rw [if_neg htt] at ht'
            have := hsub t' ht'
            rcases List.mem_cons.mp this with hh | hh
            · exact absurd hh htt
            · exact hh
        have hpos := edgeCount_pos_of_edge he
        obtain ⟨m₂, hrun, hI₂, hnone₂, hall₂, hoc₂, hoe₂⟩ :=
          ih m₁ { ref with topics := ref.topics - 1 } hI₁ hsome₁ hsub₁ (by omega)
        rw [hrun]
        subst hevs
        refine ⟨m₂, by simp, hI₂, hnone₂, hall₂,
          fun c' hc' => (hoc₂ c' hc').trans (hoc₁ c' hc'),
          fun t' c' hc' => (hoe₂ t' c' hc').trans (hoe₁ t' c' hc')⟩
    · rw [if_neg he] at hfate
      obtain ⟨hm, hrem, hevs⟩ := hfate
      subst hm
      have hsub₁ : ∀ t', (m₁.lookupEdge t' c).isSome → t' ∈ rest := by
        intro t' ht'
        rcases List.mem_cons.mp (hsub t' ht') with hh | hh
        · subst hh
          exact absurd ht' he
        · exact hh
      obtain ⟨m₂, hrun, hI₂, hnone₂, hall₂, hoc₂, hoe₂⟩ :=
        ih m₁ ref hI2 href hsub₁ hcnt
      rw [hrun]
      subst hevs
      exact ⟨m₂, by simp, hI₂, hnone₂, hall₂, hoc₂, hoe₂⟩

/-! ## processConn: the per-connection body of message fan-out -/

theorem updateEdgeCnt_props {topics : List (Topic × List (Conn × Int))} {t : Topic} {c : Conn}
    {cs : List (Conn × Int)} {v₀ : Int} (hk : keysND topics)
    (hki : ∀ p ∈ topics, keysND p.2)
    (hcs : lookupA topics t = some cs) (hv : lookupA cs c = some v₀) (v : Int) :
    edgeOf (updateEdgeCnt topics t c v) t c = some v ∧
    (∀ t' c', ¬(t' = t ∧ c' = c) → edgeOf (updateEdgeCnt topics t c v) t' c' = edgeOf topics t' c') ∧
    keysND (updateEdgeCnt topics t c v) ∧
    (∀ p ∈ updateEdgeCnt topics t c v, keysND p.2) ∧
    (∀ c'', edgeCountT (updateEdgeCnt topics t c v) c'' = edgeCountT topics c'') := by
  have hgc : getTopicConns topics t = cs := by
    unfold getTopicConns
    rw [hcs]
    rfl
  have hupd : updateEdgeCnt topics t c v = insertA topics t (insertA cs c v) := by
    unfold updateEdgeCnt
    rw [hcs]
    dsimp only
    rw [hv]
  rw [hupd]
  refine ⟨?_, ?_, keysND_insertA _ _ _ hk, ?_, ?_⟩
  · have := edgeOf_insert_write topics t t c v
    rw [hgc] at this
    rw [this, if_pos rfl]
  · intro t' c' hne
    by_cases hc' : c' = c
    · subst hc'
      have ht' : t' ≠ t := fun hh => hne ⟨hh, rfl⟩
      have := edgeOf_insert_write topics t t' c' v
      rw [hgc] at this
      rw [this, if_neg (fun hh => ht' hh.symm)]
    · have := edgeOf_insert_write_other topics t t' c c' hc' v
      rw [hgc] at this
      rw [this]
  · intro p hp
    rcases mem_insertA_elim hp with hp | hp
    · rw [hp]
      exact keysND_insertA _ _ _ (hki (t, cs) (mem_of_lookupA hcs))
    · exact hki p hp
  · intro c''
    have heq := countP_insertA_present
      (insertA cs c v) (fun p => (lookupA p.2 c'').isSome) hcs
    have hsame : (fun p : Topic × List (Conn × Int) => (lookupA p.2 c'').isSome)
        (t, insertA cs c v) = (fun p : Topic × List (Conn × Int) =>
          (lookupA p.2 c'').isSome) (t, cs) := by
      simp only
      by_cases hc'' : c'' = c
      · subst hc''
        rw [lookupA_insertA_self, hv]
        rfl
      · rw [lookupA_insertA_ne _ _ hc'']
    rw [hsame] at heq
    simp only [edgeCountT]
    omega

/-- Updating the `messages` field of a present connection preserves
well-formedness and double indexing (the `topics` field and the edges
are untouched). -/
theorem setMessages_inv {m : Manager} (hW : WF m) (h1 : I1 m) {c : Conn} {ref : ConnRefCount}
    (href : lookupA m.conns c = some ref) (x : Int) :
    WF { m with conns := insertA m.conns c { ref with messages := x } } ∧
    I1 { m with conns := insertA m.conns c { ref with messages := x } } ∧
    lookupA (insertA m.conns c { ref with messages := x }) c
      = some { ref with messages := x } ∧
    (∀ c', c' ≠ c → lookupA (insertA m.conns c { ref with messages := x }) c'
      = lookupA m.conns c') := by
  have hW' : WF { m with conns := insertA m.conns c { ref with messages := x } } :=
    ⟨hW.1, keysND_insertA _ _ _ hW.2.1, hW.2.2⟩
  refine ⟨hW', ?_, lookupA_insertA_self _ _ _,
    fun c' hc' => lookupA_insertA_ne _ _ hc'⟩
  apply I1_of_lookup hW'
  intro t' c' hsome
  have hs : (m.lookupEdge t' c').isSome := hsome
  have hcp := I1_lookup h1 hs
  by_cases hc' : c' = c
  · subst hc'
    rw [lookupA_insertA_self]
    rfl
  · rw [lookupA_insertA_ne _ _ hc']
    exact hcp

theorem setMessages_IGe {m : Manager} (hW : WF m) (hge : IGe m) {c : Conn} {ref : ConnRefCount}
    (href : lookupA m.conns c = some ref) (x : Int) :
    IGe { m with conns := insertA m.conns c { ref with messages := x } } := by
  have hW' : WF { m with conns := insertA m.conns c { ref with messages := x } } :=
    ⟨hW.1, keysND_insertA _ _ _ hW.2.1, hW.2.2⟩
  apply IGe_of_lookup hW'
  intro c'' ref'' hlook
  by_cases hc'' : c'' = c
  · subst hc''
    rw [lookupA_insertA_self] at hlook
    have hrr : ref'' = { ref with messages := x } := (Option.some.inj hlook).symm
    subst hrr
    have hh := IGe_lookup hge href
    exact hh
  · rw [lookupA_insertA_ne _ _ hc''] at hlook
    exact IGe_lookup hge hlook

theorem setMessages_IEq {m : Manager} (hW : WF m) (heq : IEq m) {c : Conn} {ref : ConnRefCount}
    (href : lookupA m.conns c = some ref) (x : Int) :
    IEq { m with conns := insertA m.conns c { ref with messages := x } } := by
  have hW' : WF { m with conns := insertA m.conns c { ref with messages := x } } :=
    ⟨hW.1, keysND_insertA _ _ _ hW.2.1, hW.2.2⟩
  apply IEq_of_lookup hW'
  intro c'' ref'' hlook
  by_cases hc'' : c'' = c
  · subst hc''
    rw [lookupA_insertA_self] at hlook
    have hrr : ref'' = { ref with messages := x } := (Option.some.inj hlook).symm
    subst hrr
    have hh := IEq_lookup heq href
    exact hh
  · rw [lookupA_insertA_ne _ _ hc''] at hlook
    exact IEq_lookup heq hlook

theorem refCountOnly_events {m : Manager} {c : Conn} {m' : Manager} {evs : List Event}
    {rem : Bool} (h : m.removeConnFromTopicRefCountOnly c = some (m', evs, rem)) :
    ∀ e ∈ evs, e = Event.closed c := by
  unfold Manager.removeConnFromTopicRefCountOnly at h
  cases hl : lookupA m.conns c with
  | none =>
    rw [hl] at h
    simp at h
  | some ref =>
    rw [hl] at h
    dsimp only at h
    by_cases hd : (counter.dec ref.topics).2
    · rw [if_pos hd] at h
      simp only [Option.some.injEq, Prod.mk.injEq] at h
      obtain ⟨-, hevs, -⟩ := h
      intro e he
      rw [← hevs] at he
      by_cases hk : ref.keep
      · rw [if_pos hk] at he
        simp at he
      · rw [if_neg hk] at he
        simpa using he
    · rw [if_neg hd] at h
      simp only [Option.some.injEq, Prod.mk.injEq] at h
      obtain ⟨-, hevs, -⟩ := h
      intro e he
      rw [← hevs] at he
      simp at he

theorem RCT_events {m : Manager} {t : Topic} {c : Conn} {m' : Manager} {evs : List Event}
    {rem : Bool} (h : m.removeConnFromTopic t c = some (m', evs, rem)) :
    ∀ e ∈ evs, e = Event.closed c := by
  unfold Manager.removeConnFromTopic at h
  by_cases hb : (m.removeConnFromTopicNoRefCounter t c).2
  · rw [if_pos hb] at h
    exact refCountOnly_events h
  · rw [if_neg hb] at h
    simp only [Option.some.injEq, Prod.mk.injEq] at h
    obtain ⟨-, hevs, -⟩ := h
    intro e he
    rw [← hevs] at he
    simp at he

theorem sweep_events {c : Conn} :
    ∀ {ts : List Topic} {m m' : Manager} {evs : List Event},
      removeConnEverywhere m c ts = some (m', evs) → ∀ e ∈ evs, e = Event.closed c := by
  intro ts
  induction ts with
  | nil =>
    intro m m' evs h
    simp only [removeConnEverywhere, Option.some.injEq, Prod.mk.injEq] at h
    obtain ⟨-, hevs⟩ := h
    intro e he
    rw [← hevs] at he
    simp at he
  | cons t rest ih =>
    intro m m' evs h
    simp only [removeConnEverywhere] at h
    cases hr : m.removeConnFromTopic t c with
    | none =>
      rw [hr] at h
      simp at h
    | some trip =>
      obtain ⟨m₁, evs₁, rem⟩ := trip
      rw [hr] at h
      dsimp only at h
      cases hrun : removeConnEverywhere m₁ c rest with
      | none =>
        rw [hrun] at h
        simp at h
      | some pr =>
        obtain ⟨m₂, evs₂⟩ := pr
        rw [hrun] at h
        simp only [Option.some.injEq, Prod.mk.injEq] at h
        obtain ⟨-, hevs⟩ := h
        intro e he
        rw [← hevs] at he
        rcases List.mem_append.mp he with he | he
        · exact RCT_events hr e he
        · exact ih hrun e he

/-- The events emitted by processing one connection mention only that
connection. -/
theorem processConn_events {m : Manager} {t : Topic} {payload : Msg} {c : Conn}
    {m' : Manager} {evs : List Event} (h : processConn m t payload c = some (m', evs)) :
    ∀ e ∈ evs, e = Event.deliver c payload ∨ e = Event.closed c := by
  unfold processConn at h
  cases hl : lookupA m.conns c with
  | none =>
    rw [hl] at h
    simp at h
  | some ref =>
    rw [hl] at h
    dsimp only at h
    by_cases hd : (counter.dec ref.messages).2
    · rw [if_pos hd] at h
      cases hrun : (removeConnEverywhere ⟨m.topics, insertA m.conns c ({ ref with messages := (counter.dec ref.messages).1 })⟩ c (List.map Prod.fst m.topics)) with
      | none =>
        rw [hrun] at h
        simp at h
      | some pr =>
        obtain ⟨m₂, evs₂⟩ := pr
        rw [hrun] at h
        simp only [Option.some.injEq, Prod.mk.injEq] at h
        obtain ⟨-, hevs⟩ := h
        intro e he
        rw [← hevs] at he
        rcases List.mem_cons.mp he with he | he
        · exact Or.inl he
        · exact Or.inr (sweep_events hrun e he)
    · rw [if_neg hd] at h
      by_cases hd₂ : (counter.dec ((lookupA (getTopicConns m.topics t) c).getD 0)).2
      · rw [if_pos hd₂] at h
        cases hr : (Manager.removeConnFromTopic ⟨updateEdgeCnt m.topics t c (counter.dec ((lookupA (getTopicConns m.topics t) c).getD 0)).1, insertA m.conns c ({ ref with messages := (counter.dec ref.messages).1 })⟩ t c) with
        | none =>
          rw [hr] at h
          simp at h
        | some trip =>
          obtain ⟨m₃, evs₃, rem⟩ := trip
          rw [hr] at h
          simp only [Option.some.injEq, Prod.mk.injEq] at h
          obtain ⟨-, hevs⟩ := h
          intro e he
          rw [← hevs] at he
          rcases List.mem_cons.mp he with he | he
          · exact Or.inl he
          · exact Or.inr (RCT_events hr e he)
      · rw [if_neg hd₂] at h
        simp only [Option.some.injEq, Prod.mk.injEq] at h
        obtain ⟨-, hevs⟩ := h
        intro e he
        rw [← hevs] at he
        rcases List.mem_cons.mp he with he | he
        · exact Or.inl he
        · simp at he

/-- Under the safety invariant, processing one connection of the
message fan-out with an existing edge never faults, preserves the
invariant, and leaves every other connection's entry and edges
unchanged. -/
theorem processConn_inv {m : Manager} (hI : Inv m) (t : Topic) (payload : Msg) {c : Conn}
    (hedge : (m.lookupEdge t c).isSome) :
    ∃ m' evs, processConn m t payload c = some (m', evs) ∧ Inv m' ∧
      (∀ c', c' ≠ c → lookupA m'.conns c' = lookupA m.conns c') ∧
      (∀ t' c', c' ≠ c → m'.lookupEdge t' c' = m.lookupEdge t' c') := by
  obtain ⟨hW, h1, hge⟩ := hI
  have hcs := I1_lookup h1 hedge
  obtain ⟨ref, href⟩ := Option.isSome_iff_exists.mp hcs
  unfold processConn
  rw [href]
  dsimp only
  obtain ⟨hW₁, h1₁, hlook₁, hother₁⟩ := setMessages_inv hW h1 href (counter.dec ref.messages).1
  have hge₁ := setMessages_IGe hW hge href (counter.dec ref.messages).1
  by_cases hd : (counter.dec ref.messages).2
  · rw [if_pos hd]
    obtain ⟨m₂, evs₂, hrun, hI₂, hoc₂, hoe₂⟩ :=
      sweep_inv (List.map Prod.fst m.topics)
        (⟨m.topics, insertA m.conns c ({ ref with messages := (counter.dec ref.messages).1 })⟩)
        ⟨hW₁, h1₁, hge₁⟩
    rw [hrun]
    refine ⟨m₂, Event.deliver c payload :: evs₂, rfl, hI₂, ?_, ?_⟩
    · intro c' hc'
      rw [hoc₂ c' hc']
      exact hother₁ c' hc'
    · intro t' c' hc'
      exact hoe₂ t' c' hc'
  · rw [if_neg hd]
    obtain ⟨cs, v, hcs', hv⟩ := edgeOf_isSome_elim hedge
    have hcnt : (lookupA (getTopicConns m.topics t) c).getD 0 = v := by
      unfold getTopicConns
      rw [hcs']
      simp [hv]
    rw [hcnt]
    obtain ⟨hE, hO, hK, hKi, hC⟩ := updateEdgeCnt_props hW.1 hW.2.2 hcs' hv (counter.dec v).1
    have hW₂ : WF (⟨updateEdgeCnt m.topics t c (counter.dec v).1,
        insertA m.conns c ({ ref with messages := (counter.dec ref.messages).1 })⟩ : Manager) :=
      ⟨hK, keysND_insertA _ _ _ hW.2.1, hKi⟩
    have h1₂ : I1 (⟨updateEdgeCnt m.topics t c (counter.dec v).1,
        insertA m.conns c ({ ref with messages := (counter.dec ref.messages).1 })⟩ : Manager) := by
      apply I1_of_lookup hW₂
      intro t' c' hsome
      by_cases hc' : c' = c
      · subst hc'
        rw [lookupA_insertA_self]
        rfl
      · have hsome2 : (edgeOf (updateEdgeCnt m.topics t c (counter.dec v).1) t' c').isSome :=
          hsome
        rw [hO t' c' (fun hh => hc' hh.2)] at hsome2
        have hsome3 : (Manager.lookupEdge m t' c').isSome := hsome2
        rw [lookupA_insertA_ne _ _ hc']
        exact I1_lookup h1 hsome3
    have hge₂ : IGe (⟨updateEdgeCnt m.topics t c (counter.dec v).1,
        insertA m.conns c ({ ref with messages := (counter.dec ref.messages).1 })⟩ : Manager) := by
      apply IGe_of_lookup hW₂
      intro c'' ref'' hlook
      have hcc : edgeCount (⟨updateEdgeCnt m.topics t c (counter.dec v).1,
          insertA m.conns c ({ ref with messages := (counter.dec ref.messages).1 })⟩ : Manager) c''
          = edgeCount m c'' := hC c''
      by_cases hc'' : c'' = c
      · subst hc''
        rw [lookupA_insertA_self] at hlook
        have hrr : ref'' = { ref with messages := (counter.dec ref.messages).1 } :=
          (Option.some.inj hlook).symm
        subst hrr
        have hh := IGe_lookup hge href
        show (_ : Int) ≤ ref.topics
        rw [hcc]
        exact hh
      · rw [lookupA_insertA_ne _ _ hc''] at hlook
        have hh := IGe_lookup hge hlook
        rw [hcc]
        exact hh
    by_cases hd₂ : (counter.dec v).2
    · rw [if_pos hd₂]
      obtain ⟨m₃, evs₃, rem, hr, hI₃, hoc₃, hoe₃⟩ := RCT_inv ⟨hW₂, h1₂, hge₂⟩ t c
      rw [hr]
      refine ⟨m₃, Event.deliver c payload :: evs₃, rfl, hI₃, ?_, ?_⟩
      · intro c' hc'
        rw [hoc₃ c' hc']
        exact lookupA_insertA_ne _ _ hc'
      · intro t' c' hc'
        rw [hoe₃ t' c' hc']
        exact hO t' c' (fun hh => hc' hh.2)
    · rw [if_neg hd₂]
      refine ⟨_, _, rfl, ⟨hW₂, h1₂, hge₂⟩, ?_, ?_⟩
      · intro c' hc'
        exact lookupA_insertA_ne _ _ hc'
      · intro t' c' hc'
        exact hO t' c' (fun hh => hc' hh.2)

/-- Under the exact-count invariant, processing one connection with an
existing edge realises the spec's ordering: the total budget is
decremented first; on its depletion the connection is removed from
every topic, its channel is closed unless `keep`, and the per-edge
counters are not decremented (they are gone with the edges); otherwise
the payload is delivered and the per-edge counter of `(t, c)` is
decremented, the edge being removed on its depletion.  Every other
connection's entry and edges are untouched. -/
theorem processConn_inv2 {m : Manager} (hI : Inv2 m) (t : Topic) (payload : Msg) {c : Conn}
    {v : Int} (hedge : m.lookupEdge t c = some v) :
    ∃ m' evs, processConn m t payload c = some (m', evs) ∧ Inv2 m' ∧
      (∀ c', c' ≠ c → lookupA m'.conns c' = lookupA m.conns c') ∧
      (∀ t' c', c' ≠ c → m'.lookupEdge t' c' = m.lookupEdge t' c') ∧
      ∃ ref, lookupA m.conns c = some ref ∧
        (if (counter.dec ref.messages).2 then
          evs = Event.deliver c payload :: (if ref.keep then [] else [Event.closed c]) ∧
          lookupA m'.conns c = none ∧ (∀ t', m'.lookupEdge t' c = none)
        else
          (∃ tail, evs = Event.deliver c payload :: tail) ∧
          m'.lookupEdge t c = (if (counter.dec v).2 then none else some (counter.dec v).1)) := by
  obtain ⟨hW, h1, heq⟩ := hI
  have hedgeS : (m.lookupEdge t c).isSome := by rw [hedge]; rfl
  have hcs := I1_lookup h1 hedgeS
  obtain ⟨ref, href⟩ := Option.isSome_iff_exists.mp hcs
  unfold processConn
  rw [href]
  dsimp only
  obtain ⟨hW₁, h1₁, hlook₁, hother₁⟩ := setMessages_inv hW h1 href (counter.dec ref.messages).1
  have heq₁ := setMessages_IEq hW heq href (counter.dec ref.messages).1
  by_cases hd : (counter.dec ref.messages).2
  · rw [if_pos hd]
    have hedge₁ : ((⟨m.topics, insertA m.conns c
        ({ ref with messages := (counter.dec ref.messages).1 })⟩ : Manager).lookupEdge t c).isSome :=
      hedgeS
    obtain ⟨m₂, hrun, hI₂, hnone₂, hall₂, hoc₂, hoe₂⟩ :=
      sweep_evicts (List.map Prod.fst m.topics)
        (⟨m.topics, insertA m.conns c ({ ref with messages := (counter.dec ref.messages).1 })⟩)
        ({ ref with messages := (counter.dec ref.messages).1 })
        ⟨hW₁, h1₁, heq₁⟩ hlook₁
        (fun t'' ht'' => edge_topic_mem_keys ht'')
        (edgeCount_pos_of_edge hedge₁)
    rw [hrun]
    refine ⟨m₂, _, rfl, hI₂, ?_, ?_, ?_⟩
    · intro c' hc'
      rw [hoc₂ c' hc']
      exact hother₁ c' hc'
    · intro t' c' hc'
      exact hoe₂ t' c' hc'
    · refine ⟨ref, rfl, ?_⟩
      rw [if_pos hd]
      exact ⟨rfl, hnone₂, hall₂⟩
  · rw [if_neg hd]
    obtain ⟨cs, v', hcs', hv'⟩ := edgeOf_isSome_elim hedgeS
    have hvv : v' = v := by
      have hvv0 : m.lookupEdge t c = some v' := by
        show edgeOf m.topics t c = some v'
        unfold edgeOf getTopicConns
        rw [hcs']
        simpa using hv'
      rw [hedge] at hvv0
      exact (Option.some.inj hvv0).symm
    have hv : lookupA cs c = some v := by rw [hv', hvv]
    have hcnt : (lookupA (getTopicConns m.topics t) c).getD 0 = v := by
      unfold getTopicConns
      rw [hcs']
      simp [hv]
    rw [hcnt]
    obtain ⟨hE, hO, hK, hKi, hC⟩ := updateEdgeCnt_props hW.1 hW.2.2 hcs' hv (counter.dec v).1
    have hW₂ : WF (⟨updateEdgeCnt m.topics t c (counter.dec v).1,
        insertA m.conns c ({ ref with messages := (counter.dec ref.messages).1 })⟩ : Manager) :=
      ⟨hK, keysND_insertA _ _ _ hW.2.1, hKi⟩
    have h1₂ : I1 (⟨updateEdgeCnt m.topics t c (counter.dec v).1,
        insertA m.conns c ({ ref with messages := (counter.dec ref.messages).1 })⟩ : Manager) := by
      apply I1_of_lookup hW₂
      intro t' c' hsome
      by_cases hc' : c' = c
      · subst hc'
        rw [lookupA_insertA_self]
        rfl
      · have hsome2 : (edgeOf (updateEdgeCnt m.topics t c (counter.dec v).1) t' c').isSome :=
          hsome
        rw [hO t' c' (fun hh => hc' hh.2)] at hsome2
        have hsome3 : (Manager.lookupEdge m t' c').isSome := hsome2
        rw [lookupA_insertA_ne _ _ hc']
        exact I1_lookup h1 hsome3
    have heq₂ : IEq (⟨updateEdgeCnt m.topics t c (counter.dec v).1,
        insertA m.conns c ({ ref with messages := (counter.dec ref.messages).1 })⟩ : Manager) := by
      apply IEq_of_lookup hW₂
      intro c'' ref'' hlook
      have hcc : edgeCount (⟨updateEdgeCnt m.topics t c (counter.dec v).1,
          insertA m.conns c ({ ref with messages := (counter.dec ref.messages).1 })⟩ : Manager) c''
          = edgeCount m c'' := hC c''
      by_cases hc'' : c'' = c
      · subst hc''
        rw [lookupA_insertA_self] at hlook
        have hrr : ref'' = { ref with messages := (counter.dec ref.messages).1 } :=
          (Option.some.inj hlook).symm
        subst hrr
        have hh := IEq_lookup heq href
        show ref.topics = (_ : Int)
        rw [hcc]
        exact hh
      · rw [lookupA_insertA_ne _ _ hc''] at hlook
        have hh := IEq_lookup heq hlook
        rw [hcc]
        exact hh
    by_cases hd₂ : (counter.dec v).2
    · rw [if_pos hd₂]
      obtain ⟨m₃, evs₃, rem, hr, hI₃, hoc₃, hoe₃, hec₃, hfate₃⟩ :=
        RCT_inv2 ⟨hW₂, h1₂, heq₂⟩ t c
      rw [hr]
      refine ⟨m₃, Event.deliver c payload :: evs₃, rfl, hI₃, ?_, ?_, ?_⟩
      · intro c' hc'
        rw [hoc₃ c' hc']
        exact lookupA_insertA_ne _ _ hc'
      · intro t' c' hc'
        rw [hoe₃ t' c' hc']
        exact hO t' c' (fun hh => hc' hh.2)
      · refine ⟨ref, rfl, ?_⟩
        rw [if_neg hd]
        refine ⟨⟨evs₃, rfl⟩, ?_⟩
        rw [if_pos hd₂]
        rw [hec₃ t, if_pos rfl]
    · rw [if_neg hd₂]
      refine ⟨_, _, rfl, ⟨hW₂, h1₂, heq₂⟩, ?_, ?_, ?_⟩
      · intro c' hc'
        exact lookupA_insertA_ne _ _ hc'
      · intro t' c' hc'
        exact hO t' c' (fun hh => hc' hh.2)
      · refine ⟨ref, rfl, ?_⟩
        rw [if_neg hd]
        refine ⟨⟨[], rfl⟩, ?_⟩
        rw [if_neg hd₂]
        exact hE

/-! ## The message fan-out loops -/

/-- The inner fan-out loop over a duplicate-free pending list whose
members all carry an edge on the topic: it never faults, preserves the
safety invariant, and leaves non-pending connections untouched. -/
theorem messageConnsLoop_inv {t : Topic} {payload : Msg} :
    ∀ (pend : List Conn) (m : Manager) (evs₀ : List Event), Inv m → pend.Nodup →
      (∀ c' ∈ pend, (m.lookupEdge t c').isSome) →
      ∃ m' evs', messageConnsLoop m t payload pend evs₀ = some (m', evs') ∧ Inv m' ∧
        (∀ c', c' ∉ pend → lookupA m'.conns c' = lookupA m.conns c') ∧
        (∀ t' c', c' ∉ pend → m'.lookupEdge t' c' = m.lookupEdge t' c') := by
  intro pend
  induction pend with
  | nil =>
    intro m evs₀ hI _ _
    exact ⟨m, evs₀, rfl, hI, fun _ _ => rfl, fun _ _ _ => rfl⟩
  | cons c rest ih =>
    intro m evs₀ hI hnd hpres
    simp only [messageConnsLoop]
    obtain ⟨m₁, evs₁, hp, hI₁, hoc₁, hoe₁⟩ := processConn_inv hI t payload (hpres c (by simp))
    rw [hp]
    dsimp only
    have hcrest : c ∉ rest := (List.nodup_cons.mp hnd).1
    have hpres' : ∀ c' ∈ rest, (m₁.lookupEdge t c').isSome := by
      intro c' hc'
      have hne : c' ≠ c := fun hh => hcrest (hh ▸ hc')
      rw [hoe₁ t c' hne]
      exact hpres c' (by simp [hc'])
    obtain ⟨m', evs', hrun, hI', hoc', hoe'⟩ :=
      ih m₁ (evs₀ ++ evs₁) hI₁ (List.nodup_cons.mp hnd).2 hpres'
    rw [hrun]
    refine ⟨m', evs', rfl, hI', ?_, ?_⟩
    · intro c' hc'
      have h1 : c' ∉ rest := fun hh => hc' (by simp [hh])
      have h2 : c' ≠ c := fun hh => hc' (by simp [hh])
      rw [hoc' c' h1]
      exact hoc₁ c' h2
    · intro t' c' hc'
      have h1 : c' ∉ rest := fun hh => hc' (by simp [hh])
      have h2 : c' ≠ c := fun hh => hc' (by simp [hh])
      rw [hoe' t' c' h1]
      exact hoe₁ t' c' h2

/-- The outer fan-out loop never faults and preserves the safety
invariant, from any well-formed state. -/
theorem messageTopicsLoop_inv {payload : Msg} :
    ∀ (ts : List Topic) (m : Manager) (evs₀ : List Event), Inv m →
      ∃ m' evs', messageTopicsLoop m payload ts evs₀ = some (m', evs') ∧ Inv m' := by
  intro ts
  induction ts with
  | nil =>
    intro m evs₀ hI
    exact ⟨m, evs₀, rfl, hI⟩
  | cons t rest ih =>
    intro m evs₀ hI
    simp only [messageTopicsLoop]
    have hnd : (((lookupA m.topics t).getD []).map Prod.fst).Nodup := by
      cases hl : lookupA m.topics t with
      | none => simp
      | some cs =>
        simpa using (show keysND cs from hI.1.2.2 (t, cs) (mem_of_lookupA hl))
    have hpres : ∀ c' ∈ ((lookupA m.topics t).getD []).map Prod.fst,
        (m.lookupEdge t c').isSome := by
      intro c' hc'
      cases hl : lookupA m.topics t with
      | none =>
        rw [hl] at hc'
        simp at hc'
      | some cs =>
        rw [hl] at hc'
        simp only [Option.getD_some] at hc'
        show (edgeOf m.topics t c').isSome
        unfold edgeOf getTopicConns
        rw [hl]
        simp only [Option.getD_some]
        rw [lookupA_isSome_iff]
        exact hc'
    obtain ⟨m₁, evs₁, hrun, hI₁, hoc₁, hoe₁⟩ :=
      messageConnsLoop_inv (((lookupA m.topics t).getD []).map Prod.fst) m evs₀ hI hnd hpres
    rw [hrun]
    dsimp only
    exact ih m₁ evs₁ hI₁

/-- `message` never faults and preserves the safety invariant. -/
theorem message_inv {m : Manager} (hI : Inv m) (msg : Message) :
    ∃ m' evs, m.message msg = some (m', evs) ∧ Inv m' := by
  unfold Manager.message
  obtain ⟨m', evs', h, hI'⟩ := messageTopicsLoop_inv (getTopics msg.topics true) m [] hI
  exact ⟨m', evs', h, hI'⟩

/-- The inner fan-out loop under the exact-count invariant, with the
event trace characterised: every emitted event beyond the accumulator
belongs to a pending connection. -/
theorem messageConnsLoop_inv2 {t : Topic} {payload : Msg} :
    ∀ (pend : List Conn) (m : Manager) (evs₀ : List Event), Inv2 m → pend.Nodup →
      (∀ c' ∈ pend, (m.lookupEdge t c').isSome) →
      ∃ m' evs', messageConnsLoop m t payload pend evs₀ = some (m', evs') ∧ Inv2 m' ∧
        (∀ c', c' ∉ pend → lookupA m'.conns c' = lookupA m.conns c') ∧
        (∀ t' c', c' ∉ pend → m'.lookupEdge t' c' = m.lookupEdge t' c') ∧
        (∀ e ∈ evs', e ∈ evs₀ ∨
          ∃ c' ∈ pend, e = Event.deliver c' payload ∨ e = Event.closed c') := by
  intro pend
  induction pend with
  | nil =>
    intro m evs₀ hI _ _
    exact ⟨m, evs₀, rfl, hI, fun _ _ => rfl, fun _ _ _ => rfl, fun e he => Or.inl he⟩
  | cons c rest ih =>
    intro m evs₀ hI hnd hpres
    simp only [messageConnsLoop]
    obtain ⟨v, hv⟩ := Option.isSome_iff_exists.mp (hpres c (by simp))
    obtain ⟨m₁, evs₁, hp, hI₁, hoc₁, hoe₁, -⟩ := processConn_inv2 hI t payload hv
    rw [hp]
    dsimp only
    have hcrest : c ∉ rest := (List.nodup_cons.mp hnd).1
    have hpres' : ∀ c' ∈ rest, (m₁.lookupEdge t c').isSome := by
      intro c' hc'
      have hne : c' ≠ c := fun hh => hcrest (hh ▸ hc')
      rw [hoe₁ t c' hne]
      exact hpres c' (by simp [hc'])
    obtain ⟨m', evs', hrun, hI', hoc', hoe', hev'⟩ :=
      ih m₁ (evs₀ ++ evs₁) hI₁ (List.nodup_cons.mp hnd).2 hpres'
    rw [hrun]
    refine ⟨m', evs', rfl, hI', ?_, ?_, ?_⟩
    · intro c' hc'
      have h1 : c' ∉ rest := fun hh => hc' (by simp [hh])
      have h2 : c' ≠ c := fun hh => hc' (by simp [hh])
      rw [hoc' c' h1]
      exact hoc₁ c' h2
    · intro t' c' hc'
      have h1 : c' ∉ rest := fun hh => hc' (by simp [hh])
      have h2 : c' ≠ c := fun hh => hc' (by simp [hh])
      rw [hoe' t' c' h1]
      exact hoe₁ t' c' h2
    · intro e he
      rcases hev' e he with hh | ⟨c', hc', hh⟩
      · rcases List.mem_append.mp hh with hh | hh
        · exact Or.inl hh
        · refine Or.inr ⟨c, by simp, ?_⟩
          exact processConn_events hp e hh
      · exact Or.inr ⟨c', by simp [hc'], hh⟩

/-- The outer fan-out loop under the exact-count invariant: it never
faults, preserves the invariant, and a connection absent from the
subscribers map and from every topic stays absent and receives no
delivery. -/
theorem messageTopicsLoop_inv2 {payload : Msg} :
    ∀ (ts : List Topic) (m : Manager) (evs₀ : List Event), Inv2 m →
      ∃ m' evs', messageTopicsLoop m payload ts evs₀ = some (m', evs') ∧ Inv2 m' ∧
        (∀ c, lookupA m.conns c = none → (∀ t', m.lookupEdge t' c = none) →
          lookupA m'.conns c = none ∧ (∀ t', m'.lookupEdge t' c = none) ∧
          (∀ e ∈ evs', e ∈ evs₀ ∨ e ≠ Event.deliver c payload)) := by
  intro ts
  induction ts with
  | nil =>
    intro m evs₀ hI
    exact ⟨m, evs₀, rfl, hI, fun c hc he => ⟨hc, he, fun e hmem => Or.inl hmem⟩⟩
  | cons t rest ih =>
    intro m evs₀ hI
    simp only [messageTopicsLoop]
    have hnd : (((lookupA m.topics t).getD []).map Prod.fst).Nodup := by
      cases hl : lookupA m.topics t with
      | none => simp
      | some cs =>
        simpa using (show keysND cs from hI.1.2.2 (t, cs) (mem_of_lookupA hl))
    have hpres : ∀ c' ∈ ((lookupA m.topics t).getD []).map Prod.fst,
        (m.lookupEdge t c').isSome := by
      intro c' hc'
      cases hl : lookupA m.topics t with
      | none =>
        rw [hl] at hc'
        simp at hc'
      | some cs =>
        rw [hl] at hc'
        simp only [Option.getD_some] at hc'
        show (edgeOf m.topics t c').isSome
        unfold edgeOf getTopicConns
        rw [hl]
        simp only [Option.getD_some]
        rw [lookupA_isSome_iff]
        exact hc'
    obtain ⟨m₁, evs₁, hrun, hI₁, hoc₁, hoe₁, hev₁⟩ :=
      messageConnsLoop_inv2 (((lookupA m.topics t).getD []).map Prod.fst) m evs₀ hI hnd hpres
    rw [hrun]
    dsimp only
    obtain ⟨m', evs', hrun', hI', habs'⟩ := ih m₁ evs₁ hI₁
    refine ⟨m', evs', hrun', hI', ?_⟩
    intro c hcnone hcedges
    have hcpend : c ∉ ((lookupA m.topics t).getD []).map Prod.fst := by
      intro hc
      have := hpres c hc
      rw [hcedges t] at this
      simp at this
    have hc₁ : lookupA m₁.conns c = none := by rw [hoc₁ c hcpend]; exact hcnone
    have he₁ : ∀ t', m₁.lookupEdge t' c = none := by
      intro t'
      rw [hoe₁ t' c hcpend]
      exact hcedges t'
    obtain ⟨hc', he', hev'⟩ := habs' c hc₁ he₁
    refine ⟨hc', he', ?_⟩
    intro e he
    rcases hev' e he with hh | hh
    · rcases hev₁ e hh with hh₂ | ⟨c', hc'', hh₂⟩
      · exact Or.inl hh₂
      · refine Or.inr ?_
        have hne : c' ≠ c := fun hhh => hcpend (hhh ▸ hc'')
        rcases hh₂ with hh₂ | hh₂ <;> subst hh₂ <;> intro hcontra
        · exact hne (Event.deliver.inj hcontra).1
        · simp at hcontra
    · exact Or.inr hh

/-- `message` never faults and preserves the exact-count invariant. -/
theorem message_inv2 {m : Manager} (hI : Inv2 m) (msg : Message) :
    ∃ m' evs, m.message msg = some (m', evs) ∧ Inv2 m' := by
  unfold Manager.message
  obtain ⟨m', evs', h, hI', -⟩ := messageTopicsLoop_inv2 (getTopics msg.topics true) m [] hI
  exact ⟨m', evs', h, hI'⟩

/-! ## Disconnect and DisconnectAll -/

/-- An edge read on a topic absent from the routing table is `none`. -/
theorem lookupEdge_of_topic_absent {m : Manager} {t : Topic}
    (h : t ∉ m.topics.map Prod.fst) (c : Conn) : m.lookupEdge t c = none := by
  show edgeOf m.topics t c = none
  unfold edgeOf getTopicConns
  rw [(lookupA_eq_none_iff m.topics t).mpr h]
  rfl

/-- The topic loop of `disconnect` never faults under the safety
invariant and preserves it. -/
theorem disconnectLoop_inv {c : Conn} :
    ∀ (ts : List Topic) (m : Manager), Inv m →
      ∃ m' evs, disconnectLoop m c ts = some (m', evs) ∧ Inv m' := by
  intro ts
  induction ts with
  | nil =>
    intro m hI
    exact ⟨m, [], rfl, hI⟩
  | cons t rest ih =>
    intro m hI
    simp only [disconnectLoop]
    cases hl : lookupA m.topics t with
    | none => exact ih m hI
    | some cs =>
      obtain ⟨m₁, evs₁, rem, hr, hI₁, hoc₁, hoe₁⟩ := RCT_inv hI t c
      rw [hr]
      dsimp only
      by_cases hrem : rem = true
      · rw [if_pos hrem]
        exact ⟨m₁, evs₁, rfl, hI₁⟩
      · rw [if_neg hrem]
        obtain ⟨m', evs', hrun, hI'⟩ := ih m₁ hI₁
        rw [hrun]
        exact ⟨m', evs₁ ++ evs', rfl, hI'⟩

/-- The topic loop of `disconnect` under the exact-count invariant. -/
theorem disconnectLoop_inv2 {c : Conn} :
    ∀ (ts : List Topic) (m : Manager), Inv2 m →
      ∃ m' evs, disconnectLoop m c ts = some (m', evs) ∧ Inv2 m' := by
  intro ts
  induction ts with
  | nil =>
    intro m hI
    exact ⟨m, [], rfl, hI⟩
  | cons t rest ih =>
    intro m hI
    simp only [disconnectLoop]
    cases hl : lookupA m.topics t with
    | none => exact ih m hI
    | some cs =>
      obtain ⟨m₁, evs₁, rem, hr, hI₁, hoc₁, hoe₁, -, -⟩ := RCT_inv2 hI t c
      rw [hr]
      dsimp only
      by_cases hrem : rem = true
      · rw [if_pos hrem]
        exact ⟨m₁, evs₁, rfl, hI₁⟩
      · rw [if_neg hrem]
        obtain ⟨m', evs', hrun, hI'⟩ := ih m₁ hI₁
        rw [hrun]
        exact ⟨m', evs₁ ++ evs', rfl, hI'⟩

/-- `disconnect` never faults under the safety invariant and preserves
it. -/
theorem disconnect_inv {m : Manager} (hI : Inv m) (d : Disconnect) :
    ∃ m' evs, m.disconnect d = some (m', evs) ∧ Inv m' := by
  unfold Manager.disconnect
  cases hl : lookupA m.conns d.conn with
  | none => exact ⟨m, [], rfl, hI⟩
  | some ref => exact disconnectLoop_inv _ m hI

/-- `disconnect` never faults under the exact-count invariant and
preserves it. -/
theorem disconnect_inv2 {m : Manager} (hI : Inv2 m) (d : Disconnect) :
    ∃ m' evs, m.disconnect d = some (m', evs) ∧ Inv2 m' := by
  unfold Manager.disconnect
  cases hl : lookupA m.conns d.conn with
  | none => exact ⟨m, [], rfl, hI⟩
  | some ref => exact disconnectLoop_inv2 _ m hI

/-- Full description of the `disconnectAll` topic sweep: the conns map
is untouched, every edge of `c` on a swept topic is gone, all other
edges survive, and the edge counts of other connections do not move. -/
theorem removeAllNoRef_props {c : Conn} :
    ∀ (ts : List Topic) (m : Manager), WF m →
      WF (removeConnAllTopicsNoRef m c ts) ∧
      (removeConnAllTopicsNoRef m c ts).conns = m.conns ∧
      (∀ t' c', (removeConnAllTopicsNoRef m c ts).lookupEdge t' c'
        = if t' ∈ ts ∧ c' = c then none else m.lookupEdge t' c') ∧
      (∀ c', c' ≠ c → edgeCount (removeConnAllTopicsNoRef m c ts) c' = edgeCount m c') := by
  intro ts
  induction ts with
  | nil =>
    intro m hW
    refine ⟨hW, rfl, ?_, fun _ _ => rfl⟩
    intro t' c'
    rw [if_neg (fun hh => List.not_mem_nil t' hh.1)]
    rfl
  | cons t rest ih =>
    intro m hW
    obtain ⟨m₁, hstep, hW₁, hconns₁, hedges₁, hcs₁, hco₁, hid₁⟩ := noRef_spec hW t c
    simp only [removeConnAllTopicsNoRef]
    rw [hstep]
    dsimp only
    obtain ⟨hW', hc', he', hcnt'⟩ := ih m₁ hW₁
    refine ⟨hW', by rw [hc', hconns₁], ?_, ?_⟩
    · intro t' c'
      rw [he' t' c', hedges₁ t' c']
      by_cases hcc : c' = c
      · subst hcc
        by_cases hmem : t' ∈ rest
        · rw [if_pos ⟨hmem, rfl⟩, if_pos ⟨by simp [hmem], rfl⟩]
        · rw [if_neg (fun hh => hmem hh.1)]
          by_cases ht' : t' = t
          · rw [if_pos ⟨ht', rfl⟩, if_pos ⟨by simp [ht'], rfl⟩]
          · rw [if_neg (fun hh => ht' hh.1), if_neg]
            intro hh
            rcases List.mem_cons.mp hh.1 with h2 | h2
            exacts [ht' h2, hmem h2]
      · rw [if_neg (fun hh => hcc hh.2), if_neg (fun hh => hcc hh.2),
          if_neg (fun hh => hcc hh.2)]
    · intro c' hne
      rw [hcnt' c' hne, hco₁ c' hne]

/-- `disconnectAll` preserves the safety invariant. -/
theorem disconnectAll_inv {m : Manager} (hI : Inv m) (c : Conn) :
    Inv (m.disconnectAll c).1 := by
  obtain ⟨hW, h1, hge⟩ := hI
  unfold Manager.disconnectAll
  cases hl : lookupA m.conns c with
  | none => exact ⟨hW, h1, hge⟩
  | some ref =>
    dsimp only
    have hW' : WF (⟨m.topics, eraseA m.conns c⟩ : Manager) :=
      ⟨hW.1, keysND_eraseA _ _ hW.2.1, hW.2.2⟩
    obtain ⟨hWr, hcr, her, hcntr⟩ :=
      removeAllNoRef_props (List.map Prod.fst m.topics) (⟨m.topics, eraseA m.conns c⟩) hW'
    refine ⟨hWr, ?_, ?_⟩
    · apply I1_of_lookup hWr
      intro t' c' hsome
      rw [her t' c'] at hsome
      by_cases hcc : c' = c
      · subst hcc
        by_cases hmem : t' ∈ List.map Prod.fst m.topics
        · rw [if_pos ⟨hmem, rfl⟩] at hsome
          simp at hsome
        · rw [if_neg (fun hh => hmem hh.1)] at hsome
          rw [show (⟨m.topics, eraseA m.conns c'⟩ : Manager).lookupEdge t' c'
            = m.lookupEdge t' c' from rfl] at hsome
          rw [lookupEdge_of_topic_absent hmem c'] at hsome
          simp at hsome
      · rw [if_neg (fun hh => hcc hh.2)] at hsome
        have hsome2 : (m.lookupEdge t' c').isSome := hsome
        have := I1_lookup h1 hsome2
        rw [hcr]
        show (lookupA (eraseA m.conns c) c').isSome
        rw [lookupA_eraseA_ne _ hcc]
        exact this
    · apply IGe_of_lookup hWr
      intro c'' ref'' hlook
      have hlook2 : lookupA (eraseA m.conns c) c'' = some ref'' := by
        have hx : lookupA (removeConnAllTopicsNoRef
            (⟨m.topics, eraseA m.conns c⟩ : Manager) c (List.map Prod.fst m.topics)).conns c''
            = some ref'' := hlook
        rw [hcr] at hx
        exact hx
      have hcc : c'' ≠ c := by
        intro hh
        rw [hh, lookupA_eraseA_self _ _ hW.2.1] at hlook2
        simp at hlook2
      rw [lookupA_eraseA_ne _ hcc] at hlook2
      have hcnt : edgeCount (removeConnAllTopicsNoRef
          (⟨m.topics, eraseA m.conns c⟩ : Manager) c (List.map Prod.fst m.topics)) c''
          = edgeCount m c'' := hcntr c'' hcc
      rw [hcnt]
      exact IGe_lookup hge hlook2

/-- `disconnectAll` preserves the exact-count invariant. -/
theorem disconnectAll_inv2 {m : Manager} (hI : Inv2 m) (c : Conn) :
    Inv2 (m.disconnectAll c).1 := by
  obtain ⟨hW, h1, heq⟩ := hI
  unfold Manager.disconnectAll
  cases hl : lookupA m.conns c with
  | none => exact ⟨hW, h1, heq⟩
  | some ref =>
    dsimp only
    have hW' : WF (⟨m.topics, eraseA m.conns c⟩ : Manager) :=
      ⟨hW.1, keysND_eraseA _ _ hW.2.1, hW.2.2⟩
    obtain ⟨hWr, hcr, her, hcntr⟩ :=
      removeAllNoRef_props (List.map Prod.fst m.topics) (⟨m.topics, eraseA m.conns c⟩) hW'
    refine ⟨hWr, ?_, ?_⟩
    · apply I1_of_lookup hWr
      intro t' c' hsome
      rw [her t' c'] at hsome
      by_cases hcc : c' = c
      · subst hcc
        by_cases hmem : t' ∈ List.map Prod.fst m.topics
        · rw [if_pos ⟨hmem, rfl⟩] at hsome
          simp at hsome
        · rw [if_neg (fun hh => hmem hh.1)] at hsome
          rw [show (⟨m.topics, eraseA m.conns c'⟩ : Manager).lookupEdge t' c'
            = m.lookupEdge t' c' from rfl] at hsome
          rw [lookupEdge_of_topic_absent hmem c'] at hsome
          simp at hsome
      · rw [if_neg (fun hh => hcc hh.2)] at hsome
        have hsome2 : (m.lookupEdge t' c').isSome := hsome
        have := I1_lookup h1 hsome2
        rw [hcr]
        show (lookupA (eraseA m.conns c) c').isSome
        rw [lookupA_eraseA_ne _ hcc]
        exact this
    · apply IEq_of_lookup hWr
      intro c'' ref'' hlook
      have hlook2 : lookupA (eraseA m.conns c) c'' = some ref'' := by
        have hx : lookupA (removeConnAllTopicsNoRef
            (⟨m.topics, eraseA m.conns c⟩ : Manager) c (List.map Prod.fst m.topics)).conns c''
            = some ref'' := hlook
        rw [hcr] at hx
        exact hx
      have hcc : c'' ≠ c := by
        intro hh
        rw [hh, lookupA_eraseA_self _ _ hW.2.1] at hlook2
        simp at hlook2
      rw [lookupA_eraseA_ne _ hcc] at hlook2
      have hcnt : edgeCount (removeConnAllTopicsNoRef
          (⟨m.topics, eraseA m.conns c⟩ : Manager) c (List.map Prod.fst m.topics)) c''
          = edgeCount m c'' := hcntr c'' hcc
      rw [hcnt]
      exact IEq_lookup heq hlook2

/-! ## Close and CloseAll -/

/-- Dropping a topic from the routing table: the edge reads. -/
theorem eraseTopic_edge {m : Manager} (hnd : keysND m.topics) (t t' : Topic) (c' : Conn) :
    (⟨eraseA m.topics t, m.conns⟩ : Manager).lookupEdge t' c'
      = if t' = t then none else m.lookupEdge t' c' := by
  show edgeOf (eraseA m.topics t) t' c' = _
  unfold edgeOf getTopicConns
  by_cases ht : t' = t
  · rw [if_pos ht, ht, lookupA_eraseA_self _ _ hnd]
    rfl
  · rw [if_neg ht, lookupA_eraseA_ne _ ht]
    rfl

/-- Dropping a topic from the routing table: the edge counts. -/
theorem eraseTopic_count {m : Manager} {t : Topic} {cs : List (Conn × Int)}
    (hcs : lookupA m.topics t = some cs) (c'' : Conn) :
    edgeCount (⟨eraseA m.topics t, m.conns⟩ : Manager) c''
      + (if (lookupA cs c'').isSome then 1 else 0) = edgeCount m c'' :=
  countP_eraseA_present _ hcs

/-- The refcount-decrement loop of `closeTopics`/`closeAllTopics`: if
every pending connection is present with one unit of refcount slack
(its dropped edge), the loop never faults, restores the safety
invariant, and leaves the routing table untouched. -/
theorem closeConnsLoop_inv :
    ∀ (pend : List Conn) (m : Manager) (evs₀ : List Event),
      WF m → I1 m → pend.Nodup →
      (∀ c'' ∈ pend, (lookupA m.conns c'').isSome) →
      (∀ c'' ref, lookupA m.conns c'' = some ref →
        (if c'' ∈ pend then (edgeCount m c'' : Int) + 1 ≤ ref.topics
         else (edgeCount m c'' : Int) ≤ ref.topics)) →
      ∃ m' evs', closeTopicConnsLoop m pend evs₀ = some (m', evs') ∧ Inv m' ∧
        m'.topics = m.topics := by
  intro pend
  induction pend with
  | nil =>
    intro m evs₀ hW h1 _ _ hslack
    refine ⟨m, evs₀, rfl, ⟨hW, h1, ?_⟩, rfl⟩
    apply IGe_of_lookup hW
    intro c'' ref hlook
    have hh := hslack c'' ref hlook
    rw [if_neg (List.not_mem_nil c'')] at hh
    exact hh
  | cons c rest ih =>
    intro m evs₀ hW h1 hnd hpres hslack
    simp only [closeTopicConnsLoop]
    obtain ⟨ref, href⟩ := Option.isSome_iff_exists.mp (hpres c (by simp))
    obtain ⟨m₁, evs₁, rem, hr, htop₁, hkc₁, hoc₁, hfate⟩ := refCountOnly_spec hW.2.1 href
    rw [hr]
    dsimp only
    have hWm₁ : WF m₁ :=
      ⟨by rw [htop₁]; exact hW.1, hkc₁, by rw [htop₁]; exact hW.2.2⟩
    have hedge₁ : ∀ t' c', m₁.lookupEdge t' c' = m.lookupEdge t' c' := by
      intro t' c'
      show edgeOf m₁.topics t' c' = edgeOf m.topics t' c'
      rw [htop₁]
    have hcnt₁ : ∀ c'', edgeCount m₁ c'' = edgeCount m c'' := by
      intro c''
      show m₁.topics.countP _ = _
      rw [htop₁]
      rfl
    have hsl := hslack c ref href
    rw [if_pos (by simp : c ∈ c :: rest)] at hsl
    have hcr : c ∉ rest := (List.nodup_cons.mp hnd).1
    by_cases hd : (counter.dec ref.topics).2
    · rw [if_pos hd] at hfate
      obtain ⟨hrem, hcnone, hevs⟩ := hfate
      have h01 : ref.topics = 1 := (dec_reached_iff ref.topics).mp hd
      have hc0 : edgeCount m c = 0 := by omega
      have h1m₁ : I1 m₁ := by
        apply I1_of_lookup hWm₁
        intro t' c' hsome
        rw [hedge₁ t' c'] at hsome
        by_cases hcc : c' = c
        · subst hcc
          rw [lookupEdge_eq_none_of_count_zero hc0 t'] at hsome
          simp at hsome
        · rw [hoc₁ c' hcc]
          exact I1_lookup h1 hsome
      obtain ⟨m', evs', hrun, hI', htop'⟩ := ih m₁ (evs₀ ++ evs₁) hWm₁ h1m₁
        (List.nodup_cons.mp hnd).2
        (fun c'' hc'' => by
          rw [hoc₁ c'' (fun hh => hcr (hh ▸ hc''))]
          exact hpres c'' (by simp [hc'']))
        (fun c'' ref'' hlook => by
          have hcc : c'' ≠ c := by
            intro hh
            rw [hh, hcnone] at hlook
            simp at hlook
          rw [hoc₁ c'' hcc] at hlook
          have hh := hslack c'' ref'' hlook
          rw [hcnt₁ c'']
          by_cases hmem : c'' ∈ rest
          · rw [if_pos hmem]
            rw [if_pos (by simp [hmem])] at hh
            exact hh
          · rw [if_neg hmem]
            rw [if_neg (by simp [hcc, hmem] : ¬c'' ∈ c :: rest)] at hh
            exact hh)
      rw [hrun]
      exact ⟨m', evs', rfl, hI', by rw [htop', htop₁]⟩
    · rw [if_neg hd] at hfate
      obtain ⟨hrem, hcsome, hevs⟩ := hfate
      have hne0 : ref.topics ≠ 0 := by omega
      have hdec1 : (counter.dec ref.topics).1 = ref.topics - 1 := dec_val_of_ne _ hne0
      have h1m₁ : I1 m₁ := by
        apply I1_of_lookup hWm₁
        intro t' c' hsome
        by_cases hcc : c' = c
        · subst hcc
          rw [hcsome]
          rfl
        · rw [hoc₁ c' hcc]
          rw [hedge₁ t' c'] at hsome
          exact I1_lookup h1 hsome
      obtain ⟨m', evs', hrun, hI', htop'⟩ := ih m₁ (evs₀ ++ evs₁) hWm₁ h1m₁
        (List.nodup_cons.mp hnd).2
        (fun c'' hc'' => by
          rw [hoc₁ c'' (fun hh => hcr (hh ▸ hc''))]
          exact hpres c'' (by simp [hc'']))
        (fun c'' ref'' hlook => by
          rw [hcnt₁ c'']
          by_cases hcc : c'' = c
          · subst hcc
            rw [hcsome] at hlook
            have hrr : ref'' = { ref with topics := (counter.dec ref.topics).1 } :=
              (Option.some.inj hlook).symm
            subst hrr
            rw [if_neg hcr]
            show (edgeCount m c'' : Int) ≤ (counter.dec ref.topics).1
            rw [hdec1]
            omega
          · rw [hoc₁ c'' hcc] at hlook
            have hh := hslack c'' ref'' hlook
            by_cases hmem : c'' ∈ rest
            · rw [if_pos hmem]
              rw [if_pos (by simp [hmem])] at hh
              exact hh
            · rw [if_neg hmem]
              rw [if_neg (by simp [hcc, hmem] : ¬c'' ∈ c :: rest)] at hh
              exact hh)
      rw [hrun]
      exact ⟨m', evs', rfl, hI', by rw [htop', htop₁]⟩

/-- The refcount-decrement loop under the exact-count invariant: the
slack is exactly one unit per pending connection. -/
theorem closeConnsLoop_inv2 :
    ∀ (pend : List Conn) (m : Manager) (evs₀ : List Event),
      WF m → I1 m → pend.Nodup →
      (∀ c'' ∈ pend, (lookupA m.conns c'').isSome) →
      (∀ c'' ref, lookupA m.conns c'' = some ref →
        (if c'' ∈ pend then ref.topics = (edgeCount m c'' : Int) + 1
         else ref.topics = (edgeCount m c'' : Int))) →
      ∃ m' evs', closeTopicConnsLoop m pend evs₀ = some (m', evs') ∧ Inv2 m' ∧
        m'.topics = m.topics := by
  intro pend
  induction pend with
  | nil =>
    intro m evs₀ hW h1 _ _ hslack
    refine ⟨m, evs₀, rfl, ⟨hW, h1, ?_⟩, rfl⟩
    apply IEq_of_lookup hW
    intro c'' ref hlook
    have hh := hslack c'' ref hlook
    rw [if_neg (List.not_mem_nil c'')] at hh
    exact hh
  | cons c rest ih =>
    intro m evs₀ hW h1 hnd hpres hslack
    simp only [closeTopicConnsLoop]
    obtain ⟨ref, href⟩ := Option.isSome_iff_exists.mp (hpres c (by simp))
    obtain ⟨m₁, evs₁, rem, hr, htop₁, hkc₁, hoc₁, hfate⟩ := refCountOnly_spec hW.2.1 href
    rw [hr]
    dsimp only
    have hWm₁ : WF m₁ :=
      ⟨by rw [htop₁]; exact hW.1, hkc₁, by rw [htop₁]; exact hW.2.2⟩
    have hedge₁ : ∀ t' c', m₁.lookupEdge t' c' = m.lookupEdge t' c' := by
      intro t' c'
      show edgeOf m₁.topics t' c' = edgeOf m.topics t' c'
      rw [htop₁]
    have hcnt₁ : ∀ c'', edgeCount m₁ c'' = edgeCount m c'' := by
      intro c''
      show m₁.topics.countP _ = _
      rw [htop₁]
      rfl
    have hsl := hslack c ref href
    rw [if_pos (by simp : c ∈ c :: rest)] at hsl
    have hcr : c ∉ rest := (List.nodup_cons.mp hnd).1
    by_cases hd : (counter.dec ref.topics).2
    · rw [if_pos hd] at hfate
      obtain ⟨hrem, hcnone, hevs⟩ := hfate
      have h01 : ref.topics = 1 := (dec_reached_iff ref.topics).mp hd
      have hc0 : edgeCount m c = 0 := by omega
      have h1m₁ : I1 m₁ := by
        apply I1_of_lookup hWm₁
        intro t' c' hsome
        rw [hedge₁ t' c'] at hsome
        by_cases hcc : c' = c
        · subst hcc
          rw [lookupEdge_eq_none_of_count_zero hc0 t'] at hsome
          simp at hsome
        · rw [hoc₁ c' hcc]
          exact I1_lookup h1 hsome
      obtain ⟨m', evs', hrun, hI', htop'⟩ := ih m₁ (evs₀ ++ evs₁) hWm₁ h1m₁
        (List.nodup_cons.mp hnd).2
        (fun c'' hc'' => by
          rw [hoc₁ c'' (fun hh => hcr (hh ▸ hc''))]
          exact hpres c'' (by simp [hc'']))
        (fun c'' ref'' hlook => by
          have hcc : c'' ≠ c := by
            intro hh
            rw [hh, hcnone] at hlook
            simp at hlook
          rw [hoc₁ c'' hcc] at hlook
          have hh := hslack c'' ref'' hlook
          rw [hcnt₁ c'']
          by_cases hmem : c'' ∈ rest
          · rw [if_pos hmem]
            rw [if_pos (by simp [hmem])] at hh
            exact hh
          · rw [if_neg hmem]
            rw [if_neg (by simp [hcc, hmem] : ¬c'' ∈ c :: rest)] at hh
            exact hh)
      rw [hrun]
      exact ⟨m', evs', rfl, hI', by rw [htop', htop₁]⟩
    · rw [if_neg hd] at hfate
      obtain ⟨hrem, hcsome, hevs⟩ := hfate
      have hne0 : ref.topics ≠ 0 := by omega
      have hdec1 : (counter.dec ref.topics).1 = ref.topics - 1 := dec_val_of_ne _ hne0
      have h1m₁ : I1 m₁ := by
        apply I1_of_lookup hWm₁
        intro t' c' hsome
        by_cases hcc : c' = c
        · subst hcc
          rw [hcsome]
          rfl
        · rw [hoc₁ c' hcc]
          rw [hedge₁ t' c'] at hsome
          exact I1_lookup h1 hsome
      obtain ⟨m', evs', hrun, hI', htop'⟩ := ih m₁ (evs₀ ++ evs₁) hWm₁ h1m₁
        (List.nodup_cons.mp hnd).2
        (fun c'' hc'' => by
          rw [hoc₁ c'' (fun hh => hcr (hh ▸ hc''))]
          exact hpres c'' (by simp [hc'']))
        (fun c'' ref'' hlook => by
          rw [hcnt₁ c'']
          by_cases hcc : c'' = c
          · subst hcc
            rw [hcsome] at hlook
            have hrr : ref'' = { ref with topics := (counter.dec ref.topics).1 } :=
              (Option.some.inj hlook).symm
            subst hrr
            rw [if_neg hcr]
            show (counter.dec ref.topics).1 = (edgeCount m c'' : Int)
            rw [hdec1]
            omega
          · rw [hoc₁ c'' hcc] at hlook
            have hh := hslack c'' ref'' hlook
            by_cases hmem : c'' ∈ rest
            · rw [if_pos hmem]
              rw [if_pos (by simp [hmem])] at hh
              exact hh
            · rw [if_neg hmem]
              rw [if_neg (by simp [hcc, hmem] : ¬c'' ∈ c :: rest)] at hh
              exact hh)
      rw [hrun]
      exact ⟨m', evs', rfl, hI', by rw [htop', htop₁]⟩

/-- Common facts after dropping a present topic from the routing
table, feeding the refcount-decrement loop. -/
theorem dropTopic_setup {m : Manager} {t : Topic} {cs : List (Conn × Int)}
    (hW : WF m) (h1 : I1 m) (hcs : lookupA m.topics t = some cs) :
    WF (⟨eraseA m.topics t, m.conns⟩ : Manager) ∧
    I1 (⟨eraseA m.topics t, m.conns⟩ : Manager) ∧
    (cs.map Prod.fst).Nodup ∧
    (∀ c'' ∈ cs.map Prod.fst,
      (lookupA (⟨eraseA m.topics t, m.conns⟩ : Manager).conns c'').isSome) ∧
    (∀ c'', (lookupA cs c'').isSome →
      edgeCount (⟨eraseA m.topics t, m.conns⟩ : Manager) c'' + 1 = edgeCount m c'') ∧
    (∀ c'', ¬(lookupA cs c'').isSome →
      edgeCount (⟨eraseA m.topics t, m.conns⟩ : Manager) c'' = edgeCount m c'') := by
  have hW₂ : WF (⟨eraseA m.topics t, m.conns⟩ : Manager) :=
    ⟨keysND_eraseA _ _ hW.1, hW.2.1, fun p hp => hW.2.2 p (mem_eraseA_elim hp)⟩
  refine ⟨hW₂, ?_, ?_, ?_, ?_, ?_⟩
  · apply I1_of_lookup hW₂
    intro t' c' hsome
    rw [eraseTopic_edge hW.1 t t' c'] at hsome
    by_cases ht' : t' = t
    · rw [if_pos ht'] at hsome
      simp at hsome
    · rw [if_neg ht'] at hsome
      exact I1_lookup h1 hsome
  · exact hW.2.2 (t, cs) (mem_of_lookupA hcs)
  · intro c'' hc''
    have hedge : (m.lookupEdge t c'').isSome := by
      show (edgeOf m.topics t c'').isSome
      unfold edgeOf getTopicConns
      rw [hcs]
      simp only [Option.getD_some]
      rw [lookupA_isSome_iff]
      exact hc''
    exact I1_lookup h1 hedge
  · intro c'' hs
    have hh := eraseTopic_count hcs c''
    rw [if_pos hs] at hh
    exact hh
  · intro c'' hs
    have hh := eraseTopic_count hcs c''
    rw [if_neg hs] at hh
    omega

/-- The topic loop of `closeTopics` never faults under the safety
invariant and preserves it. -/
theorem closeTopicsLoop_inv :
    ∀ (ts : List Topic) (m : Manager) (evs₀ : List Event), Inv m →
      ∃ m' evs', closeTopicsLoop m ts evs₀ = some (m', evs') ∧ Inv m' := by
  intro ts
  induction ts with
  | nil =>
    intro m evs₀ hI
    exact ⟨m, evs₀, rfl, hI⟩
  | cons t rest ih =>
    intro m evs₀ hI
    obtain ⟨hW, h1, hge⟩ := hI
    simp only [closeTopicsLoop]
    cases hcs : lookupA m.topics t with
    | none => exact ih m evs₀ ⟨hW, h1, hge⟩
    | some cs =>
      dsimp only
      obtain ⟨hW₂, h1₂, hnd₂, hpres₂, hcM, hcA⟩ := dropTopic_setup hW h1 hcs
      obtain ⟨m₁, evs₁, hrun, hI₁, htop₁⟩ := closeConnsLoop_inv (cs.map Prod.fst)
        (⟨eraseA m.topics t, m.conns⟩) evs₀ hW₂ h1₂ hnd₂ hpres₂
        (fun c'' ref hlook => by
          have hIGe := IGe_lookup hge (show lookupA m.conns c'' = some ref from hlook)
          by_cases hmem : c'' ∈ cs.map Prod.fst
          · rw [if_pos hmem]
            have hs : (lookupA cs c'').isSome := (lookupA_isSome_iff cs c'').mpr hmem
            have hh := hcM c'' hs
            omega
          · rw [if_neg hmem]
            have hs : ¬(lookupA cs c'').isSome :=
              fun hh => hmem ((lookupA_isSome_iff cs c'').mp hh)
            have hh := hcA c'' hs
            omega)
      rw [hrun]
      dsimp only
      exact ih m₁ evs₁ hI₁

/-- The topic loop of `closeTopics` under the exact-count invariant. -/
theorem closeTopicsLoop_inv2 :
    ∀ (ts : List Topic) (m : Manager) (evs₀ : List Event), Inv2 m →
      ∃ m' evs', closeTopicsLoop m ts evs₀ = some (m', evs') ∧ Inv2 m' := by
  intro ts
  induction ts with
  | nil =>
    intro m evs₀ hI
    exact ⟨m, evs₀, rfl, hI⟩
  | cons t rest ih =>
    intro m evs₀ hI
    obtain ⟨hW, h1, heq⟩ := hI
    simp only [closeTopicsLoop]
    cases hcs : lookupA m.topics t with
    | none => exact ih m evs₀ ⟨hW, h1, heq⟩
    | some cs =>
      dsimp only
      obtain ⟨hW₂, h1₂, hnd₂, hpres₂, hcM, hcA⟩ := dropTopic_setup hW h1 hcs
      obtain ⟨m₁, evs₁, hrun, hI₁, htop₁⟩ := closeConnsLoop_inv2 (cs.map Prod.fst)
        (⟨eraseA m.topics t, m.conns⟩) evs₀ hW₂ h1₂ hnd₂ hpres₂
        (fun c'' ref hlook => by
          have hIEq := IEq_lookup heq (show lookupA m.conns c'' = some ref from hlook)
          by_cases hmem : c'' ∈ cs.map Prod.fst
          · rw [if_pos hmem]
            have hs : (lookupA cs c'').isSome := (lookupA_isSome_iff cs c'').mpr hmem
            have hh := hcM c'' hs
            omega
          · rw [if_neg hmem]
            have hs : ¬(lookupA cs c'').isSome :=
              fun hh => hmem ((lookupA_isSome_iff cs c'').mp hh)
            have hh := hcA c'' hs
            omega)
      rw [hrun]
      dsimp only
      exact ih m₁ evs₁ hI₁

/-- `closeTopics` never faults under the safety invariant and
preserves it. -/
theorem closeTopics_inv {m : Manager} (hI : Inv m) (ts : List Topic) :
    ∃ m' evs, m.closeTopics ts = some (m', evs) ∧ Inv m' :=
  closeTopicsLoop_inv (getTopics ts true) m [] hI

/-- `closeTopics` under the exact-count invariant. -/
theorem closeTopics_inv2 {m : Manager} (hI : Inv2 m) (ts : List Topic) :
    ∃ m' evs, m.closeTopics ts = some (m', evs) ∧ Inv2 m' :=
  closeTopicsLoop_inv2 (getTopics ts true) m [] hI

/-- The loop of `closeAllTopics` over a snapshot of the routing table
never faults under the safety invariant and preserves it. -/
theorem closeAllLoop_inv :
    ∀ (snap : List (Topic × List (Conn × Int))) (m : Manager) (evs₀ : List Event),
      Inv m → keysND snap → (∀ p ∈ snap, lookupA m.topics p.1 = some p.2) →
      ∃ m' evs', closeAllTopicsLoop m snap evs₀ = some (m', evs') ∧ Inv m' := by
  intro snap
  induction snap with
  | nil =>
    intro m evs₀ hI _ _
    exact ⟨m, evs₀, rfl, hI⟩
  | cons p rest ih =>
    obtain ⟨t, cs⟩ := p
    intro m evs₀ hI hksnap hsnap
    obtain ⟨hW, h1, hge⟩ := hI
    simp only [closeAllTopicsLoop]
    have hcs : lookupA m.topics t = some cs := hsnap (t, cs) (by simp)
    obtain ⟨hW₂, h1₂, hnd₂, hpres₂, hcM, hcA⟩ := dropTopic_setup hW h1 hcs
    obtain ⟨m₁, evs₁, hrun, hI₁, htop₁⟩ := closeConnsLoop_inv (cs.map Prod.fst)
      (⟨eraseA m.topics t, m.conns⟩) evs₀ hW₂ h1₂ hnd₂ hpres₂
      (fun c'' ref hlook => by
        have hIGe := IGe_lookup hge (show lookupA m.conns c'' = some ref from hlook)
        by_cases hmem : c'' ∈ cs.map Prod.fst
        · rw [if_pos hmem]
          have hs : (lookupA cs c'').isSome := (lookupA_isSome_iff cs c'').mpr hmem
          have hh := hcM c'' hs
          omega
        · rw [if_neg hmem]
          have hs : ¬(lookupA cs c'').isSome :=
            fun hh => hmem ((lookupA_isSome_iff cs c'').mp hh)
          have hh := hcA c'' hs
          omega)
    rw [hrun]
    dsimp only
    have hk2 : (t :: rest.map Prod.fst).Nodup := by simpa [keysND] using hksnap
    apply ih m₁ evs₁ hI₁ (List.nodup_cons.mp hk2).2
    intro q hq
    have hqt : q.1 ≠ t := by
      intro hh
      have hmm : t ∈ rest.map Prod.fst := by
        rw [← hh]
        exact List.mem_map.mpr ⟨q, hq, rfl⟩
      exact (List.nodup_cons.mp hk2).1 hmm
    rw [htop₁]
    show lookupA (eraseA m.topics t) q.1 = some q.2
    rw [lookupA_eraseA_ne _ hqt]
    exact hsnap q (by simp [hq])

/-- The loop of `closeAllTopics` under the exact-count invariant. -/
theorem closeAllLoop_inv2 :
    ∀ (snap : List (Topic × List (Conn × Int))) (m : Manager) (evs₀ : List Event),
      Inv2 m → keysND snap → (∀ p ∈ snap, lookupA m.topics p.1 = some p.2) →
      ∃ m' evs', closeAllTopicsLoop m snap evs₀ = some (m', evs') ∧ Inv2 m' := by
  intro snap
  induction snap with
  | nil =>
    intro m evs₀ hI _ _
    exact ⟨m, evs₀, rfl, hI⟩
  | cons p rest ih =>
    obtain ⟨t, cs⟩ := p
    intro m evs₀ hI hksnap hsnap
    obtain ⟨hW, h1, heq⟩ := hI
    simp only [closeAllTopicsLoop]
    have hcs : lookupA m.topics t = some cs := hsnap (t, cs) (by simp)
    obtain ⟨hW₂, h1₂, hnd₂, hpres₂, hcM, hcA⟩ := dropTopic_setup hW h1 hcs
    obtain ⟨m₁, evs₁, hrun, hI₁, htop₁⟩ := closeConnsLoop_inv2 (cs.map Prod.fst)
      (⟨eraseA m.topics t, m.conns⟩) evs₀ hW₂ h1₂ hnd₂ hpres₂
      (fun c'' ref hlook => by
        have hIEq := IEq_lookup heq (show lookupA m.conns c'' = some ref from hlook)
        by_cases hmem : c'' ∈ cs.map Prod.fst
        · rw [if_pos hmem]
          have hs : (lookupA cs c'').isSome := (lookupA_isSome_iff cs c'').mpr hmem
          have hh := hcM c'' hs
          omega
        · rw [if_neg hmem]
          have hs : ¬(lookupA cs c'').isSome :=
            fun hh => hmem ((lookupA_isSome_iff cs c'').mp hh)
          have hh := hcA c'' hs
          omega)
    rw [hrun]
    dsimp only
    have hk2 : (t :: rest.map Prod.fst).Nodup := by simpa [keysND] using hksnap
    apply ih m₁ evs₁ hI₁ (List.nodup_cons.mp hk2).2
    intro q hq
    have hqt : q.1 ≠ t := by
      intro hh
      have hmm : t ∈ rest.map Prod.fst := by
        rw [← hh]
        exact List.mem_map.mpr ⟨q, hq, rfl⟩
      exact (List.nodup_cons.mp hk2).1 hmm
    rw [htop₁]
    show lookupA (eraseA m.topics t) q.1 = some q.2
    rw [lookupA_eraseA_ne _ hqt]
    exact hsnap q (by simp [hq])

/-- `closeAllTopics` never faults under the safety invariant and
preserves it. -/
theorem closeAllTopics_inv {m : Manager} (hI : Inv m) :
    ∃ m' evs, m.closeAllTopics = some (m', evs) ∧ Inv m' :=
  closeAllLoop_inv m.topics m [] hI hI.1.1
    (fun p hp => lookupA_of_mem hI.1.1 (by simpa using hp))

/-- `closeAllTopics` under the exact-count invariant. -/
theorem closeAllTopics_inv2 {m : Manager} (hI : Inv2 m) :
    ∃ m' evs, m.closeAllTopics = some (m', evs) ∧ Inv2 m' :=
  closeAllLoop_inv2 m.topics m [] hI hI.1.1
    (fun p hp => lookupA_of_mem hI.1.1 (by simpa using hp))

/-! ## Connect and ConnectEach preserve the invariants -/

/-- Writing an edge for `conn` does not move other connections' edge
counts. -/
theorem insert_edge_count_other {topics : List (Topic × List (Conn × Int))} (t : Topic)
    (conn c' : Conn) (hc' : c' ≠ conn) (v : Int) :
    edgeCountT (insertA topics t (insertA (getTopicConns topics t) conn v)) c'
      = edgeCountT topics c' := by
  cases hll : lookupA topics t with
  | none =>
    have hgc : getTopicConns topics t = [] := by
      unfold getTopicConns
      rw [hll]
      rfl
    rw [hgc]
    have heq := countP_insertA_absent (insertA [] conn v)
      (fun p => (lookupA p.2 c').isSome) hll
    have hz : (fun p : Topic × List (Conn × Int) => (lookupA p.2 c').isSome)
        (t, insertA [] conn v) = false := by
      show (lookupA (insertA ([] : List (Conn × Int)) conn v) c').isSome = false
      rw [lookupA_insertA_ne _ _ hc']
      rfl
    rw [hz] at heq
    simp at heq
    simp only [edgeCountT]
    omega
  | some cs₀ =>
    have hgc : getTopicConns topics t = cs₀ := by
      unfold getTopicConns
      rw [hll]
      rfl
    rw [hgc]
    have heq := countP_insertA_present (insertA cs₀ conn v)
      (fun p => (lookupA p.2 c').isSome) hll
    have hsame : (fun p : Topic × List (Conn × Int) => (lookupA p.2 c').isSome)
        (t, insertA cs₀ conn v) = (fun p : Topic × List (Conn × Int) =>
          (lookupA p.2 c').isSome) (t, cs₀) := by
      show (lookupA (insertA cs₀ conn v) c').isSome = (lookupA cs₀ c').isSome
      rw [lookupA_insertA_ne _ _ hc']
    rw [hsame] at heq
    simp only [edgeCountT]
    omega

/-- Writing an edge that already exists does not move `conn`'s edge
count. -/
theorem insert_edge_count_present {topics : List (Topic × List (Conn × Int))} {t : Topic}
    {conn : Conn} {w : Int} (h : lookupA (getTopicConns topics t) conn = some w) (v : Int) :
    edgeCountT (insertA topics t (insertA (getTopicConns topics t) conn v)) conn
      = edgeCountT topics conn := by
  cases hll : lookupA topics t with
  | none =>
    exfalso
    unfold getTopicConns at h
    rw [hll] at h
    simp [lookupA] at h
  | some cs₀ =>
    have hgc : getTopicConns topics t = cs₀ := by
      unfold getTopicConns
      rw [hll]
      rfl
    rw [hgc] at h ⊢
    have heq := countP_insertA_present (insertA cs₀ conn v)
      (fun p => (lookupA p.2 conn).isSome) hll
    have h₁ : (fun p : Topic × List (Conn × Int) => (lookupA p.2 conn).isSome)
        (t, insertA cs₀ conn v) = true := by
      show (lookupA (insertA cs₀ conn v) conn).isSome = true
      rw [lookupA_insertA_self]
      rfl
    have h₂ : (fun p : Topic × List (Conn × Int) => (lookupA p.2 conn).isSome)
        (t, cs₀) = true := by
      show (lookupA cs₀ conn).isSome = true
      rw [h]
      rfl
    rw [h₁, h₂] at heq
    simp at heq
    simp only [edgeCountT]
    omega

/-- Creating a fresh edge raises `conn`'s edge count by one. -/
theorem insert_edge_count_absent {topics : List (Topic × List (Conn × Int))} {t : Topic}
    {conn : Conn} (h : lookupA (getTopicConns topics t) conn = none) (v : Int) :
    edgeCountT (insertA topics t (insertA (getTopicConns topics t) conn v)) conn
      = edgeCountT topics conn + 1 := by
  cases hll : lookupA topics t with
  | none =>
    have hgc : getTopicConns topics t = [] := by
      unfold getTopicConns
      rw [hll]
      rfl
    rw [hgc]
    have heq := countP_insertA_absent (insertA [] conn v)
      (fun p => (lookupA p.2 conn).isSome) hll
    have h₁ : (fun p : Topic × List (Conn × Int) => (lookupA p.2 conn).isSome)
        (t, insertA [] conn v) = true := by
      show (lookupA (insertA ([] : List (Conn × Int)) conn v) conn).isSome = true
      rw [lookupA_insertA_self]
      rfl
    rw [h₁] at heq
    simp at heq
    simp only [edgeCountT]
    omega
  | some cs₀ =>
    have hgc : getTopicConns topics t = cs₀ := by
      unfold getTopicConns
      rw [hll]
      rfl
    rw [hgc] at h ⊢
    have heq := countP_insertA_present (insertA cs₀ conn v)
      (fun p => (lookupA p.2 conn).isSome) hll
    have h₁ : (fun p : Topic × List (Conn × Int) => (lookupA p.2 conn).isSome)
        (t, insertA cs₀ conn v) = true := by
      show (lookupA (insertA cs₀ conn v) conn).isSome = true
      rw [lookupA_insertA_self]
      rfl
    have h₂ : (fun p : Topic × List (Conn × Int) => (lookupA p.2 conn).isSome)
        (t, cs₀) = false := by
      show (lookupA cs₀ conn).isSome = false
      rw [h]
      rfl
    rw [h₁, h₂] at heq
    simp at heq
    simp only [edgeCountT]
    omega

/-- The inner keys of the connection map of a topic are distinct after
an edge write, given a well-formed table. -/
theorem getTopicConns_keysND {topics : List (Topic × List (Conn × Int))}
    (hki : ∀ p ∈ topics, keysND p.2) (t : Topic) : keysND (getTopicConns topics t) := by
  unfold getTopicConns
  cases hll : lookupA topics t with
  | none => simp [keysND]
  | some cs₀ => exact hki (t, cs₀) (mem_of_lookupA hll)

/-- Structural facts about the known-subscriber loop of `connectEach`:
well-formedness is preserved, other connections' counts do not move,
and the refcount accumulator moves exactly with `conn`'s edge count. -/
theorem knownLoop_props (conn : Conn) :
    ∀ (T : List TopicConn) (topics : List (Topic × List (Conn × Int))) (refT : Int),
      keysND topics → (∀ p ∈ topics, keysND p.2) →
      keysND (connectEachKnownLoop conn T topics refT).1 ∧
      (∀ p ∈ (connectEachKnownLoop conn T topics refT).1, keysND p.2) ∧
      (∀ c', c' ≠ conn →
        edgeCountT (connectEachKnownLoop conn T topics refT).1 c' = edgeCountT topics c') ∧
      (connectEachKnownLoop conn T topics refT).2 + (edgeCountT topics conn : Int)
        = refT + (edgeCountT (connectEachKnownLoop conn T topics refT).1 conn : Int) := by
  intro T
  induction T with
  | nil =>
    intro topics refT hk hki
    exact ⟨hk, hki, fun _ _ => rfl, rfl⟩
  | cons p rest ih =>
    intro topics refT hk hki
    simp only [connectEachKnownLoop]
    have hkcs : keysND (getTopicConns topics p.1) := getTopicConns_keysND hki p.1
    cases hl : lookupA (getTopicConns topics p.1) conn with
    | some cnt =>
      dsimp only
      have hnewk : keysND (insertA topics p.1
          (insertA (getTopicConns topics p.1) conn (counter.reset cnt p.2))) :=
        keysND_insertA _ _ _ hk
      have hnewki : ∀ q ∈ insertA topics p.1
          (insertA (getTopicConns topics p.1) conn (counter.reset cnt p.2)), keysND q.2 := by
        intro q hq
        rcases mem_insertA_elim hq with hq | hq
        · rw [hq]
          exact keysND_insertA _ _ _ hkcs
        · exact hki q hq
      obtain ⟨hk', hki', hco', hdelta⟩ := ih _ _ hnewk hnewki
      refine ⟨hk', hki', ?_, ?_⟩
      · intro c' hc'
        rw [hco' c' hc', insert_edge_count_other _ _ _ hc']
      · rw [insert_edge_count_present hl (counter.reset cnt p.2)] at hdelta
        exact hdelta
    | none =>
      dsimp only
      have hnewk : keysND (insertA topics p.1
          (insertA (getTopicConns topics p.1) conn p.2)) :=
        keysND_insertA _ _ _ hk
      have hnewki : ∀ q ∈ insertA topics p.1
          (insertA (getTopicConns topics p.1) conn p.2), keysND q.2 := by
        intro q hq
        rcases mem_insertA_elim hq with hq | hq
        · rw [hq]
          exact keysND_insertA _ _ _ hkcs
        · exact hki q hq
      obtain ⟨hk', hki', hco', hdelta⟩ := ih _ _ hnewk hnewki
      refine ⟨hk', hki', ?_, ?_⟩
      · intro c' hc'
        rw [hco' c' hc', insert_edge_count_other _ _ _ hc']
      · rw [insert_edge_count_absent hl p.2] at hdelta
        have hinc : counter.inc refT = refT + 1 := rfl
        rw [hinc] at hdelta ⊢
        push_cast at hdelta ⊢
        omega

/-- Structural facts about the fresh-subscriber loop of `connectEach`:
well-formedness is preserved, other connections' counts do not move,
`conn`'s edge count grows by at most the length of the list, and by
exactly its length when the listed topics are distinct and none of the
edges exists yet. -/
theorem freshLoop_props (conn : Conn) :
    ∀ (T : List TopicConn) (topics : List (Topic × List (Conn × Int))),
      keysND topics → (∀ p ∈ topics, keysND p.2) →
      keysND (connectEachFreshLoop conn T topics) ∧
      (∀ p ∈ connectEachFreshLoop conn T topics, keysND p.2) ∧
      (∀ c', c' ≠ conn →
        edgeCountT (connectEachFreshLoop conn T topics) c' = edgeCountT topics c') ∧
      edgeCountT (connectEachFreshLoop conn T topics) conn
        ≤ edgeCountT topics conn + T.length ∧
      ((T.map Prod.fst).Nodup → (∀ p ∈ T, edgeOf topics p.1 conn = none) →
        edgeCountT (connectEachFreshLoop conn T topics) conn
          = edgeCountT topics conn + T.length) := by
  intro T
  induction T with
  | nil =>
    intro topics hk hki
    refine ⟨hk, hki, fun _ _ => rfl, ?_, fun _ _ => ?_⟩
    · show edgeCountT topics conn ≤ edgeCountT topics conn + ([] : List TopicConn).length
      simp
    · show edgeCountT topics conn = edgeCountT topics conn + ([] : List TopicConn).length
      simp
  | cons p rest ih =>
    intro topics hk hki
    simp only [connectEachFreshLoop]
    have hkcs : keysND (getTopicConns topics p.1) := getTopicConns_keysND hki p.1
    have hnewk : keysND (insertA topics p.1
        (insertA (getTopicConns topics p.1) conn p.2)) :=
      keysND_insertA _ _ _ hk
    have hnewki : ∀ q ∈ insertA topics p.1
        (insertA (getTopicConns topics p.1) conn p.2), keysND q.2 := by
      intro q hq
      rcases mem_insertA_elim hq with hq | hq
      · rw [hq]
        exact keysND_insertA _ _ _ hkcs
      · exact hki q hq
    obtain ⟨hk', hki', hco', hle, hexact⟩ := ih _ hnewk hnewki
    refine ⟨hk', hki', ?_, ?_, ?_⟩
    · intro c' hc'
      rw [hco' c' hc', insert_edge_count_other _ _ _ hc']
    · have hstep : edgeCountT (insertA topics p.1
          (insertA (getTopicConns topics p.1) conn p.2)) conn
          ≤ edgeCountT topics conn + 1 := by
        cases hl : lookupA (getTopicConns topics p.1) conn with
        | some w => rw [insert_edge_count_present hl p.2]; omega
        | none => rw [insert_edge_count_absent hl p.2]
      simp only [List.length_cons]
      omega
    · intro hnd habs
      have hl : lookupA (getTopicConns topics p.1) conn = none := habs p (by simp)
      have hstep : edgeCountT (insertA topics p.1
          (insertA (getTopicConns topics p.1) conn p.2)) conn
          = edgeCountT topics conn + 1 := insert_edge_count_absent hl p.2
      have hnd2 : (p.1 :: rest.map Prod.fst).Nodup := hnd
      have hnd' : (rest.map Prod.fst).Nodup := (List.nodup_cons.mp hnd2).2
      have hp1 : p.1 ∉ rest.map Prod.fst := (List.nodup_cons.mp hnd2).1
      have habs' : ∀ q ∈ rest, edgeOf (insertA topics p.1
          (insertA (getTopicConns topics p.1) conn p.2)) q.1 conn = none := by
        intro q hq
        have hne : p.1 ≠ q.1 := by
          intro hh
          exact hp1 (hh ▸ List.mem_map.mpr ⟨q, hq, rfl⟩)
        rw [edgeOf_insert_write topics p.1 q.1 conn p.2, if_neg hne]
        exact habs q (by simp [hq])
      rw [hexact hnd' habs', hstep]
      simp only [List.length_cons]
      omega

/-- `connectEach` preserves the safety invariant, for every command
(duplicate listed topics and negative counts included). -/
theorem connectEach_inv {m : Manager} (hI : Inv m) (cmd : ConnectEach) :
    Inv (m.connectEach cmd) := by
  obtain ⟨hW, h1, hge⟩ := hI
  unfold Manager.connectEach
  cases href : lookupA m.conns cmd.conn with
  | some ref =>
    dsimp only
    obtain ⟨hk', hki', hco', hdelta⟩ :=
      knownLoop_props cmd.conn cmd.topics m.topics ref.topics hW.1 hW.2.2
    have hWM : WF (⟨(connectEachKnownLoop cmd.conn cmd.topics m.topics ref.topics).1,
        insertA m.conns cmd.conn
          ⟨(connectEachKnownLoop cmd.conn cmd.topics m.topics ref.topics).2,
            counter.reset ref.messages cmd.messageCount, cmd.keepAlive⟩⟩ : Manager) :=
      ⟨hk', keysND_insertA _ _ _ hW.2.1, hki'⟩
    refine ⟨hWM, ?_, ?_⟩
    · apply I1_of_lookup hWM
      intro t' c' hsome
      by_cases hc' : c' = cmd.conn
      · subst hc'
        rw [lookupA_insertA_self]
        rfl
      · have h2 : (edgeOf (connectEachKnownLoop cmd.conn cmd.topics
            m.topics ref.topics).1 t' c').isSome := hsome
        rw [knownLoop_edge_other cmd.conn c' hc' cmd.topics t' m.topics ref.topics] at h2
        have h3 : (m.lookupEdge t' c').isSome := h2
        rw [lookupA_insertA_ne _ _ hc']
        exact I1_lookup h1 h3
    · apply IGe_of_lookup hWM
      intro c'' ref'' hlook
      by_cases hc'' : c'' = cmd.conn
      · subst hc''
        rw [lookupA_insertA_self] at hlook
        have hrr : ref'' = ⟨(connectEachKnownLoop cmd.conn cmd.topics
            m.topics ref.topics).2,
            counter.reset ref.messages cmd.messageCount, cmd.keepAlive⟩ :=
          (Option.some.inj hlook).symm
        subst hrr
        have hge0 := IGe_lookup hge href
        rw [edgeCount_eq_T] at hge0
        show (edgeCountT (connectEachKnownLoop cmd.conn cmd.topics
            m.topics ref.topics).1 cmd.conn : Int)
          ≤ (connectEachKnownLoop cmd.conn cmd.topics m.topics ref.topics).2
        omega
      · rw [lookupA_insertA_ne _ _ hc''] at hlook
        have hge0 := IGe_lookup hge hlook
        rw [edgeCount_eq_T] at hge0
        show (edgeCountT (connectEachKnownLoop cmd.conn cmd.topics
            m.topics ref.topics).1 c'' : Int) ≤ ref''.topics
        rw [hco' c'' hc'']
        exact hge0
  | none =>
    dsimp only
    have hc0 : edgeCount m cmd.conn = 0 := edgeCount_eq_zero_of_absent h1 href
    obtain ⟨hk', hki', hco', hle, -⟩ :=
      freshLoop_props cmd.conn
        (if cmd.topics = [] then [((defaultTopic : Topic), (0 : Int))] else cmd.topics)
        m.topics hW.1 hW.2.2
    have hWM : WF (⟨connectEachFreshLoop cmd.conn
        (if cmd.topics = [] then [((defaultTopic : Topic), (0 : Int))] else cmd.topics)
        m.topics,
        insertA m.conns cmd.conn
          ⟨((if cmd.topics = [] then [((defaultTopic : Topic), (0 : Int))]
              else cmd.topics).length : Int),
            cmd.messageCount, cmd.keepAlive⟩⟩ : Manager) :=
      ⟨hk', keysND_insertA _ _ _ hW.2.1, hki'⟩
    refine ⟨hWM, ?_, ?_⟩
    · apply I1_of_lookup hWM
      intro t' c' hsome
      by_cases hc' : c' = cmd.conn
      · subst hc'
        rw [lookupA_insertA_self]
        rfl
      · have h2 : (edgeOf (connectEachFreshLoop cmd.conn
            (if cmd.topics = [] then [((defaultTopic : Topic), (0 : Int))] else cmd.topics)
            m.topics) t' c').isSome := hsome
        rw [freshLoop_edge_other cmd.conn c' hc' _ t' m.topics] at h2
        have h3 : (m.lookupEdge t' c').isSome := h2
        rw [lookupA_insertA_ne _ _ hc']
        exact I1_lookup h1 h3
    · apply IGe_of_lookup hWM
      intro c'' ref'' hlook
      by_cases hc'' : c'' = cmd.conn
      · subst hc''
        rw [lookupA_insertA_self] at hlook
        have hrr : ref'' = ⟨((if cmd.topics = [] then [((defaultTopic : Topic), (0 : Int))]
              else cmd.topics).length : Int), cmd.messageCount, cmd.keepAlive⟩ :=
          (Option.some.inj hlook).symm
        subst hrr
        have hcc : edgeCountT m.topics cmd.conn = 0 := by
          rw [← edgeCount_eq_T]
          exact hc0
        show (edgeCountT (connectEachFreshLoop cmd.conn
            (if cmd.topics = [] then [((defaultTopic : Topic), (0 : Int))] else cmd.topics)
            m.topics) cmd.conn : Int)
          ≤ ((if cmd.topics = [] then [((defaultTopic : Topic), (0 : Int))]
              else cmd.topics).length : Int)
        omega
      · rw [lookupA_insertA_ne _ _ hc''] at hlook
        have hge0 := IGe_lookup hge hlook
        rw [edgeCount_eq_T] at hge0
        show (edgeCountT (connectEachFreshLoop cmd.conn
            (if cmd.topics = [] then [((defaultTopic : Topic), (0 : Int))] else cmd.topics)
            m.topics) c'' : Int) ≤ ref''.topics
        rw [hco' c'' hc'']
        exact hge0

/-- `connectEach` preserves the exact-count invariant when the listed
topics are pairwise distinct (the fresh branch stores the list length
as the refcount). -/
theorem connectEach_inv2 {m : Manager} (hI : Inv2 m) (cmd : ConnectEach)
    (hnd : (cmd.topics.map Prod.fst).Nodup) :
    Inv2 (m.connectEach cmd) := by
  obtain ⟨hW, h1, heq⟩ := hI
  unfold Manager.connectEach
  cases href : lookupA m.conns cmd.conn with
  | some ref =>
    dsimp only
    obtain ⟨hk', hki', hco', hdelta⟩ :=
      knownLoop_props cmd.conn cmd.topics m.topics ref.topics hW.1 hW.2.2
    have hWM : WF (⟨(connectEachKnownLoop cmd.conn cmd.topics m.topics ref.topics).1,
        insertA m.conns cmd.conn
          ⟨(connectEachKnownLoop cmd.conn cmd.topics m.topics ref.topics).2,
            counter.reset ref.messages cmd.messageCount, cmd.keepAlive⟩⟩ : Manager) :=
      ⟨hk', keysND_insertA _ _ _ hW.2.1, hki'⟩
    refine ⟨hWM, ?_, ?_⟩
    · apply I1_of_lookup hWM
      intro t' c' hsome
      by_cases hc' : c' = cmd.conn
      · subst hc'
        rw [lookupA_insertA_self]
        rfl
      · have h2 : (edgeOf (connectEachKnownLoop cmd.conn cmd.topics
            m.topics ref.topics).1 t' c').isSome := hsome
        rw [knownLoop_edge_other cmd.conn c' hc' cmd.topics t' m.topics ref.topics] at h2
        have h3 : (m.lookupEdge t' c').isSome := h2
        rw [lookupA_insertA_ne _ _ hc']
        exact I1_lookup h1 h3
    · apply IEq_of_lookup hWM
      intro c'' ref'' hlook
      by_cases hc'' : c'' = cmd.conn
      · subst hc''
        rw [lookupA_insertA_self] at hlook
        have hrr : ref'' = ⟨(connectEachKnownLoop cmd.conn cmd.topics
            m.topics ref.topics).2,
            counter.reset ref.messages cmd.messageCount, cmd.keepAlive⟩ :=
          (Option.some.inj hlook).symm
        subst hrr
        have heq0 := IEq_lookup heq href
        rw [edgeCount_eq_T] at heq0
        show (connectEachKnownLoop cmd.conn cmd.topics m.topics ref.topics).2
          = (edgeCountT (connectEachKnownLoop cmd.conn cmd.topics
              m.topics ref.topics).1 cmd.conn : Int)
        omega
      · rw [lookupA_insertA_ne _ _ hc''] at hlook
        have heq0 := IEq_lookup heq hlook
        rw [edgeCount_eq_T] at heq0
        show ref''.topics = (edgeCountT (connectEachKnownLoop cmd.conn cmd.topics
            m.topics ref.topics).1 c'' : Int)
        rw [hco' c'' hc'']
        exact heq0
  | none =>
    dsimp only
    have hc0 : edgeCount m cmd.conn = 0 := edgeCount_eq_zero_of_absent h1 href
    obtain ⟨hk', hki', hco', hle, hexact⟩ :=
      freshLoop_props cmd.conn
        (if cmd.topics = [] then [((defaultTopic : Topic), (0 : Int))] else cmd.topics)
        m.topics hW.1 hW.2.2
    have hndT : (((if cmd.topics = [] then [((defaultTopic : Topic), (0 : Int))]
        else cmd.topics)).map Prod.fst).Nodup := by
      by_cases hemp : cmd.topics = []
      · rw [if_pos hemp]
        simp
      · rw [if_neg hemp]
        exact hnd
    have habs : ∀ p ∈ (if cmd.topics = [] then [((defaultTopic : Topic), (0 : Int))]
        else cmd.topics), edgeOf m.topics p.1 cmd.conn = none :=
      fun p hp => lookupEdge_eq_none_of_count_zero hc0 p.1
    have hcnt := hexact hndT habs
    have hWM : WF (⟨connectEachFreshLoop cmd.conn
        (if cmd.topics = [] then [((defaultTopic : Topic), (0 : Int))] else cmd.topics)
        m.topics,
        insertA m.conns cmd.conn
          ⟨((if cmd.topics = [] then [((defaultTopic : Topic), (0 : Int))]
              else cmd.topics).length : Int),
            cmd.messageCount, cmd.keepAlive⟩⟩ : Manager) :=
      ⟨hk', keysND_insertA _ _ _ hW.2.1, hki'⟩
    refine ⟨hWM, ?_, ?_⟩
    · apply I1_of_lookup hWM
      intro t' c' hsome
      by_cases hc' : c' = cmd.conn
      · subst hc'
        rw [lookupA_insertA_self]
        rfl
      · have h2 : (edgeOf (connectEachFreshLoop cmd.conn
            (if cmd.topics = [] then [((defaultTopic : Topic), (0 : Int))] else cmd.topics)
            m.topics) t' c').isSome := hsome
        rw [freshLoop_edge_other cmd.conn c' hc' _ t' m.topics] at h2
        have h3 : (m.lookupEdge t' c').isSome := h2
        rw [lookupA_insertA_ne _ _ hc']
        exact I1_lookup h1 h3
    · apply IEq_of_lookup hWM
      intro c'' ref'' hlook
      by_cases hc'' : c'' = cmd.conn
      · subst hc''
        rw [lookupA_insertA_self] at hlook
        have hrr : ref'' = ⟨((if cmd.topics = [] then [((defaultTopic : Topic), (0 : Int))]
              else cmd.topics).length : Int), cmd.messageCount, cmd.keepAlive⟩ :=
          (Option.some.inj hlook).symm
        subst hrr
        have hcc : edgeCountT m.topics cmd.conn = 0 := by
          rw [← edgeCount_eq_T]
          exact hc0
        show ((if cmd.topics = [] then [((defaultTopic : Topic), (0 : Int))]
              else cmd.topics).length : Int)
          = (edgeCountT (connectEachFreshLoop cmd.conn
              (if cmd.topics = [] then [((defaultTopic : Topic), (0 : Int))]
                else cmd.topics) m.topics) cmd.conn : Int)
        omega
      · rw [lookupA_insertA_ne _ _ hc''] at hlook
        have heq0 := IEq_lookup heq hlook
        rw [edgeCount_eq_T] at heq0
        show ref''.topics = (edgeCountT (connectEachFreshLoop cmd.conn
            (if cmd.topics = [] then [((defaultTopic : Topic), (0 : Int))] else cmd.topics)
            m.topics) c'' : Int)
        rw [hco' c'' hc'']
        exact heq0

/-- `connect` preserves the safety invariant. -/
theorem connect_inv {m : Manager} (hI : Inv m) (cmd : Connect) :
    Inv (m.connect cmd) :=
  connectEach_inv hI cmd.toConnectEach

/-- `connect` preserves the exact-count invariant when the listed
topics are pairwise distinct. -/
theorem connect_inv2 {m : Manager} (hI : Inv2 m) (cmd : Connect)
    (hnd : cmd.topics.Nodup) :
    Inv2 (m.connect cmd) := by
  apply connectEach_inv2 hI
  show ((cmd.topics.map (fun t => (t, (0 : Int)))).map Prod.fst).Nodup
  have hmm : (cmd.topics.map (fun t => (t, (0 : Int)))).map Prod.fst = cmd.topics := by
    induction cmd.topics with
    | nil => rfl
    | cons a l ih => simp [ih]
  rw [hmm]
  exact hnd

/-! ## The command loop -/

instance cmdNodupTopicsDec : (c : Cmd) → Decidable c.nodupTopics
  | .message _ => inferInstanceAs (Decidable True)
  | .connect c => inferInstanceAs (Decidable c.topics.Nodup)
  | .connectEach c => inferInstanceAs (Decidable (c.topics.map Prod.fst).Nodup)
  | .disconnect _ => inferInstanceAs (Decidable True)
  | .disconnectAll _ => inferInstanceAs (Decidable True)
  | .closeTopics _ => inferInstanceAs (Decidable True)
  | .closeAll => inferInstanceAs (Decidable True)
  | .bareConn _ => inferInstanceAs (Decidable True)
  | .other _ => inferInstanceAs (Decidable True)

instance cmdNonnegCountsDec : (c : Cmd) → Decidable c.nonnegCounts
  | .message _ => inferInstanceAs (Decidable True)
  | .connect c => inferInstanceAs (Decidable (0 ≤ c.messageCount))
  | .connectEach c =>
    inferInstanceAs (Decidable (0 ≤ c.messageCount ∧ ∀ p ∈ c.topics, 0 ≤ p.2))
  | .disconnect _ => inferInstanceAs (Decidable True)
  | .disconnectAll _ => inferInstanceAs (Decidable True)
  | .closeTopics _ => inferInstanceAs (Decidable True)
  | .closeAll => inferInstanceAs (Decidable True)
  | .bareConn _ => inferInstanceAs (Decidable True)
  | .other _ => inferInstanceAs (Decidable True)

/-- One dispatch of the `Hub.Start` switch never faults under the
safety invariant and preserves it. -/
theorem stepCmd_inv {m : Manager} (hI : Inv m) (cmd : Cmd) :
    ∃ m' evs, stepCmd m cmd = some (m', evs) ∧ Inv m' := by
  cases cmd with
  | message msg => exact message_inv hI msg
  | connect c => exact ⟨m.connect c, [], rfl, connect_inv hI c⟩
  | connectEach c => exact ⟨m.connectEach c, [], rfl, connectEach_inv hI c⟩
  | disconnect d => exact disconnect_inv hI d
  | disconnectAll c =>
    exact ⟨(m.disconnectAll c).1, (m.disconnectAll c).2, rfl, disconnectAll_inv hI c⟩
  | closeTopics ts => exact closeTopics_inv hI ts
  | closeAll => exact closeAllTopics_inv hI
  | bareConn c => exact ⟨_, [], rfl, connectEach_inv hI ⟨c, [], 0, false⟩⟩
  | other p => exact message_inv hI ⟨p, []⟩

/-- One dispatch of the `Hub.Start` switch under the exact-count
invariant, for commands with duplicate-free topic lists. -/
theorem stepCmd_inv2 {m : Manager} (hI : Inv2 m) (cmd : Cmd) (hnd : cmd.nodupTopics) :
    ∃ m' evs, stepCmd m cmd = some (m', evs) ∧ Inv2 m' := by
  cases cmd with
  | message msg => exact message_inv2 hI msg
  | connect c => exact ⟨m.connect c, [], rfl, connect_inv2 hI c hnd⟩
  | connectEach c => exact ⟨m.connectEach c, [], rfl, connectEach_inv2 hI c hnd⟩
  | disconnect d => exact disconnect_inv2 hI d
  | disconnectAll c =>
    exact ⟨(m.disconnectAll c).1, (m.disconnectAll c).2, rfl, disconnectAll_inv2 hI c⟩
  | closeTopics ts => exact closeTopics_inv2 hI ts
  | closeAll => exact closeAllTopics_inv2 hI
  | bareConn c => exact ⟨_, [], rfl, connectEach_inv2 hI ⟨c, [], 0, false⟩ (by simp)⟩
  | other p => exact message_inv2 hI ⟨p, []⟩

/-- The command loop of `Hub.Start` never faults under the safety
invariant and preserves it. -/
theorem runCmds_inv :
    ∀ (cmds : List Cmd) (m : Manager), Inv m →
      ∃ m' evs, runCmds m cmds = some (m', evs) ∧ Inv m' := by
  intro cmds
  induction cmds with
  | nil =>
    intro m hI
    exact ⟨m, [], rfl, hI⟩
  | cons cmd rest ih =>
    intro m hI
    simp only [runCmds]
    obtain ⟨m₁, evs₁, hstep, hI₁⟩ := stepCmd_inv hI cmd
    rw [hstep]
    dsimp only
    obtain ⟨m', evs', hrun, hI'⟩ := ih m₁ hI₁
    rw [hrun]
    exact ⟨m', evs₁ ++ evs', rfl, hI'⟩

/-- The command loop of `Hub.Start` under the exact-count invariant,
for command sequences with duplicate-free topic lists. -/
theorem runCmds_inv2 :
    ∀ (cmds : List Cmd) (m : Manager), Inv2 m → (∀ cmd ∈ cmds, cmd.nodupTopics) →
      ∃ m' evs, runCmds m cmds = some (m', evs) ∧ Inv2 m' := by
  intro cmds
  induction cmds with
  | nil =>
    intro m hI _
    exact ⟨m, [], rfl, hI⟩
  | cons cmd rest ih =>
    intro m hI hnd
    simp only [runCmds]
    obtain ⟨m₁, evs₁, hstep, hI₁⟩ := stepCmd_inv2 hI cmd (hnd cmd (by simp))
    rw [hstep]
    dsimp only
    obtain ⟨m', evs', hrun, hI'⟩ := ih m₁ hI₁ (fun c hc => hnd c (by simp [hc]))
    rw [hrun]
    exact ⟨m', evs₁ ++ evs', rfl, hI'⟩

/-- C10: in every reachable state — any state produced from the empty
manager by any command sequence — every eviction step
(`removeConnFromTopicRefCountOnly`) invoked by `closeTopics`,
`closeAllTopics`, `message` or `disconnect` finds its connection still
present in the conns map; the unguarded `m.conns[c]` dereference never
faults.  In the embedding a fault is `none`, so the whole command loop
(and the full hub run, teardown included) always returns `some`. -/
theorem c10_no_eviction_fault (cmds : List Cmd) :
    (runCmds newManager cmds).isSome ∧ (hubRun cmds).isSome := by
  obtain ⟨m', evs', hrun, -⟩ := runCmds_inv cmds newManager (by decide)
  constructor
  · rw [hrun]
    rfl
  · unfold hubRun
    rw [hrun]
    rfl

/-- C2 (amended): for every state reachable from the empty manager by
commands whose Connect/ConnectEach topic lists are duplicate-free,
each known subscriber's `topicRefs` counter equals the number of
topics containing it.  (With duplicate listed topics the fresh branch
stores the list length and overcounts — see the counterexample.) -/
theorem c2_topicRefs_eq_edge_count (cmds : List Cmd) (m : Manager) (evs : List Event)
    (hnd : ∀ cmd ∈ cmds, cmd.nodupTopics)
    (hrun : runCmds newManager cmds = some (m, evs)) :
    ∀ s ref, lookupA m.conns s = some ref → ref.topics = (edgeCount m s : Int) := by
  obtain ⟨m', evs', hrun', hI'⟩ := runCmds_inv2 cmds newManager (by decide) hnd
  rw [hrun] at hrun'
  have hmm : m = m' := by
    injection hrun' with hh
    exact congrArg Prod.fst hh
  subst hmm
  intro s ref hl
  exact IEq_lookup hI'.2.2 hl

/-- Witness for C2: a concrete duplicate-free `ConnectEach` run whose
final state satisfies the counter law. -/
theorem c2_witness :
    ∃ m evs, runCmds newManager [Cmd.connectEach ⟨5, [(1, 2), (2, 3)], 0, false⟩]
        = some (m, evs) ∧
      ∀ s ref, lookupA m.conns s = some ref → ref.topics = (edgeCount m s : Int) := by
  refine ⟨⟨[(1, [(5, 2)]), (2, [(5, 3)])], [(5, ⟨2, 0, false⟩)]⟩, [], rfl, ?_⟩
  exact c2_topicRefs_eq_edge_count [Cmd.connectEach ⟨5, [(1, 2), (2, 3)], 0, false⟩]
    ⟨[(1, [(5, 2)]), (2, [(5, 3)])], [(5, ⟨2, 0, false⟩)]⟩ [] (by decide) rfl

/-! ## Claim C1: fan-out ordering and total-budget precedence -/

/-- C1: in the `message` fan-out, a delivery to subscriber `c` on
topic `t` decrements the total `messageRefs` budget first.  If that
decrement signals depletion, `c` is removed from every topic, its
channel is closed unless `keepAlive`, and no event of the remaining
fan-out (the rest of the inner loop over any pending list not
containing `c`, then the outer loop over any remaining topics)
delivers to `c` again.  Only when the total decrement does not signal
depletion is the per-edge counter of `(t, c)` decremented (the edge
being removed when it depletes). -/
theorem c1_total_budget_precedence (m : Manager) (t : Topic) (payload : Msg)
    (c : Conn) (ref : ConnRefCount) (v : Int)
    (hI : Inv2 m) (href : lookupA m.conns c = some ref)
    (hedge : m.lookupEdge t c = some v) :
    ∃ m' evs, processConn m t payload c = some (m', evs) ∧
      (if (counter.dec ref.messages).2 then
        evs = Event.deliver c payload :: (if ref.keep then [] else [Event.closed c]) ∧
        lookupA m'.conns c = none ∧ (∀ t', m'.lookupEdge t' c = none) ∧
        Inv2 m' ∧
        (∀ pend evs₀ mc evsc, pend.Nodup → c ∉ pend →
          (∀ c'' ∈ pend, (Manager.lookupEdge m' t c'').isSome) →
          messageConnsLoop m' t payload pend evs₀ = some (mc, evsc) →
          ∀ ts mt evst, messageTopicsLoop mc payload ts evsc = some (mt, evst) →
          ∀ e ∈ evst, e ∈ evs₀ ∨ e ≠ Event.deliver c payload)
      else
        (∃ tail, evs = Event.deliver c payload :: tail) ∧
        m'.lookupEdge t c
          = (if (counter.dec v).2 then none else some (counter.dec v).1)) := by
  obtain ⟨m', evs, hp, hI', hoc, hoe, ref₀, href₀, hfate⟩ :=
    processConn_inv2 hI t payload hedge
  have hr0 : ref₀ = ref := by
    rw [href] at href₀
    exact (Option.some.inj href₀).symm
  subst hr0
  refine ⟨m', evs, hp, ?_⟩
  by_cases hd : (counter.dec ref₀.messages).2
  · rw [if_pos hd] at hfate ⊢
    obtain ⟨hevs, hcnone, hcedges⟩ := hfate
    refine ⟨hevs, hcnone, hcedges, hI', ?_⟩
    intro pend evs₀ mc evsc hnd hcp hpresp hconns ts mt evst htl e he
    obtain ⟨mc', evsc', hconns', hIc, hocc, hoec, hevc⟩ :=
      messageConnsLoop_inv2 pend m' evs₀ hI' hnd hpresp
    rw [hconns] at hconns'
    have he1 : mc = mc' := by
      injection hconns' with hh
      exact congrArg Prod.fst hh
    have he2 : evsc = evsc' := by
      injection hconns' with hh
      exact congrArg Prod.snd hh
    subst he1
    subst he2
    obtain ⟨mt', evst', htl', hIt, habs⟩ := messageTopicsLoop_inv2 ts mc evsc hIc
    rw [htl] at htl'
    have ht1 : mt = mt' := by
      injection htl' with hh
      exact congrArg Prod.fst hh
    have ht2 : evst = evst' := by
      injection htl' with hh
      exact congrArg Prod.snd hh
    subst ht1
    subst ht2
    have hcmc : lookupA mc.conns c = none := by
      rw [hocc c hcp]
      exact hcnone
    have hemc : ∀ t', mc.lookupEdge t' c = none := by
      intro t'
      rw [hoec t' c hcp]
      exact hcedges t'
    obtain ⟨-, -, hev⟩ := habs c hcmc hemc
    rcases hev e he with hh | hh
    · rcases hevc e hh with hh₂ | ⟨c'', hc'', hh₂⟩
      · exact Or.inl hh₂
      · refine Or.inr ?_
        have hne : c'' ≠ c := fun hhh => hcp (hhh ▸ hc'')
        rcases hh₂ with hh₂ | hh₂ <;> subst hh₂ <;> intro hcontra
        · exact hne (Event.deliver.inj hcontra).1
        · simp at hcontra
    · exact Or.inr hh
  · rw [if_neg hd] at hfate ⊢
    exact hfate

/-- Witness for C1: a subscriber with total budget 1 and a per-topic
counter 2; the single delivery depletes the total budget first, so the
subscriber is evicted and closed without the per-edge counter being
consulted. -/
theorem c1_witness :
    Inv2 (⟨[(1, [(7, 2)])], [(7, ⟨1, 1, false⟩)]⟩ : Manager) ∧
    lookupA (⟨[(1, [(7, 2)])], [(7, ⟨1, 1, false⟩)]⟩ : Manager).conns 7
      = some ⟨1, 1, false⟩ ∧
    (⟨[(1, [(7, 2)])], [(7, ⟨1, 1, false⟩)]⟩ : Manager).lookupEdge 1 7 = some 2 ∧
    (∃ m' evs, processConn (⟨[(1, [(7, 2)])], [(7, ⟨1, 1, false⟩)]⟩ : Manager) 1 "x" 7
        = some (m', evs) ∧
      (if (counter.dec (1 : Int)).2 then
        evs = Event.deliver 7 "x" :: (if (false : Bool) then [] else [Event.closed 7]) ∧
        lookupA m'.conns 7 = none ∧ (∀ t', m'.lookupEdge t' 7 = none) ∧
        Inv2 m' ∧
        (∀ pend evs₀ mc evsc, pend.Nodup → 7 ∉ pend →
          (∀ c'' ∈ pend, (Manager.lookupEdge m' 1 c'').isSome) →
          messageConnsLoop m' 1 "x" pend evs₀ = some (mc, evsc) →
          ∀ ts mt evst, messageTopicsLoop mc "x" ts evsc = some (mt, evst) →
          ∀ e ∈ evst, e ∈ evs₀ ∨ e ≠ Event.deliver 7 "x")
      else
        (∃ tail, evs = Event.deliver 7 "x" :: tail) ∧
        m'.lookupEdge 1 7 = (if (counter.dec (2 : Int)).2 then none
          else some (counter.dec (2 : Int)).1))) :=
  ⟨by decide, by decide, by decide,
    c1_total_budget_precedence ⟨[(1, [(7, 2)])], [(7, ⟨1, 1, false⟩)]⟩ 1 "x" 7
      ⟨1, 1, false⟩ 2 (by decide) (by decide) (by decide)⟩

/-! ## Nonnegativity of all counters (claim C3) -/

theorem dec_nonneg {x : Int} (h : 0 ≤ x) : 0 ≤ (counter.dec x).1 := by
  unfold counter.dec
  by_cases hx : x = 0
  · rw [if_pos hx]
    exact h
  · rw [if_neg hx]
    show (0 : Int) ≤ x - 1
    omega

theorem reset_nonneg {x : Int} (h : 0 ≤ x) (y : Int) : 0 ≤ counter.reset x y := by
  unfold counter.reset
  by_cases hy : y < 0
  · rw [if_pos hy]
    exact h
  · rw [if_neg hy]
    omega

theorem inc_nonneg {x : Int} (h : 0 ≤ x) : 0 ≤ counter.inc x := by
  show (0 : Int) ≤ x + 1
  omega

/-- `removeConnFromTopicNoRefCounter` keeps all counters nonnegative. -/
theorem N_noRef {m : Manager} (h : NonnegM m) (t : Topic) (c : Conn) :
    NonnegM (m.removeConnFromTopicNoRefCounter t c).1 := by
  unfold Manager.removeConnFromTopicNoRefCounter
  cases hl : lookupA m.topics t with
  | none => exact h
  | some cs =>
    dsimp only
    cases hc : lookupA cs c with
    | none => exact h
    | some v =>
      dsimp only
      by_cases he : eraseA cs c = []
      · rw [if_pos he]
        exact ⟨h.1, fun p hp => h.2 p (mem_eraseA_elim hp)⟩
      · rw [if_neg he]
        refine ⟨h.1, fun p hp => ?_⟩
        rcases mem_insertA_elim hp with hp | hp
        · rw [hp]
          intro q hq
          exact h.2 (t, cs) (mem_of_lookupA hl) q (mem_eraseA_elim hq)
        · exact h.2 p hp

/-- `removeConnFromTopicRefCountOnly` keeps all counters
nonnegative. -/
theorem N_refCountOnly {m : Manager} {c : Conn} {m' : Manager} {evs : List Event}
    {b : Bool} (hr : m.removeConnFromTopicRefCountOnly c = some (m', evs, b))
    (h : NonnegM m) : NonnegM m' := by
  unfold Manager.removeConnFromTopicRefCountOnly at hr
  cases hl : lookupA m.conns c with
  | none =>
    rw [hl] at hr
    simp at hr
  | some ref =>
    rw [hl] at hr
    dsimp only at hr
    have hrn := h.1 (c, ref) (mem_of_lookupA hl)
    by_cases hd : (counter.dec ref.topics).2
    · rw [if_pos hd] at hr
      simp only [Option.some.injEq, Prod.mk.injEq] at hr
      rw [← hr.1]
      exact ⟨fun p hp => h.1 p (mem_eraseA_elim hp), h.2⟩
    · rw [if_neg hd] at hr
      simp only [Option.some.injEq, Prod.mk.injEq] at hr
      rw [← hr.1]
      refine ⟨fun p hp => ?_, h.2⟩
      rcases mem_insertA_elim hp with hp | hp
      · rw [hp]
        exact ⟨dec_nonneg hrn.1, hrn.2⟩
      · exact h.1 p hp

/-- `removeConnFromTopic` keeps all counters nonnegative. -/
theorem N_RCT {m : Manager} {t : Topic} {c : Conn} {m' : Manager} {evs : List Event}
    {b : Bool} (hr : m.removeConnFromTopic t c = some (m', evs, b))
    (h : NonnegM m) : NonnegM m' := by
  unfold Manager.removeConnFromTopic at hr
  by_cases hb : (m.removeConnFromTopicNoRefCounter t c).2
  · rw [if_pos hb] at hr
    exact N_refCountOnly hr (N_noRef h t c)
  · rw [if_neg hb] at hr
    simp only [Option.some.injEq, Prod.mk.injEq] at hr
    rw [← hr.1]
    exact N_noRef h t c

/-- The all-topics removal sweep keeps all counters nonnegative. -/
theorem N_sweep {c : Conn} :
    ∀ {ts : List Topic} {m m' : Manager} {evs : List Event},
      removeConnEverywhere m c ts = some (m', evs) → NonnegM m → NonnegM m' := by
  intro ts
  induction ts with
  | nil =>
    intro m m' evs hr h
    simp only [removeConnEverywhere, Option.some.injEq, Prod.mk.injEq] at hr
    rw [← hr.1]
    exact h
  | cons t rest ih =>
    intro m m' evs hr h
    simp only [removeConnEverywhere] at hr
    cases h₁ : m.removeConnFromTopic t c with
    | none =>
      rw [h₁] at hr
      simp at hr
    | some trip =>
      obtain ⟨m₁, evs₁, b₁⟩ := trip
      rw [h₁] at hr
      dsimp only at hr
      cases h₂ : removeConnEverywhere m₁ c rest with
      | none =>
        rw [h₂] at hr
        simp at hr
      | some pr =>
        obtain ⟨m₂, evs₂⟩ := pr
        rw [h₂] at hr
        simp only [Option.some.injEq, Prod.mk.injEq] at hr
        rw [← hr.1]
        exact ih h₂ (N_RCT h₁ h)

/-- The per-edge write-back of `message` keeps counters nonnegative
when the written value is nonnegative. -/
theorem N_updateEdgeCnt {topics : List (Topic × List (Conn × Int))}
    (h : ∀ p ∈ topics, ∀ q ∈ p.2, 0 ≤ q.2) (t : Topic) (c : Conn) {v : Int}
    (hv : 0 ≤ v) :
    ∀ p ∈ updateEdgeCnt topics t c v, ∀ q ∈ p.2, 0 ≤ q.2 := by
  unfold updateEdgeCnt
  cases hl : lookupA topics t with
  | none => exact h
  | some cs =>
    dsimp only
    cases hc : lookupA cs c with
    | none => exact h
    | some w =>
      dsimp only
      intro p hp
      rcases mem_insertA_elim hp with hp | hp
      · rw [hp]
        intro q hq
        rcases mem_insertA_elim hq with hq | hq
        · rw [hq]
          exact hv
        · exact h (t, cs) (mem_of_lookupA hl) q hq
      · exact h p hp

/-- Processing one fan-out connection keeps all counters
nonnegative. -/
theorem N_processConn {m : Manager} {t : Topic} {payload : Msg} {c : Conn}
    {m' : Manager} {evs : List Event}
    (hr : processConn m t payload c = some (m', evs)) (h : NonnegM m) : NonnegM m' := by
  unfold processConn at hr
  cases hl : lookupA m.conns c with
  | none =>
    rw [hl] at hr
    simp at hr
  | some ref =>
    rw [hl] at hr
    dsimp only at hr
    have hrn := h.1 (c, ref) (mem_of_lookupA hl)
    have hN₁ : NonnegM (⟨m.topics, insertA m.conns c
        ({ ref with messages := (counter.dec ref.messages).1 })⟩ : Manager) := by
      refine ⟨fun p hp => ?_, h.2⟩
      rcases mem_insertA_elim hp with hp | hp
      · rw [hp]
        exact ⟨hrn.1, dec_nonneg hrn.2⟩
      · exact h.1 p hp
    have hcnt0 : 0 ≤ (lookupA (getTopicConns m.topics t) c).getD 0 := by
      unfold getTopicConns
      cases hl₂ : lookupA m.topics t with
      | none => simp [lookupA]
      | some cs =>
        simp only [Option.getD_some]
        cases hv : lookupA cs c with
        | none => simp
        | some w =>
          simp only [Option.getD_some]
          exact h.2 (t, cs) (mem_of_lookupA hl₂) (c, w) (mem_of_lookupA hv)
    by_cases hd : (counter.dec ref.messages).2
    · rw [if_pos hd] at hr
      cases hrun : (removeConnEverywhere ⟨m.topics, insertA m.conns c ({ ref with messages := (counter.dec ref.messages).1 })⟩ c (List.map Prod.fst m.topics)) with
      | none =>
        rw [hrun] at hr
        simp at hr
      | some pr =>
        obtain ⟨m₂, evs₂⟩ := pr
        rw [hrun] at hr
        simp only [Option.some.injEq, Prod.mk.injEq] at hr
        rw [← hr.1]
        exact N_sweep hrun hN₁
    · rw [if_neg hd] at hr
      have hN₂ : NonnegM (⟨updateEdgeCnt m.topics t c
          (counter.dec ((lookupA (getTopicConns m.topics t) c).getD 0)).1,
          insertA m.conns c ({ ref with messages := (counter.dec ref.messages).1 })⟩
            : Manager) := by
        refine ⟨hN₁.1, ?_⟩
        exact N_updateEdgeCnt h.2 t c (dec_nonneg hcnt0)
      by_cases hd₂ : (counter.dec ((lookupA (getTopicConns m.topics t) c).getD 0)).2
      · rw [if_pos hd₂] at hr
        cases hrct : (Manager.removeConnFromTopic ⟨updateEdgeCnt m.topics t c (counter.dec ((lookupA (getTopicConns m.topics t) c).getD 0)).1, insertA m.conns c ({ ref with messages := (counter.dec ref.messages).1 })⟩ t c) with
        | none =>
          rw [hrct] at hr
          simp at hr
        | some trip =>
          obtain ⟨m₃, evs₃, b₃⟩ := trip
          rw [hrct] at hr
          simp only [Option.some.injEq, Prod.mk.injEq] at hr
          rw [← hr.1]
          exact N_RCT hrct hN₂
      · rw [if_neg hd₂] at hr
        simp only [Option.some.injEq, Prod.mk.injEq] at hr
        rw [← hr.1]
        exact hN₂

/-- The inner fan-out loop keeps all counters nonnegative. -/
theorem N_connsLoop {t : Topic} {payload : Msg} :
    ∀ {pend : List Conn} {m m' : Manager} {evs₀ evs' : List Event},
      messageConnsLoop m t payload pend evs₀ = some (m', evs') →
      NonnegM m → NonnegM m' := by
  intro pend
  induction pend with
  | nil =>
    intro m m' evs₀ evs' hr h
    simp only [messageConnsLoop, Option.some.injEq, Prod.mk.injEq] at hr
    rw [← hr.1]
    exact h
  | cons c rest ih =>
    intro m m' evs₀ evs' hr h
    simp only [messageConnsLoop] at hr
    cases hp : processConn m t payload c with
    | none =>
      rw [hp] at hr
      simp at hr
    | some pr =>
      obtain ⟨m₁, evs₁⟩ := pr
      rw [hp] at hr
      dsimp only at hr
      exact ih hr (N_processConn hp h)

/-- The outer fan-out loop keeps all counters nonnegative. -/
theorem N_topicsLoop {payload : Msg} :
    ∀ {ts : List Topic} {m m' : Manager} {evs₀ evs' : List Event},
      messageTopicsLoop m payload ts evs₀ = some (m', evs') →
      NonnegM m → NonnegM m' := by
  intro ts
  induction ts with
  | nil =>
    intro m m' evs₀ evs' hr h
    simp only [messageTopicsLoop, Option.some.injEq, Prod.mk.injEq] at hr
    rw [← hr.1]
    exact h
  | cons t rest ih =>
    intro m m' evs₀ evs' hr h
    simp only [messageTopicsLoop] at hr
    cases hc : messageConnsLoop m t payload (((lookupA m.topics t).getD []).map Prod.fst) evs₀ with
    | none =>
      rw [hc] at hr
      simp at hr
    | some pr =>
      obtain ⟨m₁, evs₁⟩ := pr
      rw [hc] at hr
      dsimp only at hr
      exact ih hr (N_connsLoop hc h)

/-- `message` keeps all counters nonnegative. -/
theorem N_message {m : Manager} {msg : Message} {m' : Manager} {evs : List Event}
    (hr : m.message msg = some (m', evs)) (h : NonnegM m) : NonnegM m' :=
  N_topicsLoop hr h

/-- The topic loop of `disconnect` keeps all counters nonnegative. -/
theorem N_disconnectLoop {c : Conn} :
    ∀ {ts : List Topic} {m m' : Manager} {evs : List Event},
      disconnectLoop m c ts = some (m', evs) → NonnegM m → NonnegM m' := by
  intro ts
  induction ts with
  | nil =>
    intro m m' evs hr h
    simp only [disconnectLoop, Option.some.injEq, Prod.mk.injEq] at hr
    rw [← hr.1]
    exact h
  | cons t rest ih =>
    intro m m' evs hr h
    simp only [disconnectLoop] at hr
    cases hl : lookupA m.topics t with
    | none =>
      rw [hl] at hr
      exact ih hr h
    | some cs =>
      rw [hl] at hr
      dsimp only at hr
      cases hrct : m.removeConnFromTopic t c with
      | none =>
        rw [hrct] at hr
        simp at hr
      | some trip =>
        obtain ⟨m₁, evs₁, b₁⟩ := trip
        rw [hrct] at hr
        dsimp only at hr
        have hN₁ : NonnegM m₁ := N_RCT hrct h
        by_cases hb : b₁ = true
        · rw [if_pos hb] at hr
          simp only [Option.some.injEq, Prod.mk.injEq] at hr
          rw [← hr.1]
          exact hN₁
        · rw [if_neg hb] at hr
          cases hrec : disconnectLoop m₁ c rest with
          | none =>
            rw [hrec] at hr
            simp at hr
          | some pr =>
            obtain ⟨m₂, evs₂⟩ := pr
            rw [hrec] at hr
            simp only [Option.some.injEq, Prod.mk.injEq] at hr
            rw [← hr.1]
            exact ih hrec hN₁

/-- `disconnect` keeps all counters nonnegative. -/
theorem N_disconnect {m : Manager} {d : Disconnect} {m' : Manager} {evs : List Event}
    (hr : m.disconnect d = some (m', evs)) (h : NonnegM m) : NonnegM m' := by
  unfold Manager.disconnect at hr
  cases hl : lookupA m.conns d.conn with
  | none =>
    rw [hl] at hr
    simp only [Option.some.injEq, Prod.mk.injEq] at hr
    rw [← hr.1]
    exact h
  | some ref =>
    rw [hl] at hr
    exact N_disconnectLoop hr h

/-- The refcount loop of `closeTopics` keeps all counters
nonnegative. -/
theorem N_closeConnsLoop :
    ∀ {pend : List Conn} {m m' : Manager} {evs₀ evs' : List Event},
      closeTopicConnsLoop m pend evs₀ = some (m', evs') → NonnegM m → NonnegM m' := by
  intro pend
  induction pend with
  | nil =>
    intro m m' evs₀ evs' hr h
    simp only [closeTopicConnsLoop, Option.some.injEq, Prod.mk.injEq] at hr
    rw [← hr.1]
    exact h
  | cons c rest ih =>
    intro m m' evs₀ evs' hr h
    simp only [closeTopicConnsLoop] at hr
    cases hrc : m.removeConnFromTopicRefCountOnly c with
    | none =>
      rw [hrc] at hr
      simp at hr
    | some trip =>
      obtain ⟨m₁, evs₁, b₁⟩ := trip
      rw [hrc] at hr
      dsimp only at hr
      exact ih hr (N_refCountOnly hrc h)

/-- Dropping a topic keeps all counters nonnegative. -/
theorem N_eraseTopic {m : Manager} (h : NonnegM m) (t : Topic) :
    NonnegM (⟨eraseA m.topics t, m.conns⟩ : Manager) :=
  ⟨h.1, fun p hp => h.2 p (mem_eraseA_elim hp)⟩

/-- The topic loop of `closeTopics` keeps all counters nonnegative. -/
theorem N_closeTopicsLoop :
    ∀ {ts : List Topic} {m m' : Manager} {evs₀ evs' : List Event},
      closeTopicsLoop m ts evs₀ = some (m', evs') → NonnegM m → NonnegM m' := by
  intro ts
  induction ts with
  | nil =>
    intro m m' evs₀ evs' hr h
    simp only [closeTopicsLoop, Option.some.injEq, Prod.mk.injEq] at hr
    rw [← hr.1]
    exact h
  | cons t rest ih =>
    intro m m' evs₀ evs' hr h
    simp only [closeTopicsLoop] at hr
    cases hl : lookupA m.topics t with
    | none =>
      rw [hl] at hr
      exact ih hr h
    | some cs =>
      rw [hl] at hr
      dsimp only at hr
      cases hcl : closeTopicConnsLoop (⟨eraseA m.topics t, m.conns⟩ : Manager)
          (cs.map Prod.fst) evs₀ with
      | none =>
        rw [hcl] at hr
        simp at hr
      | some pr =>
        obtain ⟨m₁, evs₁⟩ := pr
        rw [hcl] at hr
        dsimp only at hr
        exact ih hr (N_closeConnsLoop hcl (N_eraseTopic h t))

/-- `closeTopics` keeps all counters nonnegative. -/
theorem N_closeTopics {m : Manager} {ts : List Topic} {m' : Manager} {evs : List Event}
    (hr : m.closeTopics ts = some (m', evs)) (h : NonnegM m) : NonnegM m' :=
  N_closeTopicsLoop hr h

/-- The loop of `closeAllTopics` keeps all counters nonnegative. -/
theorem N_closeAllLoop :
    ∀ {snap : List (Topic × List (Conn × Int))} {m m' : Manager} {evs₀ evs' : List Event},
      closeAllTopicsLoop m snap evs₀ = some (m', evs') → NonnegM m → NonnegM m' := by
  intro snap
  induction snap with
  | nil =>
    intro m m' evs₀ evs' hr h
    simp only [closeAllTopicsLoop, Option.some.injEq, Prod.mk.injEq] at hr
    rw [← hr.1]
    exact h
  | cons p rest ih =>
    obtain ⟨t, cs⟩ := p
    intro m m' evs₀ evs' hr h
    simp only [closeAllTopicsLoop] at hr
    cases hcl : closeTopicConnsLoop (⟨eraseA m.topics t, m.conns⟩ : Manager)
        (cs.map Prod.fst) evs₀ with
    | none =>
      rw [hcl] at hr
      simp at hr
    | some pr =>
      obtain ⟨m₁, evs₁⟩ := pr
      rw [hcl] at hr
      dsimp only at hr
      exact ih hr (N_closeConnsLoop hcl (N_eraseTopic h t))

/-- `closeAllTopics` keeps all counters nonnegative. -/
theorem N_closeAll {m : Manager} {m' : Manager} {evs : List Event}
    (hr : m.closeAllTopics = some (m', evs)) (h : NonnegM m) : NonnegM m' :=
  N_closeAllLoop hr h

/-- The `disconnectAll` sweep keeps all counters nonnegative. -/
theorem N_removeAllNoRef {c : Conn} :
    ∀ (ts : List Topic) (m : Manager), NonnegM m →
      NonnegM (removeConnAllTopicsNoRef m c ts) := by
  intro ts
  induction ts with
  | nil => intro m h; exact h
  | cons t rest ih =>
    intro m h
    simp only [removeConnAllTopicsNoRef]
    exact ih _ (N_noRef h t c)

/-- `disconnectAll` keeps all counters nonnegative. -/
theorem N_disconnectAll {m : Manager} (h : NonnegM m) (c : Conn) :
    NonnegM (m.disconnectAll c).1 := by
  unfold Manager.disconnectAll
  cases hl : lookupA m.conns c with
  | none => exact h
  | some ref =>
    dsimp only
    exact N_removeAllNoRef _ _ ⟨fun p hp => h.1 p (mem_eraseA_elim hp), h.2⟩

/-- The known-subscriber loop of `connectEach` keeps the routing-table
counters nonnegative and the refcount accumulator nonnegative, for
nonnegative listed per-topic counts. -/
theorem N_knownLoop (conn : Conn) :
    ∀ (T : List TopicConn) (topics : List (Topic × List (Conn × Int))) (refT : Int),
      (∀ p ∈ topics, ∀ q ∈ p.2, 0 ≤ q.2) → (∀ p ∈ T, 0 ≤ p.2) → 0 ≤ refT →
      (∀ p ∈ (connectEachKnownLoop conn T topics refT).1, ∀ q ∈ p.2, 0 ≤ q.2) ∧
      0 ≤ (connectEachKnownLoop conn T topics refT).2 := by
  intro T
  induction T with
  | nil =>
    intro topics refT ht _ hr
    exact ⟨ht, hr⟩
  | cons p rest ih =>
    intro topics refT ht hT hr
    simp only [connectEachKnownLoop]
    have hcs : ∀ q ∈ getTopicConns topics p.1, 0 ≤ q.2 := by
      unfold getTopicConns
      cases hl : lookupA topics p.1 with
      | none => simp
      | some cs₀ =>
        simp only [Option.getD_some]
        exact ht (p.1, cs₀) (mem_of_lookupA hl)
    cases hl : lookupA (getTopicConns topics p.1) conn with
    | some cnt =>
      dsimp only
      apply ih
      · intro q hq
        rcases mem_insertA_elim hq with hq | hq
        · rw [hq]
          intro r hrr
          rcases mem_insertA_elim hrr with hrr | hrr
          · rw [hrr]
            exact reset_nonneg (hcs (conn, cnt) (mem_of_lookupA hl)) p.2
          · exact hcs r hrr
        · exact ht q hq
      · intro q hq
        exact hT q (by simp [hq])
      · exact hr
    | none =>
      dsimp only
      apply ih
      · intro q hq
        rcases mem_insertA_elim hq with hq | hq
        · rw [hq]
          intro r hrr
          rcases mem_insertA_elim hrr with hrr | hrr
          · rw [hrr]
            exact hT p (by simp)
          · exact hcs r hrr
        · exact ht q hq
      · intro q hq
        exact hT q (by simp [hq])
      · exact inc_nonneg hr

/-- The fresh-subscriber loop of `connectEach` keeps the routing-table
counters nonnegative, for nonnegative listed per-topic counts. -/
theorem N_freshLoop (conn : Conn) :
    ∀ (T : List TopicConn) (topics : List (Topic × List (Conn × Int))),
      (∀ p ∈ topics, ∀ q ∈ p.2, 0 ≤ q.2) → (∀ p ∈ T, 0 ≤ p.2) →
      ∀ p ∈ connectEachFreshLoop conn T topics, ∀ q ∈ p.2, 0 ≤ q.2 := by
  intro T
  induction T with
  | nil => intro topics ht _; exact ht
  | cons p rest ih =>
    intro topics ht hT
    simp only [connectEachFreshLoop]
    have hcs : ∀ q ∈ getTopicConns topics p.1, 0 ≤ q.2 := by
      unfold getTopicConns
      cases hl : lookupA topics p.1 with
      | none => simp
      | some cs₀ =>
        simp only [Option.getD_some]
        exact ht (p.1, cs₀) (mem_of_lookupA hl)
    apply ih
    · intro q hq
      rcases mem_insertA_elim hq with hq | hq
      · rw [hq]
        intro r hrr
        rcases mem_insertA_elim hrr with hrr | hrr
        · rw [hrr]
          exact hT p (by simp)
        · exact hcs r hrr
      · exact ht q hq
    · intro q hq
      exact hT q (by simp [hq])

/-- `connectEach` keeps all counters nonnegative, for commands with
nonnegative total and per-topic counts. -/
theorem N_connectEach {m : Manager} (h : NonnegM m) (cmd : ConnectEach)
    (hq : 0 ≤ cmd.messageCount) (hT : ∀ p ∈ cmd.topics, 0 ≤ p.2) :
    NonnegM (m.connectEach cmd) := by
  unfold Manager.connectEach
  cases hl : lookupA m.conns cmd.conn with
  | some ref =>
    dsimp only
    have hrn := h.1 (cmd.conn, ref) (mem_of_lookupA hl)
    obtain ⟨htop, hrT⟩ :=
      N_knownLoop cmd.conn cmd.topics m.topics ref.topics h.2 hT hrn.1
    refine ⟨fun p hp => ?_, htop⟩
    rcases mem_insertA_elim hp with hp | hp
    · rw [hp]
      exact ⟨hrT, reset_nonneg hrn.2 cmd.messageCount⟩
    · exact h.1 p hp
  | none =>
    dsimp only
    have hT' : ∀ p ∈ (if cmd.topics = [] then [((defaultTopic : Topic), (0 : Int))]
        else cmd.topics), 0 ≤ p.2 := by
      by_cases hemp : cmd.topics = []
      · rw [if_pos hemp]
        simp
      · rw [if_neg hemp]
        exact hT
    refine ⟨fun p hp => ?_, N_freshLoop cmd.conn _ m.topics h.2 hT'⟩
    rcases mem_insertA_elim hp with hp | hp
    · rw [hp]
      refine ⟨?_, hq⟩
      show (0 : Int) ≤ ((if cmd.topics = [] then [((defaultTopic : Topic), (0 : Int))]
        else cmd.topics).length : Int)
      positivity
    · exact h.1 p hp

/-- One dispatch of `Hub.Start` keeps all counters nonnegative, for
commands with nonnegative counts. -/
theorem N_stepCmd {m : Manager} {cmd : Cmd} {m' : Manager} {evs : List Event}
    (hr : stepCmd m cmd = some (m', evs)) (h : NonnegM m) (hn : cmd.nonnegCounts) :
    NonnegM m' := by
  cases cmd with
  | message msg => exact N_message hr h
  | connect c =>
    simp only [stepCmd, Option.some.injEq, Prod.mk.injEq] at hr
    rw [← hr.1]
    refine N_connectEach h c.toConnectEach hn ?_
    intro p hp
    simp only [Connect.toConnectEach] at hp
    obtain ⟨t, -, hpt⟩ := List.mem_map.mp hp
    rw [← hpt]
  | connectEach c =>
    simp only [stepCmd, Option.some.injEq, Prod.mk.injEq] at hr
    rw [← hr.1]
    exact N_connectEach h c hn.1 hn.2
  | disconnect d => exact N_disconnect hr h
  | disconnectAll c =>
    simp only [stepCmd, Option.some.injEq] at hr
    have hm : m' = (m.disconnectAll c).1 := by
      rw [hr]
    rw [hm]
    exact N_disconnectAll h c
  | closeTopics ts => exact N_closeTopics hr h
  | closeAll => exact N_closeAll hr h
  | bareConn c =>
    simp only [stepCmd, Option.some.injEq, Prod.mk.injEq] at hr
    rw [← hr.1]
    exact N_connectEach h ⟨c, [], 0, false⟩ (le_refl 0) (by simp)
  | other p => exact N_message hr h

/-- The command loop keeps all counters nonnegative, for command
sequences with nonnegative counts. -/
theorem N_runCmds :
    ∀ {cmds : List Cmd} {m m' : Manager} {evs : List Event},
      runCmds m cmds = some (m', evs) → NonnegM m →
      (∀ cmd ∈ cmds, cmd.nonnegCounts) → NonnegM m' := by
  intro cmds
  induction cmds with
  | nil =>
    intro m m' evs hr h _
    simp only [runCmds, Option.some.injEq, Prod.mk.injEq] at hr
    rw [← hr.1]
    exact h
  | cons cmd rest ih =>
    intro m m' evs hr h hn
    simp only [runCmds] at hr
    cases hstep : stepCmd m cmd with
    | none =>
      rw [hstep] at hr
      simp at hr
    | some pr =>
      obtain ⟨m₁, evs₁⟩ := pr
      rw [hstep] at hr
      dsimp only at hr
      cases hrec : runCmds m₁ rest with
      | none =>
        rw [hrec] at hr
        simp at hr
      | some pr₂ =>
        obtain ⟨m₂, evs₂⟩ := pr₂
        rw [hrec] at hr
        simp only [Option.some.injEq, Prod.mk.injEq] at hr
        rw [← hr.1]
        exact ih hrec (N_stepCmd hstep h (hn cmd (by simp)))
          (fun c hc => hn c (by simp [hc]))

/-- C3 (amended): in every state reachable from the empty manager by
commands whose Connect/ConnectEach message counts (total and
per-topic) are nonnegative, every stored counter — each subscriber's
topic refcount and total message budget, and each per-edge counter —
is nonnegative.  (A fresh Connect with a negative count stores it
verbatim — see the counterexample.) -/
theorem c3_counters_nonneg (cmds : List Cmd) (m : Manager) (evs : List Event)
    (hn : ∀ cmd ∈ cmds, cmd.nonnegCounts)
    (hrun : runCmds newManager cmds = some (m, evs)) : NonnegM m :=
  N_runCmds hrun (by decide) hn

/-- Witness for C3: a concrete nonnegative run whose final counters
are all nonnegative. -/
theorem c3_witness :
    ∃ m evs, runCmds newManager [Cmd.connectEach ⟨5, [(1, 2)], 3, false⟩]
        = some (m, evs) ∧ NonnegM m := by
  refine ⟨⟨[(1, [(5, 2)])], [(5, ⟨1, 3, false⟩)]⟩, [], rfl, ?_⟩
  exact c3_counters_nonneg [Cmd.connectEach ⟨5, [(1, 2)], 3, false⟩]
    ⟨[(1, [(5, 2)])], [(5, ⟨1, 3, false⟩)]⟩ [] (by decide) rfl

end Hub
